import Mathlib

/-!
Verification of the weiqi_py Go engine core (`weiqi_py/board.py`,
`weiqi_py/move.py`) against its natural-language specification.

The Python code is shallowly embedded:

* the padded numpy grid is represented by its interior stone content
  (a `Finset` of black coordinates and one of white coordinates; empty
  interior cells and the `OFFBOARD` border are recovered from `size`);
* Python `dict` / `collections.defaultdict` objects are association lists
  (`PyDict`) so that `defaultdict`'s insert-on-read and `del`'s `KeyError`
  behaviour are captured exactly;
* Python `set` objects whose contents matter are `Finset`s; internal
  worklists that the source builds by repeated `set.add` are dedup lists;
* exceptions are explicit: operations that can raise return an error
  component next to the (possibly partially mutated) state, mirroring the
  fact that a raised exception leaves earlier field assignments in place;
* machine integers: numpy's 63-bit Zobrist entries are non-negative and
  XOR never overflows, so hashes are plain `ℕ` with `^^^`.
-/

namespace Weiqi

/-- Cell state constant `EMPTY = 0` from `board.py`. -/
def EMPTY : ℤ := 0

/-- Cell state constant `BLACK = 1` from `board.py`. -/
def BLACK : ℤ := 1

/-- Cell state constant `WHITE = 2` from `board.py`. -/
def WHITE : ℤ := 2

/-- Cell state constant `OFFBOARD = 3` from `board.py`. -/
def OFFBOARD : ℤ := 3

/-- A board coordinate `(y, x)`; Python integers are unbounded, hence `ℤ`. -/
abbrev Coord := ℤ × ℤ

/-- `DIRECTIONS = [(-1, 0), (0, 1), (1, 0), (0, -1)]` from `board.py`. -/
def DIRECTIONS : List (ℤ × ℤ) := [(-1, 0), (0, 1), (1, 0), (0, -1)]

/-- Insertion-ordered association list modelling a Python `dict`. -/
abbrev PyDict (K V : Type) := List (K × V)

/-- `d.get(k)` / `k in d`: first binding of `k`, if any. -/
def dictFind? {K V : Type} [DecidableEq K] : PyDict K V → K → Option V
  | [], _ => none
  | (k2, v) :: rest, k => if k2 = k then some v else dictFind? rest k

/-- `d[k] = v`: overwrite in place if present, else append. -/
def dictSet {K V : Type} [DecidableEq K] : PyDict K V → K → V → PyDict K V
  | [], k, v => [(k, v)]
  | (k2, v2) :: rest, k, v =>
    if k2 = k then (k, v) :: rest else (k2, v2) :: dictSet rest k v

/-- Remove the binding of `k` if present (no error). -/
def dictErase {K V : Type} [DecidableEq K] : PyDict K V → K → PyDict K V
  | [], _ => []
  | (k2, v2) :: rest, k => if k2 = k then rest else (k2, v2) :: dictErase rest k

/-- `del d[k]`: `none` models the `KeyError` raised on a missing key. -/
def dictErase? {K V : Type} [DecidableEq K] (d : PyDict K V) (k : K) :
    Option (PyDict K V) :=
  if (dictFind? d k).isSome then some (dictErase d k) else none

/-- `defaultdict.__getitem__`: return the binding of `k`, inserting the
default value first when `k` is missing (this mutation is why reads of the
group dictionaries are state-passing below). -/
def dictGetIns {K V : Type} [DecidableEq K] (d : PyDict K V) (k : K) (dflt : V) :
    V × PyDict K V :=
  match dictFind? d k with
  | some v => (v, d)
  | none => (dflt, d ++ [(k, dflt)])

/-- Keys of a `PyDict`, in insertion order. -/
def dictKeys {K V : Type} (d : PyDict K V) : List K := d.map Prod.fst

/-- In-bounds test `1 <= y <= size and 1 <= x <= size` used throughout
`board.py`. -/
def inB (size y x : ℤ) : Prop := 1 ≤ y ∧ y ≤ size ∧ 1 ≤ x ∧ x ≤ size

instance (size y x : ℤ) : Decidable (inB size y x) := by
  unfold inB
  infer_instance

/-- The padded numpy array `Board.board`, represented by its interior stone
content.  `cellAt` recovers reads of the array. -/
structure Grid where
  size : ℤ
  black : Finset Coord
  white : Finset Coord
  deriving DecidableEq

/-- Read `board[y, x]`: `OFFBOARD` on the padding border, otherwise the stone
(or `EMPTY`) at the interior cell. -/
def cellAt (g : Grid) (y x : ℤ) : ℤ :=
  if inB g.size y x then
    if (y, x) ∈ g.black then BLACK else if (y, x) ∈ g.white then WHITE else EMPTY
  else OFFBOARD

/-- Write `board[y, x] = v` for `v ∈ {EMPTY, BLACK, WHITE}`. -/
def setCell (g : Grid) (y x v : ℤ) : Grid :=
  if v = BLACK then
    { g with black := insert (y, x) g.black, white := g.white.erase (y, x) }
  else if v = WHITE then
    { g with white := insert (y, x) g.white, black := g.black.erase (y, x) }
  else
    { g with black := g.black.erase (y, x), white := g.white.erase (y, x) }

/-- The neighbour scan `for dy, dx in DIRECTIONS: ... if in bounds and
board[ny, nx] == EMPTY`, collecting the empty neighbours of `(y, x)`;
`size` is the scanning object's own `size` attribute. -/
def emptyNbrs (size : ℤ) (g : Grid) (y x : ℤ) : Finset Coord :=
  DIRECTIONS.foldl (fun s d =>
    let ny := y + d.1
    let nx := x + d.2
    if inB size ny nx ∧ cellAt g ny nx = EMPTY then insert (ny, nx) s else s) ∅

/-- `opponent = WHITE if color == BLACK else BLACK`. -/
def opponentOf (color : ℤ) : ℤ := if color = BLACK then WHITE else BLACK

/-- Dedup-append used to model `set.add` on the source's worklists of group
ids (`captured_groups`, `adjacent_groups`, `affected_groups`). -/
def addId (l : List ℕ) (gid : ℕ) : List ℕ := if gid ∈ l then l else l ++ [gid]

/-- A total order on coordinates used to iterate `Finset`s of stones
deterministically where the source iterates a Python set (all such loops
are order-independent in effect). -/
def coordLE (a b : Coord) : Prop := a.1 < b.1 ∨ (a.1 = b.1 ∧ a.2 ≤ b.2)

instance : DecidableRel coordLE := fun a b => by
  unfold coordLE
  infer_instance

/-- Insert a coordinate into a `coordLE`-sorted list. -/
def insCoord (c : Coord) : List Coord → List Coord
  | [] => [c]
  | d :: t => if coordLE c d then c :: d :: t else d :: insCoord c t

instance : LeftCommutative insCoord := by
  have htotal : ∀ a b : Coord, coordLE a b ∨ coordLE b a := by
    intro a b
    unfold coordLE
    omega
  have hanti : ∀ a b : Coord, coordLE a b → coordLE b a → a = b := by
    intro a b h1 h2
    rcases h1 with h1 | ⟨h1, h3⟩ <;> rcases h2 with h2 | ⟨h2, h4⟩ <;>
      [omega; omega; omega; exact Prod.ext h1 (le_antisymm h3 h4)]
  have htrans : ∀ a b c : Coord, coordLE a b → coordLE b c → coordLE a c := by
    intro a b c h1 h2
    unfold coordLE at h1 h2 ⊢
    omega
  refine ⟨fun a b l => ?_⟩
  induction l with
  | nil =>
    by_cases hab : coordLE a b <;> by_cases hba : coordLE b a <;>
      simp [insCoord, hab, hba]
    · exact ⟨hanti a b hab hba, hanti b a hba hab⟩
    · exact absurd (htotal a b) (by simp [hab, hba])
  | cons d t ih =>
    by_cases had : coordLE a d <;> by_cases hbd : coordLE b d
    · by_cases hab : coordLE a b <;> by_cases hba : coordLE b a
      · cases hanti a b hab hba
        rfl
      · simp [insCoord, had, hbd, hab, hba]
      · simp [insCoord, had, hbd, hab, hba]
      · exact absurd (htotal a b) (by simp [hab, hba])
    · have hba : ¬ coordLE b a := fun h => hbd (htrans b a d h had)
      simp [insCoord, had, hbd, hba]
    · have hab : ¬ coordLE a b := fun h => had (htrans a b d h hbd)
      simp [insCoord, had, hbd, hab]
    · simp [insCoord, had, hbd, ih]

/-- Iterate a finite set of coordinates in a fixed (sorted) order; stands in
for Python's (order-irrelevant) iteration over a `set` of coordinates. -/
def sortCoords (s : Finset Coord) : List Coord := Multiset.foldr insCoord [] s.val

/-- XOR as a fold operation on hashes. -/
def xorOp : ℕ → ℕ → ℕ := fun a b => a ^^^ b

instance : Std.Commutative xorOp := ⟨Nat.xor_comm⟩

instance : Std.Associative xorOp := ⟨Nat.xor_assoc⟩

/-- XOR of `f` over a finite set of coordinates. -/
def xorSet (s : Finset Coord) (f : Coord → ℕ) : ℕ := s.fold xorOp 0 f

/-- `GroupManager` from `board.py`: coordinate-to-id map, per-id stone and
liberty sets (both `defaultdict(set)` in the source), and the id counter. -/
structure GroupManager where
  size : ℤ
  groups : PyDict Coord ℕ
  group_stones : PyDict ℕ (Finset Coord)
  group_liberties : PyDict ℕ (Finset Coord)
  next_group_id : ℕ
  deriving DecidableEq

/-- `GroupManager.__init__`. -/
def GroupManager.init0 (size : ℤ) : GroupManager := ⟨size, [], [], [], 0⟩

/-- `GroupManager.get_group_id`. -/
def get_group_id (gm : GroupManager) (y x : ℤ) : Option ℕ :=
  dictFind? gm.groups (y, x)

/-- `GroupManager.get_group_stones`: `group_stones` is a `defaultdict(set)`,
so a missing id yields a fresh empty set (inserted into the dict) rather
than a `KeyError`. -/
def get_group_stones (gm : GroupManager) (gid : ℕ) : Finset Coord × GroupManager :=
  let p := dictGetIns gm.group_stones gid ∅
  (p.1, { gm with group_stones := p.2 })

/-- `GroupManager.get_group_liberties`: same `defaultdict` behaviour. -/
def get_group_liberties (gm : GroupManager) (gid : ℕ) : Finset Coord × GroupManager :=
  let p := dictGetIns gm.group_liberties gid ∅
  (p.1, { gm with group_liberties := p.2 })

/-- `GroupManager.create_group`. -/
def create_group (gm : GroupManager) (y x color : ℤ) (board : Grid) :
    ℕ × GroupManager :=
  let gid := gm.next_group_id
  let groups2 := dictSet gm.groups (y, x) gid
  let ps := dictGetIns gm.group_stones gid ∅
  let stones2 := dictSet ps.2 gid (insert (y, x) ps.1)
  let libs := emptyNbrs gm.size board y x
  let libs2 := dictSet gm.group_liberties gid libs
  (gid, { gm with groups := groups2, group_stones := stones2,
                  group_liberties := libs2, next_group_id := gid + 1 })

/-- One iteration of the collection loop of `GroupManager.merge_groups`:
read both `defaultdict`s for the id, accumulate its stones and liberties,
and delete the id's entries when it is not the surviving id. -/
def mergeCollectStep (new_group_id : ℕ)
    (acc : Finset Coord × Finset Coord × GroupManager) (gid : ℕ) :
    Finset Coord × Finset Coord × GroupManager :=
  let allS := acc.1
  let allL := acc.2.1
  let gmA := acc.2.2
  let ps := dictGetIns gmA.group_stones gid ∅
  let pl := dictGetIns gmA.group_liberties gid ∅
  let gmB : GroupManager := { gmA with group_stones := ps.2, group_liberties := pl.2 }
  let gmC : GroupManager :=
    if gid ≠ new_group_id then
      { gmB with group_stones := dictErase gmB.group_stones gid,
                 group_liberties := dictErase gmB.group_liberties gid }
    else gmB
  (allS ∪ ps.1, allL ∪ pl.1, gmC)

/-- `GroupManager.merge_groups`; `none` models the `ValueError` on an empty
id set.  The surviving id is the minimum of the merged ids. -/
def merge_groups (gm : GroupManager) (group_ids : List ℕ) (new_stone : Coord)
    (board : Grid) : Option (ℕ × GroupManager) :=
  match group_ids with
  | [] => none
  | g0 :: rest =>
    let new_group_id := rest.foldl min g0
    let r := group_ids.foldl (mergeCollectStep new_group_id)
      ((∅ : Finset Coord), (∅ : Finset Coord), gm)
    let all_stones := insert new_stone r.1
    let all_liberties := (r.2.1).erase new_stone ∪ emptyNbrs gm.size board new_stone.1 new_stone.2
    let gmD := r.2.2
    let gmE : GroupManager :=
      { gmD with group_stones := dictSet gmD.group_stones new_group_id all_stones,
                 group_liberties := dictSet gmD.group_liberties new_group_id all_liberties }
    let groups2 := (sortCoords all_stones).foldl (fun d c => dictSet d c new_group_id) gmE.groups
    some (new_group_id, { gmE with groups := groups2 })

/-- One `del self.groups[(y, x)]` of `GroupManager.remove_group`: `none`
models the `KeyError` raised on a missing key, which aborts the loop. -/
def delAllStep {K V : Type} [DecidableEq K] (acc : Option (PyDict K V)) (k : K) :
    Option (PyDict K V) :=
  match acc with
  | none => none
  | some d => if (dictFind? d k).isSome then some (dictErase d k) else none

/-- `GroupManager.remove_group`; `none` models a `KeyError` (from `del` on
the coordinate map or on `group_liberties`).  Note the `defaultdict` read
of `group_stones` means that dict's own `del` always succeeds. -/
def remove_group (gm : GroupManager) (gid : ℕ) : Option GroupManager :=
  let ps := dictGetIns gm.group_stones gid ∅
  let gm1 : GroupManager := { gm with group_stones := ps.2 }
  let del := (sortCoords ps.1).foldl delAllStep (some gm1.groups)
  match del with
  | none => none
  | some groups2 =>
    match dictErase? gm1.group_liberties gid with
    | none => none
    | some libs2 =>
      some { gm1 with groups := groups2,
                      group_stones := dictErase gm1.group_stones gid,
                      group_liberties := libs2 }

/-- The `affected_groups` scan of `GroupManager.update_adjacent_liberties`. -/
def affectedGroups (gm : GroupManager) (y x : ℤ) : List ℕ :=
  DIRECTIONS.foldl (fun acc d =>
    let ny := y + d.1
    let nx := x + d.2
    if inB gm.size ny nx then
      match get_group_id gm ny nx with
      | some gid => addId acc gid
      | none => acc
    else acc) []

/-- The per-group body of `GroupManager.update_adjacent_liberties`: discard
the placed coordinate from the group's liberties; then branch on the value
of `board[y, x]` (the placed stone's own cell) to decide between the
capture-removal check and the add-new-liberties step.  `none` models a
`KeyError` escaping from the inner `remove_group` call. -/
def ualStep (y x color : ℤ) (board : Grid) (gmA : GroupManager) (gid : ℕ) :
    Option GroupManager :=
  let opponent := opponentOf color
  let pl := dictGetIns gmA.group_liberties gid ∅
  let libs2 := pl.1.erase (y, x)
  let gmB : GroupManager := { gmA with group_liberties := dictSet pl.2 gid libs2 }
  if cellAt board y x = opponent then
    if libs2 = ∅ then remove_group gmB gid else some gmB
  else if cellAt board y x = color then
    some { gmB with group_liberties :=
             dictSet gmB.group_liberties gid (libs2 ∪ emptyNbrs gmA.size board y x) }
  else some gmB

/-- `GroupManager.update_adjacent_liberties`: apply `ualStep` to every group
adjacent to the placed stone; a `KeyError` escaping the loop aborts it. -/
def update_adjacent_liberties (gm : GroupManager) (y x color : ℤ) (board : Grid) :
    Option GroupManager :=
  (affectedGroups gm y x).foldl
    (fun acc gid => acc.bind (fun gmA => ualStep y x color board gmA gid)) (some gm)

/-- Errors raised by `board.py` / `move.py`. -/
inductive GoErr where
  | valueError (msg : String)
  | invalidMove (y x : ℤ) (reason : String)
  | keyError
  | moveError (orig : GoErr)
  deriving DecidableEq

/-- `Board` from `board.py`; the numpy array is represented by the stone
sets (see `Grid`), and the Zobrist table is the fixed function drawn at
construction from numpy's seeded generator. -/
structure Board where
  size : ℤ
  black : Finset Coord
  white : Finset Coord
  black_captures : ℕ
  white_captures : ℕ
  position_history : Finset ℕ
  zobrist : ℤ → ℤ → ℤ → ℕ
  current_hash : ℕ
  group_manager : GroupManager

/-- The grid view of a board. -/
def Board.grid (b : Board) : Grid := ⟨b.size, b.black, b.white⟩

/-- The interior coordinates `1..size × 1..size` scanned by
`Board._update_position_hash`. -/
def interior (size : ℤ) : Finset Coord := Finset.Icc 1 size ×ˢ Finset.Icc 1 size

/-- One cell's contribution to the from-scratch hash: the Zobrist entry of
the occupied cell, or `0` for an empty cell. -/
def cellContribution (zob : ℤ → ℤ → ℤ → ℕ) (g : Grid) (c : Coord) : ℕ :=
  if 0 < cellAt g c.1 c.2 then zob c.1 c.2 (cellAt g c.1 c.2 - 1) else 0

/-- The from-scratch fingerprint over a grid: XOR of the Zobrist entries of
every occupied (coordinate, color) pair scanned over the interior. -/
def gridHash (zob : ℤ → ℤ → ℤ → ℕ) (g : Grid) : ℕ :=
  (interior g.size).fold xorOp 0 (cellContribution zob g)

/-- The from-scratch fingerprint computed by `Board._update_position_hash`. -/
def recomputedHash (b : Board) : ℕ := gridHash b.zobrist b.grid

/-- `Board._update_position_hash`: recompute `current_hash` from scratch and
commit it into `position_history`. -/
def update_position_hash (b : Board) : Board :=
  let h := recomputedHash b
  { b with current_hash := h, position_history := insert h b.position_history }

/-- The successful path of `Board.__init__` (size already validated). -/
def Board.mk0 (size : ℤ) (zob : ℤ → ℤ → ℤ → ℕ) : Board :=
  update_position_hash
    { size := size, black := ∅, white := ∅, black_captures := 0, white_captures := 0,
      position_history := ∅, zobrist := zob, current_hash := 0,
      group_manager := GroupManager.init0 size }

/-- `Board.__init__` including the size validation. -/
def Board.construct (size : ℤ) (zob : ℤ → ℤ → ℤ → ℕ) : Except GoErr Board :=
  if 5 ≤ size ∧ size ≤ 25 then .ok (Board.mk0 size zob)
  else .error (.valueError "Board size must be between 5 and 25")

/-- `Board.reset`: clear the interior (`board[1:-1, 1:-1] = EMPTY`), zero the
counters, empty the history, rebuild the group manager, and recompute the
hash. -/
def Board.reset (b : Board) : Board :=
  update_position_hash
    { b with black := b.black.filter (fun c => ¬ inB b.size c.1 c.2),
             white := b.white.filter (fun c => ¬ inB b.size c.1 c.2),
             black_captures := 0, white_captures := 0, position_history := ∅,
             current_hash := 0, group_manager := GroupManager.init0 b.size }

/-- Result of `Board._analyze_move`: either valid with the captured group
ids and the new stone's candidate liberties, or invalid with the reason
string. -/
inductive AnalyzeRes where
  | valid (captured : List ℕ) (liberties : Finset Coord)
  | invalid (reason : String)
  deriving DecidableEq

/-- One direction of the neighbour loop of `Board._analyze_move`: an empty
neighbour is a candidate liberty; an opponent neighbour whose tracked
liberty set has exactly one element marks its group captured; a same-color
neighbour marks its group adjacent.  The `defaultdict` liberty reads are
threaded through the group manager. -/
def nbrStep (b : Board) (y x color : ℤ)
    (acc : Finset Coord × List ℕ × List ℕ × GroupManager) (d : ℤ × ℤ) :
    Finset Coord × List ℕ × List ℕ × GroupManager :=
  let libs := acc.1
  let capt := acc.2.1
  let adj := acc.2.2.1
  let gmA := acc.2.2.2
  let ny := y + d.1
  let nx := x + d.2
  if inB b.size ny nx then
    if cellAt b.grid ny nx = EMPTY then (insert (ny, nx) libs, capt, adj, gmA)
    else if cellAt b.grid ny nx = opponentOf color then
      match get_group_id gmA ny nx with
      | some gid =>
        let pl := get_group_liberties gmA gid
        if pl.1.card = 1 then (libs, addId capt gid, adj, pl.2)
        else (libs, capt, adj, pl.2)
      | none => (libs, capt, adj, gmA)
    else if cellAt b.grid ny nx = color then
      match get_group_id gmA ny nx with
      | some gid => (libs, capt, addId adj gid, gmA)
      | none => (libs, capt, adj, gmA)
    else (libs, capt, adj, gmA)
  else (libs, capt, adj, gmA)

/-- The full neighbour loop of `Board._analyze_move`. -/
def neighborScan (b : Board) (y x color : ℤ) :
    Finset Coord × List ℕ × List ℕ × GroupManager :=
  DIRECTIONS.foldl (nbrStep b y x color) ((∅ : Finset Coord), [], [], b.group_manager)

/-- One captured group's contribution to the hypothetical fingerprint
(`Board._analyze_move` step 5), with the `defaultdict` stone read
threaded. -/
def khStep (b : Board) (opponent : ℤ) (acc : ℕ × GroupManager) (gid : ℕ) :
    ℕ × GroupManager :=
  let ps := get_group_stones acc.2 gid
  (acc.1 ^^^ xorSet ps.1 (fun c => b.zobrist c.1 c.2 (opponent - 1)), ps.2)

/-- The hypothetical fingerprint of `Board._analyze_move` step 5: XOR in the
placed stone, XOR out every stone of every captured group. -/
def koHashOf (b : Board) (y x color : ℤ) (captured : List ℕ) (gm : GroupManager) :
    ℕ × GroupManager :=
  captured.foldl (khStep b (opponentOf color))
    (b.current_hash ^^^ b.zobrist y x (color - 1), gm)

/-- `Board._analyze_move`: bounds, occupancy, neighbour scan, suicide check,
ko check, in source order.  The possibly `defaultdict`-extended group
manager is returned next to the verdict. -/
def analyze_move (b : Board) (y x color : ℤ) : AnalyzeRes × GroupManager :=
  if ¬ inB b.size y x then (.invalid "out of bounds", b.group_manager)
  else if cellAt b.grid y x ≠ EMPTY then
    (.invalid "position already occupied", b.group_manager)
  else
    let scan := neighborScan b y x color
    let new_liberties := scan.1
    let captured := scan.2.1
    let gm1 := scan.2.2.2
    if new_liberties = ∅ ∧ captured = [] then (.invalid "suicide move", gm1)
    else
      let kh := koHashOf b y x color captured gm1
      if kh.1 ∈ b.position_history then (.invalid "ko rule violation", kh.2)
      else (.valid captured new_liberties, kh.2)

/-- The adjacent same-color group scan of `Board.place_stone` (run after the
stone has been placed on the grid; a pure read of the coordinate map). -/
def adjacentIds (b : Board) (y x color : ℤ) : List ℕ :=
  DIRECTIONS.foldl (fun acc d =>
    let ny := y + d.1
    let nx := x + d.2
    if inB b.size ny nx ∧ cellAt b.grid ny nx = color then
      match get_group_id b.group_manager ny nx with
      | some gid => addId acc gid
      | none => acc
    else acc) []

/-- The captured-group removal loop of `Board.place_stone`: for each captured
group, clear its cells, XOR its stones out of the hash with the opponent's
entries, count them, and remove the group from the tracker; a `KeyError`
from `remove_group` aborts mid-loop with the mutations so far kept. -/
def removeCaptured (b : Board) (opponent : ℤ) :
    List ℕ → ℕ → Option GoErr × ℕ × Board
  | [], count => (none, count, b)
  | gid :: rest, count =>
    let ps := get_group_stones b.group_manager gid
    let st := ps.1
    let b1 : Board :=
      { b with black := b.black \ st, white := b.white \ st,
               current_hash := b.current_hash ^^^
                 xorSet st (fun c => b.zobrist c.1 c.2 (opponent - 1)),
               group_manager := ps.2 }
    match remove_group b1.group_manager gid with
    | none => (some .keyError, count + st.card, b1)
    | some gm2 =>
      removeCaptured { b1 with group_manager := gm2 } opponent rest (count + st.card)

/-- Write a stone/empty value through to the board's stone sets. -/
def Board.setCellB (b : Board) (y x v : ℤ) : Board :=
  let g := setCell b.grid y x v
  { b with black := g.black, white := g.white }

/-- `Board.place_stone`.  The first component is the raised exception, if
any; the second is the board object afterwards (a raised exception keeps
all field assignments made before the raise, and a rejected move keeps the
`defaultdict` reads done by the analysis). -/
def place_stone (b : Board) (y x color : ℤ) : Option GoErr × Board :=
  if ¬ (color = BLACK ∨ color = WHITE) then
    (some (.valueError "Color must be BLACK or WHITE"), b)
  else
    match analyze_move b y x color with
    | (.invalid reason, gm1) =>
      (some (.invalidMove y x reason), { b with group_manager := gm1 })
    | (.valid captured _libs, gm1) =>
      let opponent := opponentOf color
      let r := removeCaptured { b with group_manager := gm1 } opponent captured 0
      match r.1 with
      | some e => (some e, r.2.2)
      | none =>
        let captured_stones := r.2.1
        let b2 := r.2.2
        let b3 : Board :=
          { b2.setCellB y x color with
            current_hash := b2.current_hash ^^^ b2.zobrist y x (color - 1) }
        let adj := adjacentIds b3 y x color
        let gmMC : Option (ℕ × GroupManager) :=
          if adj ≠ [] then merge_groups b3.group_manager adj (y, x) b3.grid
          else some (create_group b3.group_manager y x color b3.grid)
        match gmMC with
        | none => (some (.valueError "Cannot merge empty set of groups"), b3)
        | some pr =>
          let b4 : Board := { b3 with group_manager := pr.2 }
          match update_adjacent_liberties b4.group_manager y x color b4.grid with
          | none => (some .keyError, b4)
          | some gm5 =>
            let b5 : Board := { b4 with group_manager := gm5 }
            let b6 : Board :=
              if color = BLACK then
                { b5 with black_captures := b5.black_captures + captured_stones }
              else
                { b5 with white_captures := b5.white_captures + captured_stones }
            (none, { b6 with position_history := insert b6.current_hash b6.position_history })

/-- The intermediate board of `Board.place_stone` after the capture loop
(`b2` being the board the loop left) and the placement itself: the stone
written to the grid and its Zobrist entry XORed into the fingerprint. -/
def placedBoard (b2 : Board) (y x color : ℤ) : Board :=
  { b2.setCellB y x color with
    current_hash := b2.current_hash ^^^ b2.zobrist y x (color - 1) }

/-- The final board of a successful `Board.place_stone`: the placed board
with the post-merge, post-liberty-update tracker `gm5` installed, the mover's
capture counter advanced by the number of captured stones `n2`, and the new
fingerprint committed into the repetition history. -/
def finishedBoard (b2 : Board) (y x color : ℤ) (gm5 : GroupManager) (n2 : ℕ) : Board :=
  let b5 : Board := { placedBoard b2 y x color with group_manager := gm5 }
  let b6 : Board := if color = BLACK then
      { b5 with black_captures := b5.black_captures + n2 }
    else { b5 with white_captures := b5.white_captures + n2 }
  { b6 with position_history := insert b6.current_hash b6.position_history }

/-- Boards reachable from a freshly constructed board of a valid size by
successful `place_stone` calls. -/
inductive Reachable (zob : ℤ → ℤ → ℤ → ℕ) (size : ℤ) : Board → Prop where
  | base : 5 ≤ size → size ≤ 25 → Reachable zob size (Board.mk0 size zob)
  | step {b : Board} (y x color : ℤ) : Reachable zob size b →
      (place_stone b y x color).1 = none →
      Reachable zob size (place_stone b y x color).2

/-- A concrete Zobrist table for concrete scenarios: the entry of
`(y, x, c)` is a distinct power of two, so distinct stone configurations
have distinct fingerprints (the source draws 63-bit values from numpy
seeded with 0; only distinctness matters to the scenarios). -/
def zobP2 (size : ℤ) : ℤ → ℤ → ℤ → ℕ :=
  fun y x c => 2 ^ ((y * (size + 2) + x) * 3 + c).toNat

/-- The same-color in-bounds neighbours of a cell. -/
def sameColorNbrs (g : Grid) (color : ℤ) (c : Coord) : Finset Coord :=
  DIRECTIONS.foldl (fun s d =>
    let ny := c.1 + d.1
    let nx := c.2 + d.2
    if inB g.size ny nx ∧ cellAt g ny nx = color then insert (ny, nx) s else s) ∅

/-- One closure step of the flood fill: add all same-color neighbours of the
set collected so far. -/
def floodStep (g : Grid) (color : ℤ) (acc : Finset Coord) : Finset Coord :=
  acc ∪ acc.biUnion (sameColorNbrs g color)

/-- Modelled from the spec: `Board._get_group`, which `MoveStack.push` calls
but which is absent from the sources provided (the spec notes the source
holds several divergent board variants; the flood-fill one is not included).
Per the glossary a group is "a maximal set of same-color stones connected
via direct (4-way) adjacency"; computed as a fuel-bounded flood fill from
`(y, x)` (the fuel bounds the number of closure steps, enough to saturate
on any board). -/
def floodGroup (g : Grid) (y x : ℤ) : Finset Coord :=
  (fun acc => Nat.rec acc (fun _ ih => floodStep g (cellAt g y x) ih)
    ((g.size * g.size).toNat + 1)) {(y, x)}

/-- Modelled from the spec: `Board._get_liberties`, also called by
`MoveStack.push` and absent from the sources provided.  Per the glossary a
liberty is "an empty point adjacent to at least one stone of a group"; this
is also the claimed brute-force oracle for a tracked group's liberty set. -/
def groupLibsScan (g : Grid) (s : Finset Coord) : Finset Coord :=
  s.biUnion (fun c => emptyNbrs g.size g c.1 c.2)

/-- A move given to `MoveStack.push`: the data of a `Move` object as
constructed by the caller (a stone placement, a pass, or a resignation). -/
inductive MoveIn where
  | stone (y x color : ℤ)
  | pass (color : ℤ)
  | resign (color : ℤ)
  deriving DecidableEq

/-- A `Move` object as it sits in the stack after `push` filled it in: the
move data, the recorded captured stones, and the pre-move snapshot of
(fingerprint, repetition-history set). -/
structure MoveRec where
  mv : MoveIn
  captured_stones : List Coord
  previous_zobrist_hash : ℕ
  previous_position_history : Finset ℕ
  deriving DecidableEq

/-- The snapshot taken at the top of `MoveStack.push` (before any check or
application); `deepcopy` of the history set is value copying here. -/
def mkRec (m : MoveIn) (b : Board) : MoveRec :=
  ⟨m, [], b.current_hash, b.position_history⟩

/-- `MoveStack` from `move.py`. -/
structure MoveStack where
  board : Board
  moves : List MoveRec
  current_index : ℤ

/-- `MoveStack.__init__`. -/
def MoveStack.init0 (b : Board) : MoveStack := ⟨b, [], -1⟩

/-- Wrap a `GoError` from `place_stone` the way `push` re-raises it as a
`MoveError` (a `ValueError` would propagate unwrapped). -/
def toMoveErr : GoErr → GoErr
  | .valueError m => .valueError m
  | e => .moveError e

/-- `MoveStack.push`.  The first component is the raised exception, if any;
a failed push stores no record and leaves the cursor alone (the board keeps
whatever the failed `place_stone` call left on it). -/
def push (s : MoveStack) (m : MoveIn) : Option GoErr × MoveStack :=
  match m with
  | .pass _ | .resign _ =>
    (none, { s with moves := s.moves.take (s.current_index + 1).toNat ++ [mkRec m s.board],
                    current_index := s.current_index + 1 })
  | .stone y x color =>
    let opponent := opponentOf color
    let temp := setCell s.board.grid y x color
    let potential : List Coord := DIRECTIONS.foldl (fun acc d =>
      let ny := y + d.1
      let nx := x + d.2
      if inB s.board.size ny nx then
        if cellAt temp ny nx = opponent then
          let group := floodGroup s.board.grid ny nx
          let libs := groupLibsScan s.board.grid group
          if libs.card = 1 ∧ (y, x) ∈ libs then acc ++ sortCoords group else acc
        else acc
      else acc) []
    let pr := place_stone s.board y x color
    match pr.1 with
    | some e => (some (toMoveErr e), { s with board := pr.2 })
    | none =>
      let capt := potential.filter (fun c => cellAt pr.2.grid c.1 c.2 = EMPTY)
      let r : MoveRec := { mkRec m s.board with captured_stones := capt }
      (none, { s with board := pr.2,
                      moves := s.moves.take (s.current_index + 1).toNat ++ [r],
                      current_index := s.current_index + 1 })

/-- The captured-stones list a successful stone `push` stores in its record:
the brute-force `potential_captures` scan, filtered to the cells found empty
after the application. -/
def pushCaptList (s : MoveStack) (y x color : ℤ) : List Coord :=
  let opponent := opponentOf color
  let temp := setCell s.board.grid y x color
  let potential : List Coord := DIRECTIONS.foldl (fun acc d =>
    let ny := y + d.1
    let nx := x + d.2
    if inB s.board.size ny nx then
      if cellAt temp ny nx = opponent then
        let group := floodGroup s.board.grid ny nx
        let libs := groupLibsScan s.board.grid group
        if libs.card = 1 ∧ (y, x) ∈ libs then acc ++ sortCoords group else acc
      else acc
    else acc) []
  potential.filter (fun c => cellAt (place_stone s.board y x color).2.grid c.1 c.2 = EMPTY)

/-- The state effect of `MoveStack.pop` (the returned move is the record at
the cursor): cursor back one; for a stone move clear the played cell,
restore the recorded captured stones to the opponent's color, and restore
fingerprint and history set from the record's snapshot.  Capture counts and
the group manager are not touched. -/
def popS (s : MoveStack) : MoveStack :=
  if s.current_index < 0 then s
  else
    match s.moves.get? s.current_index.toNat with
    | none => s
    | some r =>
      let s1 : MoveStack := { s with current_index := s.current_index - 1 }
      match r.mv with
      | .pass _ | .resign _ => s1
      | .stone y x color =>
        let opponent := opponentOf color
        let g1 := setCell s.board.grid y x EMPTY
        let g2 := r.captured_stones.foldl (fun g c => setCell g c.1 c.2 opponent) g1
        { s1 with board := { s.board with
            black := g2.black, white := g2.white,
            current_hash := r.previous_zobrist_hash,
            position_history := r.previous_position_history } }

/-- `MoveStack.forward` (redo): reapply the next record's cell writes and
recompute the fingerprint by toggling from the record's snapshot, then
commit into a copy of the snapshot history. -/
def fwdS (s : MoveStack) : MoveStack :=
  if s.current_index + 1 ≥ (s.moves.length : ℤ) then s
  else
    match s.moves.get? (s.current_index + 1).toNat with
    | none => s
    | some r =>
      match r.mv with
      | .pass _ | .resign _ => { s with current_index := s.current_index + 1 }
      | .stone y x color =>
        let opponent := opponentOf color
        let g1 := setCell s.board.grid y x color
        let h1 := r.previous_zobrist_hash ^^^ s.board.zobrist y x (color - 1)
        let g2 := r.captured_stones.foldl (fun g c => setCell g c.1 c.2 EMPTY) g1
        let h2 := r.captured_stones.foldl
          (fun h c => h ^^^ s.board.zobrist c.1 c.2 (opponent - 1)) h1
        { s with current_index := s.current_index + 1,
                 board := { s.board with
                   black := g2.black, white := g2.white,
                   current_hash := h2,
                   position_history := insert h2 r.previous_position_history } }

/-- Push a list of moves in order (ignoring failures; used with hypotheses
stating each push succeeded). -/
def pushMany (s : MoveStack) (ms : List MoveIn) : MoveStack :=
  ms.foldl (fun t m => (push t m).2) s

/-- Iterate `pop` `n` times. -/
def popN (s : MoveStack) : ℕ → MoveStack
  | 0 => s
  | n + 1 => popN (popS s) n

/-- Iterate `forward` `n` times. -/
def fwdN (s : MoveStack) : ℕ → MoveStack
  | 0 => s
  | n + 1 => fwdN (fwdS s) n

/-- Key consistency of the tracker: every id the coordinate map mentions has
entries in both per-id dictionaries.  This holds of every state the board
code itself produces and rules out `defaultdict` insert-on-read effects. -/
def trackerKeysOk (gm : GroupManager) : Prop :=
  ∀ kv ∈ gm.groups, (dictFind? gm.group_stones kv.2).isSome ∧
    (dictFind? gm.group_liberties kv.2).isSome

instance (gm : GroupManager) : Decidable (trackerKeysOk gm) := by
  unfold trackerKeysOk
  infer_instance

/-- Full well-formedness of a board: unique dictionary keys, the mutual
consistency of the coordinate map, the stone sets and the grid, bounds,
freshness of the id counter, and the fingerprint invariant.  Established
for every reachable board. -/
structure BoardWf (b : Board) : Prop where
  nodupG : (dictKeys b.group_manager.groups).Nodup
  nodupS : (dictKeys b.group_manager.group_stones).Nodup
  nodupL : (dictKeys b.group_manager.group_liberties).Nodup
  domSync : ∀ gid, (dictFind? b.group_manager.group_stones gid).isSome ↔
    (dictFind? b.group_manager.group_liberties gid).isSome
  mapToStones : ∀ c gid, dictFind? b.group_manager.groups c = some gid →
    ∃ s, dictFind? b.group_manager.group_stones gid = some s ∧ c ∈ s
  stonesToMap : ∀ gid s, dictFind? b.group_manager.group_stones gid = some s →
    ∀ c ∈ s, dictFind? b.group_manager.groups c = some gid
  occIff : ∀ c : Coord, (dictFind? b.group_manager.groups c).isSome ↔
    c ∈ b.black ∪ b.white
  mono : ∀ gid s, dictFind? b.group_manager.group_stones gid = some s →
    s ⊆ b.black ∨ s ⊆ b.white
  disj : Disjoint b.black b.white
  bounded : ∀ c ∈ b.black ∪ b.white, inB b.size c.1 c.2
  fresh : ∀ gid, (dictFind? b.group_manager.group_stones gid).isSome →
    gid < b.group_manager.next_group_id
  sizeEq : b.group_manager.size = b.size
  hashOk : b.current_hash = recomputedHash b

/-- Apply `place_stone` and keep the state (scenario shorthand). -/
def plc (b : Board) (y x color : ℤ) : Board := (place_stone b y x color).2

/-- A fresh 5×5 board with the concrete power-of-two table. -/
def B5 : Board := Board.mk0 5 (zobP2 5)

/-- A fresh 9×9 board with the concrete power-of-two table. -/
def B9 : Board := Board.mk0 9 (zobP2 9)

/-- Scenario for the liberty-invariant check: black 2-2 then white 2-3 on
the fresh 5×5 board. -/
def bLib : Board := plc (plc B5 2 2 BLACK) 2 3 WHITE

/-- Scenario of the capture claim: white's stone on 4-4, then black 4-3,
3-4, 5-4 and the fourth surrounding stone 4-5, on the fresh 9×9 board. -/
def bCapt : Board := plc (plc (plc (plc (plc B9 4 4 WHITE) 4 3 BLACK) 3 4 BLACK) 5 4 BLACK) 4 5 BLACK

/-- Ko scenario: black 3-4, 4-3, 5-4; white 3-5, 4-6, 5-5; white fills 4-4
(one true liberty), black captures it at 4-5.  White retaking 4-4 would
reproduce the position after white's fill. -/
def bKo : Board :=
  plc (plc (plc (plc (plc (plc (plc (plc B9 3 4 BLACK) 4 3 BLACK) 5 4 BLACK)
    3 5 WHITE) 4 6 WHITE) 5 5 WHITE) 4 4 WHITE) 4 5 BLACK

/-- Corner self-fill scenario: black 1-2 and 2-1, white 1-3, 2-2, 3-1; the
white fill of 1-1 has no candidate liberty and captures nothing. -/
def bSui : Board :=
  plc (plc (plc (plc (plc B9 1 2 BLACK) 2 1 BLACK) 1 3 WHITE) 2 2 WHITE) 3 1 WHITE

/-- Handcrafted stack state for the push-record check: a 5×5 board holding
black 3-2 and 4-3 and white 3-3, whose tracker credits the white group with
the single liberty 3-4 although the cell 2-3 is also open (the liberty
tracker and a brute-force scan can disagree, per the divergence the spec
itself notes).  Black filling 3-4 then captures 3-3 by the tracked count
while the brute-force pre-check of `push` sees two liberties. -/
def S4 : MoveStack :=
  MoveStack.init0
    ⟨5, {(3, 2), (4, 3)}, {(3, 3)}, 0, 0, ∅, zobP2 5, 0,
     ⟨5, [((3, 3), 0), ((3, 2), 1), ((4, 3), 2)],
      [(0, {(3, 3)}), (1, {(3, 2)}), (2, {(4, 3)})],
      [(0, {(3, 4)}), (1, {(2, 2)}), (2, {(4, 2)})], 3⟩⟩

/-- Stack scenario for undo/redo: the fresh 5×5 board. -/
def SP0 : MoveStack := MoveStack.init0 B5

/-- After pushing black 2-1. -/
def SP1 : MoveStack := (push SP0 (.stone 2 1 BLACK)).2

/-- After pushing white 1-1 (a corner stone with the single liberty 1-2). -/
def SP2 : MoveStack := (push SP1 (.stone 1 1 WHITE)).2

/-- After pushing black 1-2, which captures the white stone at 1-1. -/
def SP3 : MoveStack := (push SP2 (.stone 1 2 BLACK)).2

set_option maxRecDepth 200000

/-- C1: the claimed liberty invariant fails on the code.  On a fresh 5×5
board, black 2-2 then white 2-3 both succeed; afterwards the black group at
2-2 is tracked with liberty set `{2-1, 3-2, 1-2, 3-3, 2-4, 1-3}`, while the
set of empty cells 4-adjacent to its single stone is `{2-1, 3-2, 1-2}`:
`update_adjacent_liberties` tests the placed cell's own color instead of
the affected group's, so the black group gained the empty neighbours of the
newly placed opposing white stone. -/
theorem liberty_set_diverges_from_scan :
    (place_stone B5 2 2 BLACK).1 = none ∧
    (place_stone (plc B5 2 2 BLACK) 2 3 WHITE).1 = none ∧
    get_group_id bLib.group_manager 2 2 = some 0 ∧
    dictFind? bLib.group_manager.group_stones 0 = some {(2, 2)} ∧
    dictFind? bLib.group_manager.group_liberties 0 =
      some {(2, 1), (3, 2), (1, 2), (3, 3), (2, 4), (1, 3)} ∧
    groupLibsScan bLib.grid {(2, 2)} = {(2, 1), (3, 2), (1, 2)} ∧
    dictFind? bLib.group_manager.group_liberties 0 ≠
      some (groupLibsScan bLib.grid {(2, 2)}) := by
  decide

/-- C3: the claimed capture does not happen on the code.  With white's
single stone already at 4-4, black plays 4-3, 3-4, 5-4 and then the fourth
surrounding point 4-5; every placement succeeds, yet the white stone at 4-4
stays on the board and black's capture count stays 0, because the white
group's tracked liberty set was polluted by the liberty-update defect and
never reaches a single liberty (the repository's own capture test asserts
the capture). -/
theorem surrounded_stone_not_captured :
    (place_stone B9 4 4 WHITE).1 = none ∧
    (place_stone (plc B9 4 4 WHITE) 4 3 BLACK).1 = none ∧
    (place_stone (plc (plc B9 4 4 WHITE) 4 3 BLACK) 3 4 BLACK).1 = none ∧
    (place_stone (plc (plc (plc B9 4 4 WHITE) 4 3 BLACK) 3 4 BLACK) 5 4 BLACK).1 = none ∧
    (place_stone (plc (plc (plc (plc B9 4 4 WHITE) 4 3 BLACK) 3 4 BLACK) 5 4 BLACK)
      4 5 BLACK).1 = none ∧
    (4, 4) ∈ bCapt.white ∧
    bCapt.black_captures = 0 := by
  decide

/-- C8: operating on an untracked group id does not fail for the getters.
On a fresh group manager, `get_group_stones 0` and `get_group_liberties 0`
silently return an empty set — and, being `defaultdict` reads, insert the
id — instead of raising the documented `KeyError`; only `remove_group`
still raises (from its final `del` on `group_liberties`). -/
theorem unknown_group_ops_return_defaults :
    (get_group_stones (GroupManager.init0 9) 0).1 = ∅ ∧
    (get_group_stones (GroupManager.init0 9) 0).2.group_stones = [(0, ∅)] ∧
    (get_group_liberties (GroupManager.init0 9) 0).1 = ∅ ∧
    (get_group_liberties (GroupManager.init0 9) 0).2.group_liberties = [(0, ∅)] ∧
    remove_group (GroupManager.init0 9) 0 = none := by
  decide

section DictLemmas

variable {K V : Type} [DecidableEq K]

theorem dictFind?_set_self (d : PyDict K V) (k : K) (v : V) :
    dictFind? (dictSet d k v) k = some v := by
  induction d with
  | nil => simp [dictSet, dictFind?]
  | cons kv rest ih =>
    by_cases h : kv.1 = k
    · simp [dictSet, dictFind?, h]
    · simpa [dictSet, dictFind?, h] using ih

theorem dictFind?_set_ne (d : PyDict K V) (k k2 : K) (v : V) (h : k2 ≠ k) :
    dictFind? (dictSet d k v) k2 = dictFind? d k2 := by
  have hks : ¬ (k = k2) := fun hh => h hh.symm
  induction d with
  | nil => simp [dictSet, dictFind?, hks]
  | cons kv rest ih =>
    by_cases h1 : kv.1 = k
    · subst h1
      simp [dictSet, dictFind?, hks]
    · by_cases h2 : kv.1 = k2 <;> simp [dictSet, dictFind?, h1, h2, h, ih]

theorem dictFind?_append_left (d e : PyDict K V) (k : K) (v : V)
    (h : dictFind? d k = some v) : dictFind? (d ++ e) k = some v := by
  induction d with
  | nil => simp [dictFind?] at h
  | cons kv rest ih =>
    by_cases h1 : kv.1 = k <;> simp_all [dictFind?]

theorem dictFind?_append_right (d e : PyDict K V) (k : K)
    (h : dictFind? d k = none) : dictFind? (d ++ e) k = dictFind? e k := by
  induction d with
  | nil => simp [dictFind?]
  | cons kv rest ih =>
    by_cases h1 : kv.1 = k <;> simp_all [dictFind?]

theorem dictGetIns_isSome_mono (d : PyDict K V) (k k2 : K) (dflt : V)
    (h : (dictFind? d k2).isSome) :
    (dictFind? (dictGetIns d k dflt).2 k2).isSome := by
  unfold dictGetIns
  match hf : dictFind? d k with
  | some v => simpa using h
  | none =>
    simp only
    obtain ⟨v2, hv2⟩ := Option.isSome_iff_exists.mp h
    rw [dictFind?_append_left d _ k2 v2 hv2]
    rfl

theorem dictSet_isSome_mono (d : PyDict K V) (k k2 : K) (v : V)
    (h : (dictFind? d k2).isSome) :
    (dictFind? (dictSet d k v) k2).isSome := by
  by_cases he : k2 = k
  · subst he
    rw [dictFind?_set_self]
    rfl
  · rwa [dictFind?_set_ne d k k2 v he]

theorem dictGetIns_found (d : PyDict K V) (k : K) (dflt : V) (v : V)
    (h : dictFind? d k = some v) : dictGetIns d k dflt = (v, d) := by
  unfold dictGetIns
  rw [h]

theorem dictFind?_mem (d : PyDict K V) (k : K) (v : V)
    (h : dictFind? d k = some v) : (k, v) ∈ d := by
  induction d with
  | nil => simp [dictFind?] at h
  | cons kv rest ih =>
    obtain ⟨k1, v1⟩ := kv
    by_cases h1 : k1 = k
    · subst h1
      simp [dictFind?] at h
      subst h
      exact List.mem_cons_self _ _
    · simp only [dictFind?, if_neg h1] at h
      exact List.mem_cons_of_mem _ (ih h)

end DictLemmas

theorem opponentOf_ne (color : ℤ) : opponentOf color ≠ color := by
  unfold opponentOf BLACK WHITE
  by_cases h : color = 1 <;> simp [h] <;> omega

theorem ualStep_frame {y x color : ℤ} {board : Grid}
    (hcell : cellAt board y x = color) (gmA : GroupManager) (gid : ℕ) :
    ∃ gmB, ualStep y x color board gmA gid = some gmB ∧
      gmB.groups = gmA.groups ∧
      gmB.group_stones = gmA.group_stones ∧
      gmB.size = gmA.size ∧
      gmB.next_group_id = gmA.next_group_id ∧
      ∀ g2, (dictFind? gmA.group_liberties g2).isSome →
        (dictFind? gmB.group_liberties g2).isSome := by
  have hne : ¬ (cellAt board y x = opponentOf color) := by
    rw [hcell]
    exact fun h => opponentOf_ne color h.symm
  unfold ualStep
  rw [if_neg hne, if_pos hcell]
  refine ⟨_, rfl, rfl, rfl, rfl, rfl, ?_⟩
  intro g2 h2
  exact dictSet_isSome_mono _ _ _ _
    (dictSet_isSome_mono _ _ _ _ (dictGetIns_isSome_mono _ _ _ _ h2))

theorem ual_fold_frame {y x color : ℤ} {board : Grid}
    (hcell : cellAt board y x = color) (l : List ℕ) (gmA : GroupManager) :
    ∃ gmB, l.foldl
        (fun acc gid => acc.bind (fun gmP => ualStep y x color board gmP gid))
        (some gmA) = some gmB ∧
      gmB.groups = gmA.groups ∧
      gmB.group_stones = gmA.group_stones ∧
      gmB.size = gmA.size ∧
      gmB.next_group_id = gmA.next_group_id ∧
      ∀ g2, (dictFind? gmA.group_liberties g2).isSome →
        (dictFind? gmB.group_liberties g2).isSome := by
  induction l generalizing gmA with
  | nil => exact ⟨gmA, rfl, rfl, rfl, rfl, rfl, fun _ h => h⟩
  | cons gid rest ih =>
    obtain ⟨gmB, hB, hg, hs, hsz, hn, hl⟩ := ualStep_frame hcell gmA gid
    obtain ⟨gmC, hC, hg2, hs2, hsz2, hn2, hl2⟩ := ih gmB
    refine ⟨gmC, ?_, ?_, ?_, ?_, ?_, ?_⟩
    · simpa [List.foldl, hB, Option.bind] using hC
    · rw [hg2, hg]
    · rw [hs2, hs]
    · rw [hsz2, hsz]
    · rw [hn2, hn]
    · exact fun g2 h2 => hl2 g2 (hl g2 h2)

/-- C9: `update_adjacent_liberties`, called as it is after a stone placement
(so the placed cell holds the placing color), mutates only liberty sets: it
returns successfully with the coordinate-to-group map, the group stone
sets, the size and the id counter unchanged, and deletes no group — every
tracked liberty entry survives (the group-removal branch tests the placed
cell against the opponent's color and is therefore never executed). -/
theorem update_adjacent_liberties_only_mutates_liberties
    (gm : GroupManager) (y x color : ℤ) (board : Grid)
    (hcell : cellAt board y x = color) :
    ∃ gm2, update_adjacent_liberties gm y x color board = some gm2 ∧
      gm2.groups = gm.groups ∧
      gm2.group_stones = gm.group_stones ∧
      gm2.size = gm.size ∧
      gm2.next_group_id = gm.next_group_id ∧
      ∀ gid, (dictFind? gm.group_liberties gid).isSome →
        (dictFind? gm2.group_liberties gid).isSome := by
  exact ual_fold_frame hcell (affectedGroups gm y x) gm

theorem get_group_stones_found (gm : GroupManager) (gid : ℕ) (v : Finset Coord)
    (h : dictFind? gm.group_stones gid = some v) :
    get_group_stones gm gid = (v, gm) := by
  unfold get_group_stones
  rw [dictGetIns_found _ _ _ _ h]

theorem get_group_liberties_found (gm : GroupManager) (gid : ℕ) (v : Finset Coord)
    (h : dictFind? gm.group_liberties gid = some v) :
    get_group_liberties gm gid = (v, gm) := by
  unfold get_group_liberties
  rw [dictGetIns_found _ _ _ _ h]

theorem trackerKeysOk_find {gm : GroupManager} (h : trackerKeysOk gm) {c : Coord}
    {gid : ℕ} (hf : dictFind? gm.groups c = some gid) :
    (dictFind? gm.group_stones gid).isSome ∧
      (dictFind? gm.group_liberties gid).isSome :=
  h (c, gid) (dictFind?_mem _ _ _ hf)

theorem nbrStep_gm (b : Board) (y x color : ℤ)
    (acc : Finset Coord × List ℕ × List ℕ × GroupManager) (d : ℤ × ℤ)
    (h : trackerKeysOk acc.2.2.2) :
    (nbrStep b y x color acc d).2.2.2 = acc.2.2.2 := by
  simp only [nbrStep]
  by_cases h1 : inB b.size (y + d.1) (x + d.2)
  · simp only [if_pos h1]
    by_cases h2 : cellAt b.grid (y + d.1) (x + d.2) = EMPTY
    · simp [h2]
    · simp only [if_neg h2]
      by_cases h3 : cellAt b.grid (y + d.1) (x + d.2) = opponentOf color
      · simp only [if_pos h3]
        cases hg : get_group_id acc.2.2.2 (y + d.1) (x + d.2) with
        | none => simp
        | some gid =>
          obtain ⟨v, hv⟩ := Option.isSome_iff_exists.mp (trackerKeysOk_find h hg).2
          simp only [get_group_liberties_found _ _ _ hv]
          by_cases h4 : v.card = 1 <;> simp [h4]
      · simp only [if_neg h3]
        by_cases h5 : cellAt b.grid (y + d.1) (x + d.2) = color
        · simp only [if_pos h5]
          cases hg : get_group_id acc.2.2.2 (y + d.1) (x + d.2) <;> simp
        · simp [h5]
  · simp [h1]

theorem nbrStep_capt (b : Board) (y x color : ℤ)
    (acc : Finset Coord × List ℕ × List ℕ × GroupManager) (d : ℤ × ℤ)
    (h : trackerKeysOk acc.2.2.2) :
    ∀ gid ∈ (nbrStep b y x color acc d).2.1,
      gid ∈ acc.2.1 ∨ ∃ c : Coord, dictFind? acc.2.2.2.groups c = some gid := by
  intro gid hmem
  simp only [nbrStep] at hmem
  by_cases h1 : inB b.size (y + d.1) (x + d.2)
  case neg => simp [h1] at hmem; exact Or.inl hmem
  simp only [if_pos h1] at hmem
  by_cases h2 : cellAt b.grid (y + d.1) (x + d.2) = EMPTY
  case pos => simp [h2] at hmem; exact Or.inl hmem
  simp only [if_neg h2] at hmem
  by_cases h3 : cellAt b.grid (y + d.1) (x + d.2) = opponentOf color
  case neg =>
    simp only [if_neg h3] at hmem
    by_cases h5 : cellAt b.grid (y + d.1) (x + d.2) = color
    · simp only [if_pos h5] at hmem
      cases hg : get_group_id acc.2.2.2 (y + d.1) (x + d.2) <;>
        simp [hg] at hmem <;> exact Or.inl hmem
    · simp [h5] at hmem; exact Or.inl hmem
  simp only [if_pos h3] at hmem
  cases hg : get_group_id acc.2.2.2 (y + d.1) (x + d.2) with
  | none => simp [hg] at hmem; exact Or.inl hmem
  | some gid2 =>
    obtain ⟨v, hv⟩ := Option.isSome_iff_exists.mp (trackerKeysOk_find h hg).2
    simp only [hg, get_group_liberties_found _ _ _ hv] at hmem
    by_cases h4 : v.card = 1
    · simp only [if_pos h4] at hmem
      unfold addId at hmem
      by_cases h6 : gid2 ∈ acc.2.1
      · simp [h6] at hmem; exact Or.inl hmem
      · simp [h6] at hmem
        rcases hmem with hmem | hmem
        · exact Or.inl hmem
        · exact Or.inr ⟨(y + d.1, x + d.2), hmem ▸ hg⟩
    · simp [h4] at hmem; exact Or.inl hmem

theorem scan_gm_and_capt (b : Board) (y x color : ℤ)
    (h : trackerKeysOk b.group_manager) :
    (neighborScan b y x color).2.2.2 = b.group_manager ∧
      ∀ gid ∈ (neighborScan b y x color).2.1,
        ∃ c : Coord, dictFind? b.group_manager.groups c = some gid := by
  unfold neighborScan
  have main : ∀ (l : List (ℤ × ℤ)) (acc : Finset Coord × List ℕ × List ℕ × GroupManager),
      acc.2.2.2 = b.group_manager →
      (∀ gid ∈ acc.2.1, ∃ c : Coord, dictFind? b.group_manager.groups c = some gid) →
      (l.foldl (nbrStep b y x color) acc).2.2.2 = b.group_manager ∧
        ∀ gid ∈ (l.foldl (nbrStep b y x color) acc).2.1,
          ∃ c : Coord, dictFind? b.group_manager.groups c = some gid := by
    intro l
    induction l with
    | nil => exact fun acc h1 h2 => ⟨h1, h2⟩
    | cons d rest ih =>
      intro acc h1 h2
      have htr : trackerKeysOk acc.2.2.2 := h1 ▸ h
      have hgm := nbrStep_gm b y x color acc d htr
      refine ih _ (hgm.trans h1) ?_
      intro gid hmem
      rcases nbrStep_capt b y x color acc d htr gid hmem with hold | ⟨c, hc⟩
      · exact h2 gid hold
      · exact ⟨c, h1 ▸ hc⟩
  exact main DIRECTIONS _ rfl (by simp)

theorem khStep_gm (b : Board) (opponent : ℤ) (hsh : ℕ) (gm : GroupManager)
    (gid : ℕ) (h : (dictFind? gm.group_stones gid).isSome) :
    (khStep b opponent (hsh, gm) gid).2 = gm := by
  obtain ⟨v, hv⟩ := Option.isSome_iff_exists.mp h
  simp [khStep, get_group_stones_found _ _ _ hv]

theorem koHashOf_gm (b : Board) (y x color : ℤ) (captured : List ℕ)
    (gm : GroupManager)
    (h : ∀ gid ∈ captured, (dictFind? gm.group_stones gid).isSome) :
    (koHashOf b y x color captured gm).2 = gm := by
  unfold koHashOf
  have main : ∀ (l : List ℕ) (hsh : ℕ),
      (∀ gid ∈ l, (dictFind? gm.group_stones gid).isSome) →
      (l.foldl (khStep b (opponentOf color)) (hsh, gm)).2 = gm := by
    intro l
    induction l with
    | nil => exact fun hsh _ => rfl
    | cons gid rest ih =>
      intro hsh hl
      rw [List.foldl_cons]
      cases hp : khStep b (opponentOf color) (hsh, gm) gid with
      | mk p1 p2 =>
        have h2 : p2 = gm := by
          have := khStep_gm b (opponentOf color) hsh gm gid (hl gid (by simp))
          rw [hp] at this
          exact this
        rw [h2]
        exact ih p1 (fun g2 hg2 => hl g2 (by simp [hg2]))
  exact main captured _ h

theorem analyze_gm (b : Board) (y x color : ℤ) (h : trackerKeysOk b.group_manager) :
    (analyze_move b y x color).2 = b.group_manager := by
  unfold analyze_move
  by_cases h1 : inB b.size y x
  case neg => simp [h1]
  simp only [if_pos h1, not_true, if_neg (not_not_intro h1)]
  by_cases h2 : cellAt b.grid y x ≠ EMPTY
  case pos => simp [h2]
  simp only [if_neg h2]
  obtain ⟨hgm, hcapt⟩ := scan_gm_and_capt b y x color h
  by_cases h3 : (neighborScan b y x color).1 = ∅ ∧ (neighborScan b y x color).2.1 = []
  · simp [h3, hgm]
  · simp only [if_neg h3]
    have hstones : ∀ gid ∈ (neighborScan b y x color).2.1,
        (dictFind? (neighborScan b y x color).2.2.2.group_stones gid).isSome := by
      intro gid hg
      obtain ⟨c, hc⟩ := hcapt gid hg
      rw [hgm]
      exact (trackerKeysOk_find h hc).1
    have hk := koHashOf_gm b y x color (neighborScan b y x color).2.1
      (neighborScan b y x color).2.2.2 hstones
    rw [hgm] at hk
    by_cases h4 : (koHashOf b y x color (neighborScan b y x color).2.1
        b.group_manager).1 ∈ b.position_history <;>
      simp [hgm, h4, hk]

section MoreDictLemmas

variable {K V : Type} [DecidableEq K]

theorem dictFind?_of_mem_nodup (d : PyDict K V) (k : K) (v : V)
    (hmem : (k, v) ∈ d) (hnd : (dictKeys d).Nodup) : dictFind? d k = some v := by
  induction d with
  | nil => simp at hmem
  | cons kv rest ih =>
    obtain ⟨k1, v1⟩ := kv
    rw [dictKeys, List.map_cons, List.nodup_cons] at hnd
    rcases List.mem_cons.mp hmem with heq | hmem2
    · have e1 : k = k1 := congrArg Prod.fst heq
      have e2 : v = v1 := congrArg Prod.snd heq
      subst e1
      subst e2
      simp [dictFind?]
    · have hkmem : k ∈ List.map Prod.fst rest := List.mem_map_of_mem Prod.fst hmem2
      have hk : k1 ≠ k := by
        intro he
        apply hnd.1
        rw [he]
        exact hkmem
      simp only [dictFind?, if_neg hk]
      exact ih hmem2 hnd.2

theorem dictFind?_erase_ne (d : PyDict K V) (k k2 : K) (h : k2 ≠ k) :
    dictFind? (dictErase d k) k2 = dictFind? d k2 := by
  induction d with
  | nil => simp [dictErase]
  | cons kv rest ih =>
    by_cases h1 : kv.1 = k
    · subst h1
      have : ¬ (kv.1 = k2) := fun hh => h (hh ▸ rfl)
      simp [dictErase, dictFind?, this]
    · by_cases h2 : kv.1 = k2 <;> simp [dictErase, dictFind?, h1, h2, h, ih]

theorem dictFind?_erase_self (d : PyDict K V) (k : K)
    (hnd : (dictKeys d).Nodup) : dictFind? (dictErase d k) k = none := by
  induction d with
  | nil => simp [dictErase, dictFind?]
  | cons kv rest ih =>
    rw [dictKeys, List.map_cons, List.nodup_cons] at hnd
    by_cases h1 : kv.1 = k
    · subst h1
      simp only [dictErase, if_pos rfl]
      cases hf : dictFind? rest kv.1 with
      | none => exact hf
      | some v => exact absurd (List.mem_map_of_mem Prod.fst (dictFind?_mem _ _ _ hf)) hnd.1
    · simp only [dictErase, if_neg h1, dictFind?, if_neg h1]
      exact ih hnd.2

theorem mem_keys_set (d : PyDict K V) (k k2 : K) (v : V)
    (h2 : k2 ∈ dictKeys (dictSet d k v)) : k2 = k ∨ k2 ∈ dictKeys d := by
  induction d with
  | nil =>
    rw [dictSet, dictKeys, List.map_cons] at h2
    rcases List.mem_cons.mp h2 with h3 | h3
    · exact Or.inl h3
    · exact Or.inr h3
  | cons kv rest ih =>
    by_cases h1 : kv.1 = k
    · rw [dictSet, if_pos h1, dictKeys, List.map_cons] at h2
      rcases List.mem_cons.mp h2 with h3 | h3
      · exact Or.inl h3
      · exact Or.inr (by
          rw [dictKeys, List.map_cons]
          exact List.mem_cons_of_mem _ h3)
    · rw [dictSet, if_neg h1, dictKeys, List.map_cons] at h2
      rcases List.mem_cons.mp h2 with h3 | h3
      · exact Or.inr (by
          rw [dictKeys, List.map_cons]
          exact h3 ▸ List.mem_cons_self _ _)
      · rcases ih h3 with h4 | h4
        · exact Or.inl h4
        · exact Or.inr (by
            rw [dictKeys, List.map_cons]
            exact List.mem_cons_of_mem _ h4)

theorem nodup_keys_set (d : PyDict K V) (k : K) (v : V)
    (hnd : (dictKeys d).Nodup) : (dictKeys (dictSet d k v)).Nodup := by
  induction d with
  | nil => simp [dictSet, dictKeys]
  | cons kv rest ih =>
    rw [dictKeys, List.map_cons, List.nodup_cons] at hnd
    by_cases h1 : kv.1 = k
    · subst h1
      rw [dictSet, if_pos rfl, dictKeys, List.map_cons, List.nodup_cons]
      exact hnd
    · rw [dictSet, if_neg h1, dictKeys, List.map_cons, List.nodup_cons]
      refine ⟨?_, ih hnd.2⟩
      intro hk
      rcases mem_keys_set rest k kv.1 v hk with h2 | h2
      · exact h1 h2
      · exact hnd.1 h2

theorem mem_of_mem_dictErase (d : PyDict K V) (k : K) (p : K × V)
    (hp : p ∈ dictErase d k) : p ∈ d := by
  induction d with
  | nil => simp [dictErase] at hp
  | cons q t iht =>
    by_cases hq : q.1 = k
    · rw [dictErase, if_pos hq] at hp
      exact List.mem_cons_of_mem _ hp
    · rw [dictErase, if_neg hq] at hp
      rcases List.mem_cons.mp hp with hp | hp
      · exact hp ▸ List.mem_cons_self _ _
      · exact List.mem_cons_of_mem _ (iht hp)

theorem nodup_keys_erase (d : PyDict K V) (k : K)
    (hnd : (dictKeys d).Nodup) : (dictKeys (dictErase d k)).Nodup := by
  induction d with
  | nil => simp [dictErase, dictKeys]
  | cons kv rest ih =>
    rw [dictKeys, List.map_cons, List.nodup_cons] at hnd
    by_cases h1 : kv.1 = k
    · rw [dictErase, if_pos h1]
      exact hnd.2
    · rw [dictErase, if_neg h1, dictKeys, List.map_cons, List.nodup_cons]
      refine ⟨?_, ih hnd.2⟩
      intro hk
      obtain ⟨p, hp, he⟩ := List.mem_map.mp hk
      exact hnd.1 (he ▸ List.mem_map_of_mem Prod.fst (mem_of_mem_dictErase rest k p hp))

theorem nodup_keys_append (d : PyDict K V) (k : K) (v : V)
    (hnd : (dictKeys d).Nodup) (hf : dictFind? d k = none) :
    (dictKeys (d ++ [(k, v)])).Nodup := by
  rw [dictKeys, List.map_append]
  apply List.Nodup.append hnd (by simp)
  intro a ha hb
  simp at hb
  subst hb
  obtain ⟨p, hp, he⟩ := List.mem_map.mp ha
  have := dictFind?_of_mem_nodup d p.1 p.2 (by simpa using hp) hnd
  rw [he, hf] at this
  exact Option.noConfusion this

end MoreDictLemmas

theorem insCoord_perm (c : Coord) (l : List Coord) : (insCoord c l).Perm (c :: l) := by
  induction l with
  | nil => simp [insCoord]
  | cons d t ih =>
    by_cases h : coordLE c d
    · simp [insCoord, h]
    · rw [insCoord, if_neg h]
      exact (List.Perm.cons d ih).trans (List.Perm.swap c d t)

theorem sortCoords_coe (s : Finset Coord) :
    (sortCoords s : Multiset Coord) = s.val := by
  unfold sortCoords
  have main : ∀ m : Multiset Coord,
      ((Multiset.foldr insCoord [] m : List Coord) : Multiset Coord) = m := by
    intro m
    induction m using Multiset.induction_on with
    | empty => rfl
    | cons a m ih =>
      rw [Multiset.foldr_cons insCoord [] a m]
      calc ((insCoord a (Multiset.foldr insCoord [] m) : List Coord) : Multiset Coord)
          = ((a :: Multiset.foldr insCoord [] m : List Coord) : Multiset Coord) :=
            Quot.sound (insCoord_perm a _)
        _ = a ::ₘ m := by rw [← Multiset.cons_coe, ih]
  exact main s.val

theorem mem_sortCoords (s : Finset Coord) (c : Coord) :
    c ∈ sortCoords s ↔ c ∈ s := by
  rw [← Multiset.mem_coe, sortCoords_coe]
  rfl

theorem sortCoords_nodup (s : Finset Coord) : (sortCoords s).Nodup := by
  have := s.nodup
  rw [← sortCoords_coe s] at this
  exact this

theorem interior_mem (size : ℤ) (c : Coord) :
    c ∈ interior size ↔ inB size c.1 c.2 := by
  unfold interior inB
  rw [Finset.mem_product, Finset.mem_Icc, Finset.mem_Icc]
  tauto

theorem cellAt_setCell_ne (g : Grid) (y x v : ℤ) (c : Coord)
    (h : c ≠ (y, x)) : cellAt (setCell g y x v) c.1 c.2 = cellAt g c.1 c.2 := by
  have hc : (c.1, c.2) ≠ (y, x) := by
    intro he
    exact h (Prod.ext (congrArg Prod.fst he) (congrArg Prod.snd he))
  by_cases h1 : v = BLACK
  · subst h1
    simp [setCell, cellAt, hc, Finset.mem_insert, Finset.mem_erase]
  · by_cases h2 : v = WHITE
    · subst h2
      simp [setCell, cellAt, h1, hc, Finset.mem_insert, Finset.mem_erase]
    · simp [setCell, cellAt, h1, h2, hc, Finset.mem_insert, Finset.mem_erase]

theorem cellAt_setCell_self (g : Grid) (y x v : ℤ) (hin : inB g.size y x)
    (hv : v = BLACK ∨ v = WHITE ∨ v = EMPTY) :
    cellAt (setCell g y x v) y x = v := by
  rcases hv with hv | hv | hv <;> subst hv
  · simp [setCell, cellAt, hin]
  · simp [setCell, cellAt, hin, WHITE, BLACK, Finset.mem_erase]
  · simp [setCell, cellAt, hin, EMPTY, BLACK, WHITE, Finset.mem_erase]

theorem xor_shuffle (r a a2 : ℕ) : a2 ^^^ r = (a ^^^ r) ^^^ a ^^^ a2 := by
  rw [Nat.xor_comm a r, Nat.xor_assoc r a a, Nat.xor_self, Nat.xor_zero, Nat.xor_comm r a2]

theorem gridHash_update_one (zob : ℤ → ℤ → ℤ → ℕ) (g g2 : Grid) (c0 : Coord)
    (hsz : g2.size = g.size) (hc0 : c0 ∈ interior g.size)
    (hsame : ∀ c ∈ interior g.size, c ≠ c0 →
      cellContribution zob g2 c = cellContribution zob g c) :
    gridHash zob g2 = gridHash zob g ^^^ cellContribution zob g c0 ^^^
      cellContribution zob g2 c0 := by
  unfold gridHash
  rw [hsz]
  have hins : interior g.size = insert c0 ((interior g.size).erase c0) :=
    (Finset.insert_erase hc0).symm
  rw [hins, Finset.fold_insert (Finset.not_mem_erase c0 _),
    Finset.fold_insert (Finset.not_mem_erase c0 _)]
  have hcongr : ((interior g.size).erase c0).fold xorOp 0 (cellContribution zob g2) =
      ((interior g.size).erase c0).fold xorOp 0 (cellContribution zob g) := by
    apply Finset.fold_congr
    intro c hc
    exact hsame c (Finset.mem_of_mem_erase hc) (Finset.ne_of_mem_erase hc)
  rw [hcongr]
  exact xor_shuffle _ _ _

theorem cellContribution_eq (zob : ℤ → ℤ → ℤ → ℕ) (g g2 : Grid) (c : Coord)
    (h : cellAt g2 c.1 c.2 = cellAt g c.1 c.2) :
    cellContribution zob g2 c = cellContribution zob g c := by
  unfold cellContribution
  rw [h]

theorem setCell_size (g : Grid) (y x v : ℤ) : (setCell g y x v).size = g.size := by
  unfold setCell
  split
  · rfl
  · split <;> rfl

theorem cellAt_black_iff (g : Grid) (y x : ℤ) (hin : inB g.size y x) :
    cellAt g y x = BLACK ↔ (y, x) ∈ g.black := by
  unfold cellAt
  rw [if_pos hin]
  by_cases hb : (y, x) ∈ g.black
  · simp [hb]
  · by_cases hw : (y, x) ∈ g.white <;> simp [hb, hw, WHITE, BLACK, EMPTY]

theorem cellAt_white_iff (g : Grid) (y x : ℤ) (hin : inB g.size y x) :
    cellAt g y x = WHITE ↔ ((y, x) ∉ g.black ∧ (y, x) ∈ g.white) := by
  unfold cellAt
  rw [if_pos hin]
  by_cases hb : (y, x) ∈ g.black
  · simp [hb, WHITE, BLACK]
  · by_cases hw : (y, x) ∈ g.white <;> simp [hb, hw, WHITE, EMPTY]

theorem cellAt_empty_iff (g : Grid) (y x : ℤ) (hin : inB g.size y x) :
    cellAt g y x = EMPTY ↔ ((y, x) ∉ g.black ∧ (y, x) ∉ g.white) := by
  unfold cellAt
  rw [if_pos hin]
  by_cases hb : (y, x) ∈ g.black
  · simp [hb, BLACK, EMPTY]
  · by_cases hw : (y, x) ∈ g.white <;> simp [hb, hw, WHITE, EMPTY]

theorem xor_rotate (h p q : ℕ) : (h ^^^ p) ^^^ q = h ^^^ (q ^^^ p) := by
  rw [Nat.xor_assoc, Nat.xor_comm p q]

theorem gridHash_place (zob : ℤ → ℤ → ℤ → ℕ) (g : Grid) (y x v : ℤ)
    (hin : inB g.size y x) (hempty : cellAt g y x = EMPTY)
    (hv : v = BLACK ∨ v = WHITE) :
    gridHash zob (setCell g y x v) = gridHash zob g ^^^ zob y x (v - 1) := by
  have hc0 : (y, x) ∈ interior g.size := (interior_mem _ _).mpr hin
  have hsame : ∀ c ∈ interior g.size, c ≠ (y, x) →
      cellContribution zob (setCell g y x v) c = cellContribution zob g c :=
    fun c _ hne => cellContribution_eq _ _ _ _ (cellAt_setCell_ne g y x v c hne)
  rw [gridHash_update_one zob g _ (y, x) (setCell_size g y x v) hc0 hsame]
  have hold : cellContribution zob g (y, x) = 0 := by
    unfold cellContribution
    rw [hempty]
    simp [EMPTY]
  have hself : cellAt (setCell g y x v) y x = v := by
    refine cellAt_setCell_self g y x v hin ?_
    rcases hv with hv | hv
    · exact Or.inl hv
    · exact Or.inr (Or.inl hv)
  have hpos : 0 < v := by
    rcases hv with hv | hv <;> subst hv <;> simp [BLACK, WHITE]
  have hnew : cellContribution zob (setCell g y x v) (y, x) = zob y x (v - 1) := by
    unfold cellContribution
    rw [hself, if_pos hpos]
  rw [hold, hnew, Nat.xor_zero]

theorem cellAt_eraseBoth_ne (g : Grid) (a : Coord) (c : Coord) (hne : c ≠ a) :
    cellAt ⟨g.size, g.black.erase a, g.white.erase a⟩ c.1 c.2 = cellAt g c.1 c.2 := by
  have hc : (c.1, c.2) ≠ a := by
    intro he
    exact hne (by rw [← he])
  unfold cellAt
  simp [Finset.mem_erase, hc]

theorem gridHash_eraseBoth (zob : ℤ → ℤ → ℤ → ℕ) (g : Grid) (a : Coord)
    (col : ℤ) (hcol : col = BLACK ∨ col = WHITE)
    (hcell : cellAt g a.1 a.2 = col) (hin : inB g.size a.1 a.2) :
    gridHash zob ⟨g.size, g.black.erase a, g.white.erase a⟩ =
      gridHash zob g ^^^ zob a.1 a.2 (col - 1) := by
  have hc0 : a ∈ interior g.size := (interior_mem _ _).mpr hin
  have hsame : ∀ c ∈ interior g.size, c ≠ a →
      cellContribution zob ⟨g.size, g.black.erase a, g.white.erase a⟩ c =
        cellContribution zob g c :=
    fun c _ hne => cellContribution_eq _ _ _ _ (cellAt_eraseBoth_ne g a c hne)
  rw [gridHash_update_one zob g ⟨g.size, g.black.erase a, g.white.erase a⟩ a rfl hc0 hsame]
  have hpos : 0 < col := by
    rcases hcol with hv | hv <;> subst hv <;> simp [BLACK, WHITE]
  have hold : cellContribution zob g a = zob a.1 a.2 (col - 1) := by
    unfold cellContribution
    rw [hcell, if_pos hpos]
  have hnew : cellContribution zob ⟨g.size, g.black.erase a, g.white.erase a⟩ a = 0 := by
    have : cellAt ⟨g.size, g.black.erase a, g.white.erase a⟩ a.1 a.2 = EMPTY := by
      refine (cellAt_empty_iff ⟨g.size, g.black.erase a, g.white.erase a⟩ a.1 a.2 hin).mpr ?_
      constructor
      · intro hmem
        exact absurd rfl (Finset.mem_erase.mp hmem).1
      · intro hmem
        exact absurd rfl (Finset.mem_erase.mp hmem).1
    unfold cellContribution
    rw [this]
    simp [EMPTY]
  rw [hold, hnew, Nat.xor_zero]

theorem gridHash_removeSet (zob : ℤ → ℤ → ℤ → ℕ) (g : Grid) (st : Finset Coord)
    (col : ℤ) (hcol : col = BLACK ∨ col = WHITE)
    (hst : ∀ c ∈ st, cellAt g c.1 c.2 = col ∧ inB g.size c.1 c.2) :
    gridHash zob ⟨g.size, g.black \ st, g.white \ st⟩ =
      gridHash zob g ^^^ xorSet st (fun c => zob c.1 c.2 (col - 1)) := by
  induction st using Finset.induction_on with
  | empty =>
    have h1 : g.black \ ∅ = g.black := Finset.sdiff_empty
    have h2 : g.white \ ∅ = g.white := Finset.sdiff_empty
    rw [h1, h2]
    have h3 : xorSet ∅ (fun c => zob c.1 c.2 (col - 1)) = 0 := rfl
    rw [h3, Nat.xor_zero]
  | @insert a s ha ih =>
    have hdb : g.black \ insert a s = (g.black \ s).erase a := by
      rw [Finset.sdiff_insert]
    have hdw : g.white \ insert a s = (g.white \ s).erase a := by
      rw [Finset.sdiff_insert]
    rw [hdb, hdw]
    have hmid := ih (fun c hc => hst c (Finset.mem_insert_of_mem hc))
    have hcellmid : cellAt ⟨g.size, g.black \ s, g.white \ s⟩ a.1 a.2 = col := by
      obtain ⟨hca, hina⟩ := hst a (Finset.mem_insert_self a s)
      rcases hcol with hv | hv
      · subst hv
        refine (cellAt_black_iff ⟨g.size, g.black \ s, g.white \ s⟩ a.1 a.2 hina).mpr ?_
        exact Finset.mem_sdiff.mpr ⟨(cellAt_black_iff g a.1 a.2 hina).mp hca, ha⟩
      · subst hv
        obtain ⟨hnb, hw⟩ := (cellAt_white_iff g a.1 a.2 hina).mp hca
        refine (cellAt_white_iff ⟨g.size, g.black \ s, g.white \ s⟩ a.1 a.2 hina).mpr ?_
        constructor
        · intro hmem2
          exact hnb (Finset.mem_sdiff.mp hmem2).1
        · exact Finset.mem_sdiff.mpr ⟨hw, ha⟩
    have hina := (hst a (Finset.mem_insert_self a s)).2
    have hstep := gridHash_eraseBoth zob ⟨g.size, g.black \ s, g.white \ s⟩ a col
      hcol hcellmid hina
    rw [hstep, hmid]
    have hfold : xorSet (insert a s) (fun c => zob c.1 c.2 (col - 1)) =
        zob a.1 a.2 (col - 1) ^^^ xorSet s (fun c => zob c.1 c.2 (col - 1)) := by
      unfold xorSet
      rw [Finset.fold_insert ha]
      rfl
    rw [hfold]
    exact xor_rotate _ _ _

theorem eraseAll_spec {K V : Type} [DecidableEq K] (l : List K) (d : PyDict K V)
    (hnd : (dictKeys d).Nodup) (hl : l.Nodup)
    (hall : ∀ k ∈ l, (dictFind? d k).isSome) :
    ∃ d2, l.foldl delAllStep (some d) = some d2 ∧
      (dictKeys d2).Nodup ∧
      ∀ k2, dictFind? d2 k2 = if k2 ∈ l then none else dictFind? d k2 := by
  induction l generalizing d with
  | nil => exact ⟨d, rfl, hnd, fun k2 => by simp⟩
  | cons k t ih =>
    rw [List.nodup_cons] at hl
    have hk := hall k (List.mem_cons_self k t)
    have hstep : delAllStep (some d) k = some (dictErase d k) := by
      unfold delAllStep
      exact if_pos hk
    have hallt : ∀ k2 ∈ t, (dictFind? (dictErase d k) k2).isSome := by
      intro k2 h2
      have hne : k2 ≠ k := fun he => hl.1 (he ▸ h2)
      rw [dictFind?_erase_ne d k k2 hne]
      exact hall k2 (List.mem_cons_of_mem _ h2)
    obtain ⟨d2, hfold, hnd2, hfind⟩ := ih (dictErase d k) (nodup_keys_erase d k hnd)
      hl.2 hallt
    refine ⟨d2, ?_, hnd2, ?_⟩
    · simp only [List.foldl_cons]
      rw [hstep]
      exact hfold
    · intro k2
      rw [hfind k2]
      by_cases h2 : k2 ∈ t
      · simp [h2]
      · by_cases h3 : k2 = k
        · subst h3
          simp [h2, dictFind?_erase_self d k2 hnd]
        · simp [h2, h3, dictFind?_erase_ne d k k2 h3]

theorem remove_group_spec (gm : GroupManager) (gid : ℕ) (st : Finset Coord)
    (hfind : dictFind? gm.group_stones gid = some st)
    (hnG : (dictKeys gm.groups).Nodup)
    (hnS : (dictKeys gm.group_stones).Nodup)
    (hnL : (dictKeys gm.group_liberties).Nodup)
    (hlib : (dictFind? gm.group_liberties gid).isSome)
    (hmap : ∀ c ∈ st, dictFind? gm.groups c = some gid) :
    ∃ gm2, remove_group gm gid = some gm2 ∧
      gm2.size = gm.size ∧ gm2.next_group_id = gm.next_group_id ∧
      (dictKeys gm2.groups).Nodup ∧ (dictKeys gm2.group_stones).Nodup ∧
      (dictKeys gm2.group_liberties).Nodup ∧
      (∀ c, dictFind? gm2.groups c =
        if c ∈ st then none else dictFind? gm.groups c) ∧
      (∀ g2, dictFind? gm2.group_stones g2 =
        if g2 = gid then none else dictFind? gm.group_stones g2) ∧
      (∀ g2, dictFind? gm2.group_liberties g2 =
        if g2 = gid then none else dictFind? gm.group_liberties g2) := by
  have hall : ∀ c ∈ sortCoords st, (dictFind? gm.groups c).isSome := by
    intro c hc
    rw [hmap c ((mem_sortCoords st c).mp hc)]
    rfl
  obtain ⟨d2, hfold, hnd2, hfindG⟩ := eraseAll_spec (sortCoords st) gm.groups hnG
    (sortCoords_nodup st) hall
  refine ⟨⟨gm.size, d2, dictErase gm.group_stones gid,
    dictErase gm.group_liberties gid, gm.next_group_id⟩, ?_, rfl, rfl, hnd2,
    nodup_keys_erase _ _ hnS, nodup_keys_erase _ _ hnL, ?_, ?_, ?_⟩
  · unfold remove_group
    simp only [dictGetIns_found _ _ _ _ hfind, hfold]
    unfold dictErase?
    rw [if_pos hlib]
  · intro c
    rw [hfindG c]
    by_cases hc : c ∈ st <;> simp [hc, mem_sortCoords]
  · intro g2
    by_cases h2 : g2 = gid
    · subst h2
      simp [dictFind?_erase_self _ _ hnS]
    · simp [h2, dictFind?_erase_ne _ _ _ h2]
  · intro g2
    by_cases h2 : g2 = gid
    · subst h2
      simp [dictFind?_erase_self _ _ hnL]
    · simp [h2, dictFind?_erase_ne _ _ _ h2]

theorem BoardWf.track {b : Board} (hwf : BoardWf b) :
    trackerKeysOk b.group_manager := by
  intro kv hkv
  have hfind := dictFind?_of_mem_nodup _ _ _ hkv hwf.nodupG
  obtain ⟨s, hs, _⟩ := hwf.mapToStones kv.1 kv.2 hfind
  constructor
  · rw [hs]
    rfl
  · exact (hwf.domSync kv.2).mp (by rw [hs]; rfl)

theorem capture_step (b : Board) (opp : ℤ) (gid : ℕ) (rest : List ℕ) (count : ℕ)
    (hwf : BoardWf b) (c0 : Coord)
    (hc0 : dictFind? b.group_manager.groups c0 = some gid)
    (hcell : cellAt b.grid c0.1 c0.2 = opp) :
    ∃ st b2, dictFind? b.group_manager.group_stones gid = some st ∧ c0 ∈ st ∧
      removeCaptured b opp (gid :: rest) count =
        removeCaptured b2 opp rest (count + st.card) ∧
      BoardWf b2 ∧
      b2.size = b.size ∧ b2.zobrist = b.zobrist ∧
      b2.position_history = b.position_history ∧
      b2.black_captures = b.black_captures ∧ b2.white_captures = b.white_captures ∧
      b2.group_manager.next_group_id = b.group_manager.next_group_id ∧
      (∀ c : Coord, dictFind? b2.group_manager.groups c =
        if c ∈ st then none else dictFind? b.group_manager.groups c) ∧
      (∀ c ∈ st, dictFind? b.group_manager.groups c = some gid) ∧
      (∀ c ∈ st, cellAt b.grid c.1 c.2 = opp) ∧
      (∀ c : Coord, c ∉ st → cellAt b2.grid c.1 c.2 = cellAt b.grid c.1 c.2) ∧
      b2.black = b.black \ st ∧ b2.white = b.white \ st ∧
      b2.current_hash = b.current_hash ^^^
        xorSet st (fun c => b.zobrist c.1 c.2 (opp - 1)) ∧
      (∀ c ∈ st, inB b.size c.1 c.2) ∧
      (opp = BLACK ∨ opp = WHITE) := by
  obtain ⟨st, hs, hc0st⟩ := hwf.mapToStones c0 gid hc0
  have hboundst : ∀ c ∈ st, inB b.size c.1 c.2 := by
    intro c hc
    apply hwf.bounded
    rcases hwf.mono gid st hs with hsub | hsub
    · exact Finset.mem_union_left _ (hsub hc)
    · exact Finset.mem_union_right _ (hsub hc)
  have hin0 : inB b.size c0.1 c0.2 := hboundst c0 hc0st
  have hstcol : (∀ c ∈ st, cellAt b.grid c.1 c.2 = opp) ∧
      (opp = BLACK ∨ opp = WHITE) := by
    rcases hwf.mono gid st hs with hsub | hsub
    · have hopp : opp = BLACK := by
        rw [← hcell]
        exact (cellAt_black_iff b.grid c0.1 c0.2 hin0).mpr (hsub hc0st)
      refine ⟨?_, Or.inl hopp⟩
      intro c hc
      rw [hopp]
      exact (cellAt_black_iff b.grid c.1 c.2 (hboundst c hc)).mpr (hsub hc)
    · have hopp : opp = WHITE := by
        rw [← hcell]
        refine (cellAt_white_iff b.grid c0.1 c0.2 hin0).mpr ?_
        exact ⟨Finset.disjoint_right.mp hwf.disj (hsub hc0st), hsub hc0st⟩
      refine ⟨?_, Or.inr hopp⟩
      intro c hc
      rw [hopp]
      refine (cellAt_white_iff b.grid c.1 c.2 (hboundst c hc)).mpr ?_
      exact ⟨Finset.disjoint_right.mp hwf.disj (hsub hc), hsub hc⟩
  have hmapst : ∀ c ∈ st, dictFind? b.group_manager.groups c = some gid :=
    hwf.stonesToMap gid st hs
  have hlibsome : (dictFind? b.group_manager.group_liberties gid).isSome :=
    (hwf.domSync gid).mp (by rw [hs]; rfl)
  obtain ⟨gm2, hrg, hsz2, hnext2, hndG2, hndS2, hndL2, hfG, hfS, hfL⟩ :=
    remove_group_spec b.group_manager gid st hs hwf.nodupG hwf.nodupS hwf.nodupL
      hlibsome hmapst
  refine ⟨st, ⟨b.size, b.black \ st, b.white \ st, b.black_captures,
    b.white_captures, b.position_history, b.zobrist,
    b.current_hash ^^^ xorSet st (fun c => b.zobrist c.1 c.2 (opp - 1)), gm2⟩,
    hs, hc0st, ?_, ?_, rfl, rfl, rfl, rfl, rfl, ?_, ?_, hmapst, hstcol.1, ?_,
    rfl, rfl, rfl, hboundst, hstcol.2⟩
  · show removeCaptured b opp (gid :: rest) count = _
    unfold removeCaptured
    simp only [get_group_stones_found b.group_manager gid st hs, hrg]
    cases rest with
    | nil => rfl
    | cons a t => rfl
  · constructor
    · exact hndG2
    · exact hndS2
    · exact hndL2
    · intro g2
      rw [hfS g2, hfL g2]
      by_cases h2 : g2 = gid
      · simp [h2]
      · simp only [if_neg h2]
        exact hwf.domSync g2
    · intro c g2 hfind2
      rw [hfG c] at hfind2
      by_cases hcst : c ∈ st
      · rw [if_pos hcst] at hfind2
        exact Option.noConfusion hfind2
      · rw [if_neg hcst] at hfind2
        obtain ⟨s2, hs2, hcs2⟩ := hwf.mapToStones c g2 hfind2
        have hg2 : g2 ≠ gid := by
          intro he
          subst he
          rw [hs] at hs2
          have he2 : st = s2 := Option.some.inj hs2
          exact hcst (he2.symm ▸ hcs2)
        refine ⟨s2, ?_, hcs2⟩
        rw [hfS g2, if_neg hg2]
        exact hs2
    · intro g2 s2 hfind2 c hcs2
      rw [hfS g2] at hfind2
      by_cases h2 : g2 = gid
      · rw [if_pos h2] at hfind2
        exact Option.noConfusion hfind2
      · rw [if_neg h2] at hfind2
        have hold := hwf.stonesToMap g2 s2 hfind2 c hcs2
        rw [hfG c]
        have hcst : c ∉ st := by
          intro hcst
          have hcomb : some gid = some g2 := (hmapst c hcst).symm.trans hold
          exact h2 (Option.some.inj hcomb).symm
        rw [if_neg hcst]
        exact hold
    · intro c
      rw [hfG c]
      by_cases hcst : c ∈ st
      · simp only [if_pos hcst]
        constructor
        · intro hfalse
          exact absurd hfalse (by simp)
        · intro hmem
          rcases Finset.mem_union.mp hmem with hmem | hmem
          · exact absurd hcst (Finset.mem_sdiff.mp hmem).2
          · exact absurd hcst (Finset.mem_sdiff.mp hmem).2
      · simp only [if_neg hcst]
        rw [hwf.occIff c]
        constructor
        · intro hmem
          rcases Finset.mem_union.mp hmem with hmem | hmem
          · exact Finset.mem_union_left _ (Finset.mem_sdiff.mpr ⟨hmem, hcst⟩)
          · exact Finset.mem_union_right _ (Finset.mem_sdiff.mpr ⟨hmem, hcst⟩)
        · intro hmem
          rcases Finset.mem_union.mp hmem with hmem | hmem
          · exact Finset.mem_union_left _ (Finset.mem_sdiff.mp hmem).1
          · exact Finset.mem_union_right _ (Finset.mem_sdiff.mp hmem).1
    · intro g2 s2 hfind2
      rw [hfS g2] at hfind2
      by_cases h2 : g2 = gid
      · rw [if_pos h2] at hfind2
        exact Option.noConfusion hfind2
      · rw [if_neg h2] at hfind2
        have hdisj : ∀ c ∈ s2, c ∉ st := by
          intro c hcs2 hcst
          have hcomb : some gid = some g2 :=
            (hmapst c hcst).symm.trans (hwf.stonesToMap g2 s2 hfind2 c hcs2)
          exact h2 (Option.some.inj hcomb).symm
        rcases hwf.mono g2 s2 hfind2 with hsub | hsub
        · exact Or.inl (fun c hc => Finset.mem_sdiff.mpr ⟨hsub hc, hdisj c hc⟩)
        · exact Or.inr (fun c hc => Finset.mem_sdiff.mpr ⟨hsub hc, hdisj c hc⟩)
    · rw [Finset.disjoint_left]
      intro c hcb hcw
      exact Finset.disjoint_left.mp hwf.disj (Finset.mem_sdiff.mp hcb).1
        (Finset.mem_sdiff.mp hcw).1
    · intro c hmem
      apply hwf.bounded
      rcases Finset.mem_union.mp hmem with hmem | hmem
      · exact Finset.mem_union_left _ (Finset.mem_sdiff.mp hmem).1
      · exact Finset.mem_union_right _ (Finset.mem_sdiff.mp hmem).1
    · intro g2 hsome
      rw [hfS g2] at hsome
      by_cases h2 : g2 = gid
      · rw [if_pos h2] at hsome
        exact absurd hsome (by simp)
      · rw [if_neg h2] at hsome
        rw [hnext2]
        exact hwf.fresh g2 hsome
    · rw [hsz2]
      exact hwf.sizeEq
    · show b.current_hash ^^^ xorSet st (fun c => b.zobrist c.1 c.2 (opp - 1)) = _
      rw [hwf.hashOk]
      have := gridHash_removeSet b.zobrist b.grid st opp hstcol.2
        (fun c hc => ⟨hstcol.1 c hc, hboundst c hc⟩)
      unfold recomputedHash
      rw [← this]
      rfl
  · exact hnext2
  · exact hfG
  · intro c hcst
    show cellAt ⟨b.size, b.black \ st, b.white \ st⟩ c.1 c.2 = cellAt b.grid c.1 c.2
    have hb : ((c.1, c.2) ∈ b.black \ st) ↔ ((c.1, c.2) ∈ b.black) := by
      rw [Finset.mem_sdiff]
      exact ⟨fun h => h.1, fun h => ⟨h, hcst⟩⟩
    have hw : ((c.1, c.2) ∈ b.white \ st) ↔ ((c.1, c.2) ∈ b.white) := by
      rw [Finset.mem_sdiff]
      exact ⟨fun h => h.1, fun h => ⟨h, hcst⟩⟩
    unfold cellAt
    by_cases hin : inB b.size c.1 c.2
    · simp only [if_pos hin]
      by_cases h1 : (c.1, c.2) ∈ b.black
      · simp [Board.grid, hin, h1, hb.mpr h1]
      · have h1b : (c.1, c.2) ∉ b.black \ st := fun hh => h1 (hb.mp hh)
        by_cases h2 : (c.1, c.2) ∈ b.white
        · simp [Board.grid, hin, h1, h1b, h2, hw.mpr h2]
        · have h2b : (c.1, c.2) ∉ b.white \ st := fun hh => h2 (hw.mp hh)
          simp [Board.grid, hin, h1, h1b, h2, h2b]
    · simp [Board.grid, hin]

theorem cellAt_oob (g : Grid) (cy cx : ℤ) (h : ¬ inB g.size cy cx) :
    cellAt g cy cx = OFFBOARD := by
  unfold cellAt
  rw [if_neg h]

theorem opponentOf_valid (color : ℤ) :
    opponentOf color = BLACK ∨ opponentOf color = WHITE := by
  unfold opponentOf
  by_cases h : color = BLACK
  · rw [if_pos h]
    exact Or.inr rfl
  · rw [if_neg h]
    exact Or.inl rfl

theorem cellAt_inB_of_stone (g : Grid) (cy cx v : ℤ)
    (hv : v = BLACK ∨ v = WHITE) (h : cellAt g cy cx = v) :
    inB g.size cy cx := by
  by_contra hin
  rw [cellAt_oob g cy cx hin] at h
  rcases hv with hv | hv <;> rw [hv] at h <;>
    exact absurd h (by simp [OFFBOARD, BLACK, WHITE])

theorem cellAt_sdiff_mem (g : Grid) (st : Finset Coord) (cy cx : ℤ)
    (hin : inB g.size cy cx) (h : ((cy, cx) : Coord) ∈ st) :
    cellAt ⟨g.size, g.black \ st, g.white \ st⟩ cy cx = EMPTY := by
  refine (cellAt_empty_iff ⟨g.size, g.black \ st, g.white \ st⟩ cy cx hin).mpr ?_
  constructor <;> (intro hm; exact (Finset.mem_sdiff.mp hm).2 h)

theorem cellAt_sdiff_notmem (g : Grid) (st : Finset Coord) (cy cx : ℤ)
    (h : ((cy, cx) : Coord) ∉ st) :
    cellAt ⟨g.size, g.black \ st, g.white \ st⟩ cy cx = cellAt g cy cx := by
  have hb : ((cy, cx) ∈ g.black \ st) ↔ ((cy, cx) ∈ g.black) := by
    rw [Finset.mem_sdiff]
    exact ⟨fun h2 => h2.1, fun h2 => ⟨h2, h⟩⟩
  have hw : ((cy, cx) ∈ g.white \ st) ↔ ((cy, cx) ∈ g.white) := by
    rw [Finset.mem_sdiff]
    exact ⟨fun h2 => h2.1, fun h2 => ⟨h2, h⟩⟩
  unfold cellAt
  by_cases hin : inB g.size cy cx
  · simp only [if_pos hin]
    simp [hb, hw]
  · simp only [if_neg hin]

theorem xorSet_union_disjoint (s t : Finset Coord) (f : Coord → ℕ)
    (h : Disjoint s t) : xorSet (s ∪ t) f = xorSet s f ^^^ xorSet t f := by
  induction s using Finset.induction_on with
  | empty =>
    have h0 : xorSet ∅ f = 0 := rfl
    rw [Finset.empty_union, h0, Nat.zero_xor]
  | @insert a s ha ih =>
    have hparts := Finset.disjoint_insert_left.mp h
    rw [Finset.insert_union]
    unfold xorSet
    rw [Finset.fold_insert (by
        intro hmem
        rcases Finset.mem_union.mp hmem with hm | hm
        · exact ha hm
        · exact hparts.1 hm), Finset.fold_insert ha]
    show f a ^^^ (s ∪ t).fold xorOp 0 f = (f a ^^^ s.fold xorOp 0 f) ^^^ t.fold xorOp 0 f
    have ih2 := ih hparts.2
    unfold xorSet at ih2
    rw [ih2, Nat.xor_assoc]

theorem removeCaptured_wf (l : List ℕ) (b : Board) (opp : ℤ) (count : ℕ)
    (hwf : BoardWf b) (hnd : l.Nodup)
    (hwit : ∀ gid ∈ l, ∃ c : Coord,
      dictFind? b.group_manager.groups c = some gid ∧
      cellAt b.grid c.1 c.2 = opp) :
    ∃ n2 b2, removeCaptured b opp l count = (none, count + n2, b2) ∧ BoardWf b2 ∧
      b2.size = b.size ∧ b2.zobrist = b.zobrist ∧
      b2.position_history = b.position_history ∧
      b2.black_captures = b.black_captures ∧ b2.white_captures = b.white_captures ∧
      b2.group_manager.next_group_id = b.group_manager.next_group_id ∧
      (∀ c : Coord, cellAt b.grid c.1 c.2 = EMPTY →
        cellAt b2.grid c.1 c.2 = EMPTY) ∧
      ∃ captSet : Finset Coord,
        b2.black = b.black \ captSet ∧ b2.white = b.white \ captSet ∧
        b2.current_hash = b.current_hash ^^^
          xorSet captSet (fun c => b.zobrist c.1 c.2 (opp - 1)) ∧
        ∀ c ∈ captSet, cellAt b.grid c.1 c.2 = opp ∧ inB b.size c.1 c.2 := by
  induction l generalizing b count with
  | nil =>
    refine ⟨0, b, ?_, hwf, rfl, rfl, rfl, rfl, rfl, rfl, fun c h => h,
      ∅, Finset.sdiff_empty.symm, Finset.sdiff_empty.symm, ?_,
      fun c hc => absurd hc (Finset.not_mem_empty c)⟩
    · simp [removeCaptured]
    · have h0 : xorSet ∅ (fun c => b.zobrist c.1 c.2 (opp - 1)) = 0 := rfl
      rw [h0, Nat.xor_zero]
  | cons gid rest ih =>
    rw [List.nodup_cons] at hnd
    obtain ⟨c0, hc0, hcell0⟩ := hwit gid (List.mem_cons_self gid rest)
    obtain ⟨st, b2, hs, hc0st, heq, hwf2, hsz, hzob, hhist, hbc, hwc, hnext,
      hfG, hmapst, hstcol, hcellkeep, hb2b, hb2w, hb2h, hbnd, hoppv⟩ :=
      capture_step b opp gid rest count hwf c0 hc0 hcell0
    have hwit2 : ∀ gid2 ∈ rest, ∃ c : Coord,
        dictFind? b2.group_manager.groups c = some gid2 ∧
        cellAt b2.grid c.1 c.2 = opp := by
      intro gid2 hg2
      obtain ⟨c2, hc2, hcell2⟩ := hwit gid2 (List.mem_cons_of_mem _ hg2)
      have hc2st : c2 ∉ st := by
        intro hmem
        have := (hmapst c2 hmem).symm.trans hc2
        exact hnd.1 ((Option.some.inj this) ▸ hg2)
      refine ⟨c2, ?_, ?_⟩
      · rw [hfG c2, if_neg hc2st]
        exact hc2
      · rw [hcellkeep c2 hc2st]
        exact hcell2
    have hempty2 : ∀ c : Coord, cellAt b.grid c.1 c.2 = EMPTY →
        cellAt b2.grid c.1 c.2 = EMPTY := by
      intro c hc
      have hcmem : c ∉ st := by
        intro hmem
        have h1 := hstcol c hmem
        rw [hc] at h1
        have h2 := hwf.bounded c (by
          rcases hwf.mono gid st hs with hsub | hsub
          · exact Finset.mem_union_left _ (hsub hmem)
          · exact Finset.mem_union_right _ (hsub hmem))
        rcases hwf.mono gid st hs with hsub | hsub
        · have := (cellAt_black_iff b.grid c.1 c.2 h2).mpr (hsub hmem)
          rw [hc] at this
          exact absurd this (by unfold EMPTY BLACK; omega)
        · have := (cellAt_white_iff b.grid c.1 c.2 h2).mpr
            ⟨Finset.disjoint_right.mp hwf.disj (hsub hmem), hsub hmem⟩
          rw [hc] at this
          exact absurd this (by unfold EMPTY WHITE; omega)
      rw [hcellkeep c hcmem]
      exact hc
    obtain ⟨n3, b3, heq3, hwf3, hsz3, hzob3, hhist3, hbc3, hwc3, hnext3, hkeep3,
      captSet3, hb3b, hb3w, hh3, hpc3⟩ :=
      ih b2 (count + st.card) hwf2 hnd.2 hwit2
    have hdisj3 : ∀ c ∈ captSet3, c ∉ st := by
      intro c hc hcst
      have h1 := (hpc3 c hc).1
      have hg2 : b2.grid = ⟨b.grid.size, b.grid.black \ st, b.grid.white \ st⟩ := by
        show (⟨b2.size, b2.black, b2.white⟩ : Grid) = _
        rw [hsz, hb2b, hb2w]
        rfl
      have hinc : inB b.size c.1 c.2 := hsz ▸ (hpc3 c hc).2
      have hE := cellAt_sdiff_mem b.grid st c.1 c.2 hinc hcst
      rw [hg2, hE] at h1
      rcases hoppv with ho | ho <;> rw [ho] at h1 <;>
        exact absurd h1 (by simp [EMPTY, BLACK, WHITE])
    have hpcB : ∀ c ∈ st ∪ captSet3, cellAt b.grid c.1 c.2 = opp ∧
        inB b.size c.1 c.2 := by
      intro c hc
      rcases Finset.mem_union.mp hc with hc | hc
      · exact ⟨hstcol c hc, hbnd c hc⟩
      · have h1 := hpc3 c hc
        have hcst : c ∉ st := hdisj3 c hc
        refine ⟨?_, hsz ▸ h1.2⟩
        rw [← hcellkeep c hcst]
        exact h1.1
    have hdisjF : Disjoint st captSet3 := by
      rw [Finset.disjoint_right]
      intro c hc
      exact hdisj3 c hc
    refine ⟨st.card + n3, b3, ?_, hwf3, hsz3.trans hsz, hzob3.trans hzob,
      hhist3.trans hhist, hbc3.trans hbc, hwc3.trans hwc, hnext3.trans hnext,
      fun c h => hkeep3 c (hempty2 c h), st ∪ captSet3, ?_, ?_, ?_, hpcB⟩
    · rw [heq, heq3, ← Nat.add_assoc]
    · rw [hb3b, hb2b]
      ext c
      simp only [Finset.mem_sdiff, Finset.mem_union]
      tauto
    · rw [hb3w, hb2w]
      ext c
      simp only [Finset.mem_sdiff, Finset.mem_union]
      tauto
    · rw [hzob] at hh3
      rw [hh3, hb2h, xorSet_union_disjoint st captSet3 _ hdisjF, ← Nat.xor_assoc]

theorem dictFind?_append_single_ne {K V : Type} [DecidableEq K]
    (d : PyDict K V) (k k2 : K) (v : V) (h : k2 ≠ k) :
    dictFind? (d ++ [(k, v)]) k2 = dictFind? d k2 := by
  cases hf : dictFind? d k2 with
  | some v2 => exact dictFind?_append_left d _ k2 v2 hf
  | none =>
    rw [dictFind?_append_right d _ k2 hf]
    have hks : ¬ (k = k2) := fun hh => h hh.symm
    simp [dictFind?, hks]

theorem setAll_spec {K V : Type} [DecidableEq K] (l : List K) (d : PyDict K V) (v : V) :
    (∀ k2, dictFind? (l.foldl (fun dd c => dictSet dd c v) d) k2 =
      if k2 ∈ l then some v else dictFind? d k2) ∧
    ((dictKeys d).Nodup → (dictKeys (l.foldl (fun dd c => dictSet dd c v) d)).Nodup) := by
  induction l generalizing d with
  | nil => simp
  | cons k t ih =>
    constructor
    · intro k2
      rw [List.foldl_cons, (ih (dictSet d k v)).1 k2]
      by_cases h2 : k2 ∈ t
      · simp [h2]
      · by_cases h3 : k2 = k
        · subst h3
          simp [h2, dictFind?_set_self]
        · simp [h2, h3, dictFind?_set_ne d k k2 v h3]
    · intro hnd
      rw [List.foldl_cons]
      exact (ih (dictSet d k v)).2 (nodup_keys_set d k v hnd)

theorem foldl_min_mem (g0 : ℕ) (rest : List ℕ) :
    rest.foldl min g0 ∈ g0 :: rest := by
  induction rest generalizing g0 with
  | nil => simp
  | cons a t ih =>
    rw [List.foldl_cons]
    have hm : min g0 a = g0 ∨ min g0 a = a := by omega
    rcases List.mem_cons.mp (ih (min g0 a)) with h | h
    · rcases hm with h2 | h2 <;> rw [h2] at h ⊢ <;> simp [h]
    · simp [h]

theorem create_group_spec (gm : GroupManager) (y x color : ℤ) (board : Grid)
    (hfreshS : dictFind? gm.group_stones gm.next_group_id = none)
    (hfreshL : dictFind? gm.group_liberties gm.next_group_id = none)
    (hndG : (dictKeys gm.groups).Nodup)
    (hndS : (dictKeys gm.group_stones).Nodup)
    (hndL : (dictKeys gm.group_liberties).Nodup) :
    ∃ gm4, create_group gm y x color board = (gm.next_group_id, gm4) ∧
      gm4.size = gm.size ∧ gm4.next_group_id = gm.next_group_id + 1 ∧
      (dictKeys gm4.groups).Nodup ∧ (dictKeys gm4.group_stones).Nodup ∧
      (dictKeys gm4.group_liberties).Nodup ∧
      (∀ c : Coord, dictFind? gm4.groups c =
        if c = (y, x) then some gm.next_group_id else dictFind? gm.groups c) ∧
      (∀ g2, dictFind? gm4.group_stones g2 =
        if g2 = gm.next_group_id then some {(y, x)} else dictFind? gm.group_stones g2) ∧
      (∀ g2, dictFind? gm4.group_liberties g2 =
        if g2 = gm.next_group_id then some (emptyNbrs gm.size board y x)
        else dictFind? gm.group_liberties g2) := by
  refine ⟨(create_group gm y x color board).2, rfl, ?_, ?_, ?_, ?_, ?_, ?_, ?_, ?_⟩
  · rfl
  · rfl
  · exact nodup_keys_set _ _ _ hndG
  · show (dictKeys (dictSet ((dictGetIns gm.group_stones gm.next_group_id ∅).2)
      gm.next_group_id _)).Nodup
    unfold dictGetIns
    rw [hfreshS]
    exact nodup_keys_set _ _ _ (nodup_keys_append _ _ _ hndS hfreshS)
  · exact nodup_keys_set _ _ _ hndL
  · intro c
    show dictFind? (dictSet gm.groups (y, x) gm.next_group_id) c = _
    by_cases hc : c = (y, x)
    · subst hc
      rw [dictFind?_set_self, if_pos rfl]
    · rw [dictFind?_set_ne _ _ _ _ hc, if_neg hc]
  · intro g2
    show dictFind? (dictSet ((dictGetIns gm.group_stones gm.next_group_id ∅).2)
      gm.next_group_id _) g2 = _
    unfold dictGetIns
    rw [hfreshS]
    by_cases h2 : g2 = gm.next_group_id
    · subst h2
      rw [dictFind?_set_self, if_pos rfl]
      rfl
    · rw [dictFind?_set_ne _ _ _ _ h2, if_neg h2,
        dictFind?_append_single_ne _ _ _ _ h2]
  · intro g2
    show dictFind? (dictSet gm.group_liberties gm.next_group_id
      (emptyNbrs gm.size board y x)) g2 = _
    by_cases h2 : g2 = gm.next_group_id
    · subst h2
      rw [dictFind?_set_self, if_pos rfl]
    · rw [dictFind?_set_ne _ _ _ _ h2, if_neg h2]

theorem mergeCollectStep_found (newId gid : ℕ) (S0 L0 : Finset Coord)
    (gmA : GroupManager) (sg lg : Finset Coord)
    (hsg : dictFind? gmA.group_stones gid = some sg)
    (hlg : dictFind? gmA.group_liberties gid = some lg) :
    mergeCollectStep newId (S0, L0, gmA) gid =
      (S0 ∪ sg, L0 ∪ lg,
        if gid ≠ newId then
          { gmA with group_stones := dictErase gmA.group_stones gid,
                     group_liberties := dictErase gmA.group_liberties gid }
        else gmA) := by
  unfold mergeCollectStep
  simp only
  rw [dictGetIns_found _ _ _ _ hsg, dictGetIns_found _ _ _ _ hlg]

theorem mergeCollect_spec (newId : ℕ) (Q : List ℕ) :
    ∀ (S0 L0 : Finset Coord) (gmA : GroupManager), Q.Nodup →
    (∀ gid ∈ Q, (dictFind? gmA.group_stones gid).isSome ∧
      (dictFind? gmA.group_liberties gid).isSome) →
    (dictKeys gmA.group_stones).Nodup →
    (dictKeys gmA.group_liberties).Nodup →
    ∃ SQ LQ gmB,
      Q.foldl (mergeCollectStep newId) (S0, L0, gmA) = (S0 ∪ SQ, L0 ∪ LQ, gmB) ∧
      gmB.groups = gmA.groups ∧ gmB.size = gmA.size ∧
      gmB.next_group_id = gmA.next_group_id ∧
      (∀ g2, dictFind? gmB.group_stones g2 =
        if g2 ∈ Q ∧ g2 ≠ newId then none else dictFind? gmA.group_stones g2) ∧
      (∀ g2, dictFind? gmB.group_liberties g2 =
        if g2 ∈ Q ∧ g2 ≠ newId then none else dictFind? gmA.group_liberties g2) ∧
      (dictKeys gmB.group_stones).Nodup ∧ (dictKeys gmB.group_liberties).Nodup ∧
      (∀ c : Coord, c ∈ SQ ↔ ∃ gid ∈ Q, ∃ s,
        dictFind? gmA.group_stones gid = some s ∧ c ∈ s) := by
  induction Q with
  | nil =>
    intro S0 L0 gmA _ _ hndS hndL
    refine ⟨∅, ∅, gmA, by simp, rfl, rfl, rfl, by simp, by simp, hndS, hndL, by simp⟩
  | cons gid Qt ih =>
    intro S0 L0 gmA hnd hpres hndS hndL
    rw [List.nodup_cons] at hnd
    obtain ⟨sg, hsg⟩ := Option.isSome_iff_exists.mp
      (hpres gid (List.mem_cons_self gid Qt)).1
    obtain ⟨lg, hlg⟩ := Option.isSome_iff_exists.mp
      (hpres gid (List.mem_cons_self gid Qt)).2
    rw [List.foldl_cons, mergeCollectStep_found newId gid S0 L0 gmA sg lg hsg hlg]
    by_cases hne : gid ≠ newId
    · rw [if_pos hne]
      set gmC : GroupManager :=
        { gmA with group_stones := dictErase gmA.group_stones gid,
                   group_liberties := dictErase gmA.group_liberties gid } with hgmC
      have hfindC_S : ∀ g2, dictFind? gmC.group_stones g2 =
          if g2 = gid then none else dictFind? gmA.group_stones g2 := by
        intro g2
        by_cases h2 : g2 = gid
        · subst h2
          simp [hgmC, dictFind?_erase_self _ _ hndS]
        · simp [hgmC, h2, dictFind?_erase_ne _ _ _ h2]
      have hfindC_L : ∀ g2, dictFind? gmC.group_liberties g2 =
          if g2 = gid then none else dictFind? gmA.group_liberties g2 := by
        intro g2
        by_cases h2 : g2 = gid
        · subst h2
          simp [hgmC, dictFind?_erase_self _ _ hndL]
        · simp [hgmC, h2, dictFind?_erase_ne _ _ _ h2]
      have hpresC : ∀ g2 ∈ Qt, (dictFind? gmC.group_stones g2).isSome ∧
          (dictFind? gmC.group_liberties g2).isSome := by
        intro g2 hg2
        have hne2 : g2 ≠ gid := fun he => hnd.1 (he ▸ hg2)
        rw [hfindC_S g2, if_neg hne2, hfindC_L g2, if_neg hne2]
        exact hpres g2 (List.mem_cons_of_mem _ hg2)
      obtain ⟨SQ, LQ, gmB, heq, hg, hszB, hnB, hfS, hfL, hndSB, hndLB, hSQ⟩ :=
        ih (S0 ∪ sg) (L0 ∪ lg) gmC hnd.2 hpresC
          (nodup_keys_erase _ _ hndS) (nodup_keys_erase _ _ hndL)
      refine ⟨sg ∪ SQ, lg ∪ LQ, gmB, ?_, hg, hszB, hnB, ?_, ?_, hndSB, hndLB, ?_⟩
      · rw [heq, Finset.union_assoc, Finset.union_assoc]
      · intro g2
        rw [hfS g2]
        by_cases h2 : g2 ∈ Qt ∧ g2 ≠ newId
        · simp only [if_pos h2]
          have : g2 ∈ gid :: Qt ∧ g2 ≠ newId := ⟨List.mem_cons_of_mem _ h2.1, h2.2⟩
          rw [if_pos this]
        · rw [if_neg h2, hfindC_S g2]
          by_cases h3 : g2 = gid
          · subst h3
            rw [if_pos rfl, if_pos ⟨List.mem_cons_self _ _, hne⟩]
          · rw [if_neg h3, if_neg (by
              intro hcon
              rcases List.mem_cons.mp hcon.1 with h4 | h4
              · exact h3 h4
              · exact h2 ⟨h4, hcon.2⟩)]
      · intro g2
        rw [hfL g2]
        by_cases h2 : g2 ∈ Qt ∧ g2 ≠ newId
        · simp only [if_pos h2]
          have : g2 ∈ gid :: Qt ∧ g2 ≠ newId := ⟨List.mem_cons_of_mem _ h2.1, h2.2⟩
          rw [if_pos this]
        · rw [if_neg h2, hfindC_L g2]
          by_cases h3 : g2 = gid
          · subst h3
            rw [if_pos rfl, if_pos ⟨List.mem_cons_self _ _, hne⟩]
          · rw [if_neg h3, if_neg (by
              intro hcon
              rcases List.mem_cons.mp hcon.1 with h4 | h4
              · exact h3 h4
              · exact h2 ⟨h4, hcon.2⟩)]
      · intro c
        rw [Finset.mem_union, hSQ c]
        constructor
        · intro hc
          rcases hc with hc | ⟨g2, hg2, s, hfs, hcs⟩
          · exact ⟨gid, List.mem_cons_self _ _, sg, hsg, hc⟩
          · have hne2 : g2 ≠ gid := fun he => hnd.1 (he ▸ hg2)
            rw [hfindC_S g2, if_neg hne2] at hfs
            exact ⟨g2, List.mem_cons_of_mem _ hg2, s, hfs, hcs⟩
        · intro ⟨g2, hg2, s, hfs, hcs⟩
          rcases List.mem_cons.mp hg2 with h4 | h4
          · subst h4
            rw [hsg] at hfs
            exact Or.inl (Option.some.inj hfs ▸ hcs)
          · have hne2 : g2 ≠ gid := fun he => hnd.1 (he ▸ h4)
            refine Or.inr ⟨g2, h4, s, ?_, hcs⟩
            rw [hfindC_S g2, if_neg hne2]
            exact hfs
    · rw [if_neg hne]
      obtain ⟨SQ, LQ, gmB, heq, hg, hszB, hnB, hfS, hfL, hndSB, hndLB, hSQ⟩ :=
        ih (S0 ∪ sg) (L0 ∪ lg) gmA hnd.2
          (fun g2 hg2 => hpres g2 (List.mem_cons_of_mem _ hg2)) hndS hndL
      have hgid : gid = newId := not_not.mp (fun h => hne h)
      refine ⟨sg ∪ SQ, lg ∪ LQ, gmB, ?_, hg, hszB, hnB, ?_, ?_, hndSB, hndLB, ?_⟩
      · rw [heq, Finset.union_assoc, Finset.union_assoc]
      · intro g2
        rw [hfS g2]
        by_cases h2 : g2 ∈ Qt ∧ g2 ≠ newId
        · rw [if_pos h2, if_pos ⟨List.mem_cons_of_mem _ h2.1, h2.2⟩]
        · rw [if_neg h2, if_neg (by
            intro hcon
            rcases List.mem_cons.mp hcon.1 with h4 | h4
            · exact hcon.2 (h4.trans hgid)
            · exact h2 ⟨h4, hcon.2⟩)]
      · intro g2
        rw [hfL g2]
        by_cases h2 : g2 ∈ Qt ∧ g2 ≠ newId
        · rw [if_pos h2, if_pos ⟨List.mem_cons_of_mem _ h2.1, h2.2⟩]
        · rw [if_neg h2, if_neg (by
            intro hcon
            rcases List.mem_cons.mp hcon.1 with h4 | h4
            · exact hcon.2 (h4.trans hgid)
            · exact h2 ⟨h4, hcon.2⟩)]
      · intro c
        rw [Finset.mem_union, hSQ c]
        constructor
        · intro hc
          rcases hc with hc | ⟨g2, hg2, s, hfs, hcs⟩
          · exact ⟨gid, List.mem_cons_self _ _, sg, hsg, hc⟩
          · exact ⟨g2, List.mem_cons_of_mem _ hg2, s, hfs, hcs⟩
        · intro ⟨g2, hg2, s, hfs, hcs⟩
          rcases List.mem_cons.mp hg2 with h4 | h4
          · subst h4
            rw [hsg] at hfs
            exact Or.inl (Option.some.inj hfs ▸ hcs)
          · exact Or.inr ⟨g2, h4, s, hfs, hcs⟩

theorem merge_groups_spec (gm : GroupManager) (g0 : ℕ) (rest : List ℕ)
    (new_stone : Coord) (board : Grid)
    (hnd : (g0 :: rest).Nodup)
    (hpres : ∀ gid ∈ g0 :: rest, (dictFind? gm.group_stones gid).isSome ∧
      (dictFind? gm.group_liberties gid).isSome)
    (hndG : (dictKeys gm.groups).Nodup)
    (hndS : (dictKeys gm.group_stones).Nodup)
    (hndL : (dictKeys gm.group_liberties).Nodup) :
    ∃ allS allL gm5, merge_groups gm (g0 :: rest) new_stone board =
        some (rest.foldl min g0, gm5) ∧
      gm5.size = gm.size ∧ gm5.next_group_id = gm.next_group_id ∧
      (dictKeys gm5.groups).Nodup ∧ (dictKeys gm5.group_stones).Nodup ∧
      (dictKeys gm5.group_liberties).Nodup ∧
      (∀ c : Coord, dictFind? gm5.groups c =
        if c ∈ allS then some (rest.foldl min g0) else dictFind? gm.groups c) ∧
      (∀ g2, dictFind? gm5.group_stones g2 =
        if g2 = rest.foldl min g0 then some allS
        else if g2 ∈ g0 :: rest then none else dictFind? gm.group_stones g2) ∧
      (∀ g2, dictFind? gm5.group_liberties g2 =
        if g2 = rest.foldl min g0 then some allL
        else if g2 ∈ g0 :: rest then none else dictFind? gm.group_liberties g2) ∧
      (∀ c : Coord, c ∈ allS ↔ (c = new_stone ∨ ∃ gid ∈ g0 :: rest, ∃ s,
        dictFind? gm.group_stones gid = some s ∧ c ∈ s)) := by
  obtain ⟨SQ, LQ, gmB, heq, hgB, hszB, hnB, hfSB, hfLB, hndSB, hndLB, hSQ⟩ :=
    mergeCollect_spec (rest.foldl min g0) (g0 :: rest) ∅ ∅ gm hnd hpres hndS hndL
  refine ⟨insert new_stone (∅ ∪ SQ),
    (∅ ∪ LQ).erase new_stone ∪ emptyNbrs gm.size board new_stone.1 new_stone.2,
    ⟨gmB.size,
     (sortCoords (insert new_stone (∅ ∪ SQ))).foldl
       (fun d c => dictSet d c (rest.foldl min g0)) gmB.groups,
     dictSet gmB.group_stones (rest.foldl min g0) (insert new_stone (∅ ∪ SQ)),
     dictSet gmB.group_liberties (rest.foldl min g0)
       ((∅ ∪ LQ).erase new_stone ∪ emptyNbrs gm.size board new_stone.1 new_stone.2),
     gmB.next_group_id⟩, ?_, hszB, hnB, ?_, ?_, ?_, ?_, ?_, ?_, ?_⟩
  · show merge_groups _ _ _ _ = _
    unfold merge_groups
    simp only
    rw [heq]
  · exact (setAll_spec _ _ _).2 (hgB.symm ▸ hndG)
  · exact nodup_keys_set _ _ _ hndSB
  · exact nodup_keys_set _ _ _ hndLB
  · intro c
    show dictFind? ((sortCoords (insert new_stone (∅ ∪ SQ))).foldl
      (fun d c => dictSet d c (rest.foldl min g0)) gmB.groups) c = _
    rw [(setAll_spec (sortCoords (insert new_stone (∅ ∪ SQ))) gmB.groups
      (rest.foldl min g0)).1 c, hgB]
    by_cases hc : c ∈ insert new_stone (∅ ∪ SQ)
    · rw [if_pos ((mem_sortCoords _ _).mpr hc), if_pos hc]
    · rw [if_neg (fun hh => hc ((mem_sortCoords _ _).mp hh)), if_neg hc]
  · intro g2
    show dictFind? (dictSet gmB.group_stones (rest.foldl min g0)
      (insert new_stone (∅ ∪ SQ))) g2 = _
    by_cases h2 : g2 = rest.foldl min g0
    · subst h2
      rw [dictFind?_set_self, if_pos rfl]
    · rw [dictFind?_set_ne _ _ _ _ h2, if_neg h2, hfSB g2]
      by_cases h3 : g2 ∈ g0 :: rest
      · rw [if_pos ⟨h3, h2⟩, if_pos h3]
      · rw [if_neg (fun hh => h3 hh.1), if_neg h3]
  · intro g2
    show dictFind? (dictSet gmB.group_liberties (rest.foldl min g0) _) g2 = _
    by_cases h2 : g2 = rest.foldl min g0
    · subst h2
      rw [dictFind?_set_self, if_pos rfl]
    · rw [dictFind?_set_ne _ _ _ _ h2, if_neg h2, hfLB g2]
      by_cases h3 : g2 ∈ g0 :: rest
      · rw [if_pos ⟨h3, h2⟩, if_pos h3]
      · rw [if_neg (fun hh => h3 hh.1), if_neg h3]
  · intro c
    rw [Finset.mem_insert, Finset.empty_union, hSQ c]

theorem place_stone_invalid (b : Board) (y x color : ℤ)
    (htrack : trackerKeysOk b.group_manager)
    (hcolor : color = BLACK ∨ color = WHITE) (reason : String)
    (h : (analyze_move b y x color).1 = .invalid reason) :
    place_stone b y x color = (some (.invalidMove y x reason), b) := by
  have heq : analyze_move b y x color = (.invalid reason, b.group_manager) :=
    Prod.ext h (analyze_gm b y x color htrack)
  unfold place_stone
  rw [if_neg (not_not_intro hcolor), heq]

theorem analyze_suicide (b : Board) (y x color : ℤ) (hin : inB b.size y x)
    (hempty : cellAt b.grid y x = EMPTY)
    (hlib : (neighborScan b y x color).1 = ∅)
    (hcapt : (neighborScan b y x color).2.1 = []) :
    (analyze_move b y x color).1 = .invalid "suicide move" := by
  unfold analyze_move
  rw [if_neg (not_not_intro hin), if_neg (not_not_intro hempty),
    if_pos ⟨hlib, hcapt⟩]

theorem analyze_ko (b : Board) (y x color : ℤ)
    (htrack : trackerKeysOk b.group_manager) (hin : inB b.size y x)
    (hempty : cellAt b.grid y x = EMPTY)
    (hns : ¬ ((neighborScan b y x color).1 = ∅ ∧ (neighborScan b y x color).2.1 = []))
    (hko : (koHashOf b y x color (neighborScan b y x color).2.1
        b.group_manager).1 ∈ b.position_history) :
    (analyze_move b y x color).1 = .invalid "ko rule violation" := by
  have hgm := (scan_gm_and_capt b y x color htrack).1
  unfold analyze_move
  rw [if_neg (not_not_intro hin), if_neg (not_not_intro hempty), if_neg hns]
  simp only [hgm]
  rw [if_pos hko]

/-- C7: with a key-consistent tracker (true of every state the board code
itself produces) and a valid color: a placement that is in bounds, on an
empty cell, and whose analysis finds no candidate liberty and no captured
group is rejected by `place_stone` with the suicide error; and every
analysis rejection (out-of-bounds, occupied, suicide, ko) raises and hands
back the board object completely unchanged — grid, group tracker,
fingerprint, capture counts and repetition history all intact. -/
theorem place_stone_suicide_and_failure_frame (b : Board) (y x color : ℤ)
    (htrack : trackerKeysOk b.group_manager)
    (hcolor : color = BLACK ∨ color = WHITE) :
    (inB b.size y x → cellAt b.grid y x = EMPTY →
      (neighborScan b y x color).1 = ∅ → (neighborScan b y x color).2.1 = [] →
      place_stone b y x color = (some (.invalidMove y x "suicide move"), b)) ∧
    (∀ reason, (analyze_move b y x color).1 = .invalid reason →
      place_stone b y x color = (some (.invalidMove y x reason), b)) := by
  constructor
  · intro hin hempty hlib hcapt
    exact place_stone_invalid b y x color htrack hcolor _
      (analyze_suicide b y x color hin hempty hlib hcapt)
  · intro reason h
    exact place_stone_invalid b y x color htrack hcolor reason h

/-- Witness for the suicide/failure-frame theorem at the spec's concrete
corner scenario: on the 9×9 board with black 1-2 and 2-1 and white 1-3,
2-2, 3-1, white's fill of 1-1 has no candidate liberties and captures
nothing; the call fails with the suicide error and returns the board
unchanged. -/
theorem place_stone_suicide_witness :
    trackerKeysOk bSui.group_manager ∧
    inB bSui.size 1 1 ∧ cellAt bSui.grid 1 1 = EMPTY ∧
    (neighborScan bSui 1 1 WHITE).1 = ∅ ∧
    (neighborScan bSui 1 1 WHITE).2.1 = [] ∧
    place_stone bSui 1 1 WHITE = (some (.invalidMove 1 1 "suicide move"), bSui) := by
  refine ⟨by decide, by decide, by decide, by decide, by decide, ?_⟩
  exact (place_stone_suicide_and_failure_frame bSui 1 1 WHITE (by decide)
    (Or.inr rfl)).1 (by decide) (by decide) (by decide) (by decide)

/-- C6: with a key-consistent tracker and a valid color, a placement that
passes the bounds, occupancy and suicide checks but whose hypothetical
fingerprint (current hash XOR the placed stone's entry XOR every captured
stone's entry) is already present in the repetition history is rejected by
`place_stone` with the ko (positional-repetition) error, and the board
object is handed back completely unchanged. -/
theorem place_stone_ko_rejection (b : Board) (y x color : ℤ)
    (htrack : trackerKeysOk b.group_manager)
    (hcolor : color = BLACK ∨ color = WHITE) (hin : inB b.size y x)
    (hempty : cellAt b.grid y x = EMPTY)
    (hns : ¬ ((neighborScan b y x color).1 = ∅ ∧ (neighborScan b y x color).2.1 = []))
    (hko : (koHashOf b y x color (neighborScan b y x color).2.1
        b.group_manager).1 ∈ b.position_history) :
    place_stone b y x color = (some (.invalidMove y x "ko rule violation"), b) :=
  place_stone_invalid b y x color htrack hcolor _
    (analyze_ko b y x color htrack hin hempty hns hko)

/-- Witness for the ko-rejection theorem at the spec's capture-recapture
scenario: after black captures white's 4-4 stone at 4-5, white retaking
4-4 (capturing the black 4-5 stone back) would exactly reproduce the
position after white originally filled 4-4; the placement fails with the
ko error and the board is unchanged. -/
theorem place_stone_ko_witness :
    trackerKeysOk bKo.group_manager ∧
    inB bKo.size 4 4 ∧ cellAt bKo.grid 4 4 = EMPTY ∧
    ¬ ((neighborScan bKo 4 4 WHITE).1 = ∅ ∧ (neighborScan bKo 4 4 WHITE).2.1 = []) ∧
    (koHashOf bKo 4 4 WHITE (neighborScan bKo 4 4 WHITE).2.1
        bKo.group_manager).1 ∈ bKo.position_history ∧
    place_stone bKo 4 4 WHITE = (some (.invalidMove 4 4 "ko rule violation"), bKo) := by
  refine ⟨by decide, by decide, by decide, by decide, by decide, ?_⟩
  exact place_stone_ko_rejection bKo 4 4 WHITE (by decide) (Or.inr rfl)
    (by decide) (by decide) (by decide) (by decide)

/-- Witness for the frame property of `update_adjacent_liberties` at a
concrete input: the two-stone 5×5 scenario board after placing black 3-3. -/
theorem update_adjacent_liberties_frame_witness :
    cellAt (setCell bLib.grid 3 3 BLACK) 3 3 = BLACK ∧
    ∃ gm2, update_adjacent_liberties bLib.group_manager 3 3 BLACK
        (setCell bLib.grid 3 3 BLACK) = some gm2 ∧
      gm2.groups = bLib.group_manager.groups ∧
      gm2.group_stones = bLib.group_manager.group_stones ∧
      gm2.size = bLib.group_manager.size ∧
      gm2.next_group_id = bLib.group_manager.next_group_id ∧
      ∀ gid, (dictFind? bLib.group_manager.group_liberties gid).isSome →
        (dictFind? gm2.group_liberties gid).isSome := by
  refine ⟨by decide, ?_⟩
  exact update_adjacent_liberties_only_mutates_liberties _ 3 3 BLACK _ (by decide)

theorem addId_nodup (l : List ℕ) (gid : ℕ) (h : l.Nodup) : (addId l gid).Nodup := by
  unfold addId
  by_cases hm : gid ∈ l
  · rw [if_pos hm]
    exact h
  · rw [if_neg hm]
    refine h.append (List.nodup_singleton gid) ?_
    intro a ha hb
    simp only [List.mem_singleton] at hb
    exact hm (hb ▸ ha)

theorem addId_mem (l : List ℕ) (gid g2 : ℕ) (h : g2 ∈ addId l gid) :
    g2 ∈ l ∨ g2 = gid := by
  unfold addId at h
  by_cases hm : gid ∈ l
  · rw [if_pos hm] at h
    exact Or.inl h
  · rw [if_neg hm] at h
    rcases List.mem_append.mp h with h | h
    · exact Or.inl h
    · simp only [List.mem_singleton] at h
      exact Or.inr h

theorem nbrStep_capt_step (b : Board) (y x color : ℤ)
    (acc : Finset Coord × List ℕ × List ℕ × GroupManager) (d : ℤ × ℤ)
    (h : trackerKeysOk acc.2.2.2) :
    (nbrStep b y x color acc d).2.1 = acc.2.1 ∨
    ∃ gid : ℕ, (nbrStep b y x color acc d).2.1 = addId acc.2.1 gid ∧
      ∃ c : Coord, dictFind? acc.2.2.2.groups c = some gid ∧
        cellAt b.grid c.1 c.2 = opponentOf color := by
  simp only [nbrStep]
  by_cases h1 : inB b.size (y + d.1) (x + d.2)
  case neg => simp [h1]
  simp only [if_pos h1]
  by_cases h2 : cellAt b.grid (y + d.1) (x + d.2) = EMPTY
  case pos => simp [h2]
  simp only [if_neg h2]
  by_cases h3 : cellAt b.grid (y + d.1) (x + d.2) = opponentOf color
  case neg =>
    simp only [if_neg h3]
    by_cases h5 : cellAt b.grid (y + d.1) (x + d.2) = color
    · simp only [if_pos h5]
      cases hg : get_group_id acc.2.2.2 (y + d.1) (x + d.2) <;> simp
    · simp [h5]
  simp only [if_pos h3]
  cases hg : get_group_id acc.2.2.2 (y + d.1) (x + d.2) with
  | none => simp
  | some gid2 =>
    obtain ⟨v, hv⟩ := Option.isSome_iff_exists.mp (trackerKeysOk_find h hg).2
    simp only [get_group_liberties_found _ _ _ hv]
    by_cases h4 : v.card = 1
    · simp only [if_pos h4]
      exact Or.inr ⟨gid2, rfl, (y + d.1, x + d.2), hg, h3⟩
    · simp [h4]

theorem scan_capt_full (b : Board) (y x color : ℤ)
    (h : trackerKeysOk b.group_manager) :
    (neighborScan b y x color).2.1.Nodup ∧
    ∀ gid ∈ (neighborScan b y x color).2.1, ∃ c : Coord,
      dictFind? b.group_manager.groups c = some gid ∧
      cellAt b.grid c.1 c.2 = opponentOf color := by
  unfold neighborScan
  have main : ∀ (l : List (ℤ × ℤ)) (acc : Finset Coord × List ℕ × List ℕ × GroupManager),
      acc.2.2.2 = b.group_manager → acc.2.1.Nodup →
      (∀ gid ∈ acc.2.1, ∃ c : Coord, dictFind? b.group_manager.groups c = some gid ∧
        cellAt b.grid c.1 c.2 = opponentOf color) →
      (l.foldl (nbrStep b y x color) acc).2.1.Nodup ∧
      ∀ gid ∈ (l.foldl (nbrStep b y x color) acc).2.1, ∃ c : Coord,
        dictFind? b.group_manager.groups c = some gid ∧
        cellAt b.grid c.1 c.2 = opponentOf color := by
    intro l
    induction l with
    | nil => exact fun acc _ h2 h3 => ⟨h2, h3⟩
    | cons d rest ih =>
      intro acc h1 h2 h3
      have htr : trackerKeysOk acc.2.2.2 := h1 ▸ h
      have hgm := nbrStep_gm b y x color acc d htr
      rw [List.foldl_cons]
      refine ih _ (hgm.trans h1) ?_ ?_
      · rcases nbrStep_capt_step b y x color acc d htr with heq | ⟨gid, heq, _⟩
        · rw [heq]
          exact h2
        · rw [heq]
          exact addId_nodup _ _ h2
      · intro gid hmem
        rcases nbrStep_capt_step b y x color acc d htr with heq | ⟨gid2, heq, c, hc, hcell⟩
        · rw [heq] at hmem
          exact h3 gid hmem
        · rw [heq] at hmem
          rcases addId_mem _ _ _ hmem with hm | hm
          · exact h3 gid hm
          · refine ⟨c, ?_, hcell⟩
            rw [h1] at hc
            rw [hc, hm]
  exact main DIRECTIONS _ rfl List.nodup_nil (by simp)

theorem analyze_valid_facts (b : Board) (y x color : ℤ) (captured : List ℕ)
    (libs : Finset Coord) (gm1 : GroupManager)
    (heq : analyze_move b y x color = (.valid captured libs, gm1)) :
    inB b.size y x ∧ cellAt b.grid y x = EMPTY ∧
    captured = (neighborScan b y x color).2.1 := by
  unfold analyze_move at heq
  by_cases h1 : inB b.size y x
  case neg =>
    rw [if_pos h1] at heq
    exact absurd (congrArg Prod.fst heq) (by simp)
  rw [if_neg (not_not_intro h1)] at heq
  by_cases h2 : cellAt b.grid y x ≠ EMPTY
  case pos =>
    rw [if_pos h2] at heq
    exact absurd (congrArg Prod.fst heq) (by simp)
  rw [if_neg h2] at heq
  simp only [] at heq
  by_cases h3 : (neighborScan b y x color).1 = ∅ ∧ (neighborScan b y x color).2.1 = []
  case pos =>
    rw [if_pos h3] at heq
    exact absurd (congrArg Prod.fst heq) (by simp)
  rw [if_neg h3] at heq
  by_cases h4 : (koHashOf b y x color (neighborScan b y x color).2.1
      (neighborScan b y x color).2.2.2).1 ∈ b.position_history
  case pos =>
    rw [if_pos h4] at heq
    exact absurd (congrArg Prod.fst heq) (by simp)
  rw [if_neg h4] at heq
  have h5 := congrArg Prod.fst heq
  simp only [AnalyzeRes.valid.injEq] at h5
  exact ⟨h1, not_not.mp h2, h5.1.symm⟩

theorem affectedGroups_mem (gm : GroupManager) (y x : ℤ) :
    ∀ gid ∈ affectedGroups gm y x, ∃ c : Coord, dictFind? gm.groups c = some gid := by
  unfold affectedGroups
  have main : ∀ (l : List (ℤ × ℤ)) (acc : List ℕ),
      (∀ gid ∈ acc, ∃ c : Coord, dictFind? gm.groups c = some gid) →
      ∀ gid ∈ l.foldl (fun acc d =>
        let ny := y + d.1
        let nx := x + d.2
        if inB gm.size ny nx then
          match get_group_id gm ny nx with
          | some gid => addId acc gid
          | none => acc
        else acc) acc, ∃ c : Coord, dictFind? gm.groups c = some gid := by
    intro l
    induction l with
    | nil => exact fun acc h => h
    | cons d rest ih =>
      intro acc hacc
      rw [List.foldl_cons]
      apply ih
      intro gid hg
      by_cases hb : inB gm.size (y + d.1) (x + d.2)
      · cases hgg : get_group_id gm (y + d.1) (x + d.2) with
        | none =>
          simp only [if_pos hb, hgg] at hg
          exact hacc gid hg
        | some gid2 =>
          simp only [if_pos hb, hgg] at hg
          rcases addId_mem _ _ _ hg with hm | hm
          · exact hacc gid hm
          · refine ⟨(y + d.1, x + d.2), ?_⟩
            rw [hm]
            exact hgg
      · simp only [if_neg hb] at hg
        exact hacc gid hg
  exact main DIRECTIONS [] (by simp)

theorem adjacentIds_spec (b : Board) (y x color : ℤ) :
    (adjacentIds b y x color).Nodup ∧
    ∀ gid ∈ adjacentIds b y x color, ∃ c : Coord,
      dictFind? b.group_manager.groups c = some gid ∧
      cellAt b.grid c.1 c.2 = color := by
  unfold adjacentIds
  have main : ∀ (l : List (ℤ × ℤ)) (acc : List ℕ), acc.Nodup →
      (∀ gid ∈ acc, ∃ c : Coord, dictFind? b.group_manager.groups c = some gid ∧
        cellAt b.grid c.1 c.2 = color) →
      (l.foldl (fun acc d =>
        let ny := y + d.1
        let nx := x + d.2
        if inB b.size ny nx ∧ cellAt b.grid ny nx = color then
          match get_group_id b.group_manager ny nx with
          | some gid => addId acc gid
          | none => acc
        else acc) acc).Nodup ∧
      ∀ gid ∈ l.foldl (fun acc d =>
        let ny := y + d.1
        let nx := x + d.2
        if inB b.size ny nx ∧ cellAt b.grid ny nx = color then
          match get_group_id b.group_manager ny nx with
          | some gid => addId acc gid
          | none => acc
        else acc) acc, ∃ c : Coord,
        dictFind? b.group_manager.groups c = some gid ∧
        cellAt b.grid c.1 c.2 = color := by
    intro l
    induction l with
    | nil => exact fun acc h1 h2 => ⟨h1, h2⟩
    | cons d rest ih =>
      intro acc hnd hacc
      rw [List.foldl_cons]
      by_cases hb : inB b.size (y + d.1) (x + d.2) ∧
          cellAt b.grid (y + d.1) (x + d.2) = color
      · cases hgg : get_group_id b.group_manager (y + d.1) (x + d.2) with
        | none =>
          simp only [if_pos hb, hgg]
          exact ih acc hnd hacc
        | some gid2 =>
          simp only [if_pos hb, hgg]
          refine ih _ (addId_nodup _ _ hnd) ?_
          intro gid hg
          rcases addId_mem _ _ _ hg with hm | hm
          · exact hacc gid hm
          · refine ⟨(y + d.1, x + d.2), ?_, hb.2⟩
            rw [hm]
            exact hgg
      · simp only [if_neg hb]
        exact ih acc hnd hacc
  exact main DIRECTIONS [] List.nodup_nil (by simp)

theorem dictFind?_set_isSome_iff {K V : Type} [DecidableEq K] (d : PyDict K V)
    (k k2 : K) (v : V) (h : (dictFind? d k).isSome) :
    (dictFind? (dictSet d k v) k2).isSome ↔ (dictFind? d k2).isSome := by
  by_cases h2 : k2 = k
  · subst h2
    rw [dictFind?_set_self]
    simp [h]
  · rw [dictFind?_set_ne _ _ _ _ h2]

theorem ualStep_frame2 {y x color : ℤ} {board : Grid}
    (hcell : cellAt board y x = color) (gmA : GroupManager) (gid : ℕ)
    (hlib : (dictFind? gmA.group_liberties gid).isSome)
    (hnd : (dictKeys gmA.group_liberties).Nodup) :
    ∃ gmB, ualStep y x color board gmA gid = some gmB ∧
      gmB.groups = gmA.groups ∧ gmB.group_stones = gmA.group_stones ∧
      gmB.size = gmA.size ∧ gmB.next_group_id = gmA.next_group_id ∧
      (∀ g2, (dictFind? gmB.group_liberties g2).isSome ↔
        (dictFind? gmA.group_liberties g2).isSome) ∧
      (dictKeys gmB.group_liberties).Nodup := by
  obtain ⟨v, hv⟩ := Option.isSome_iff_exists.mp hlib
  have hne : ¬ (cellAt board y x = opponentOf color) := by
    rw [hcell]
    exact fun h => opponentOf_ne color h.symm
  unfold ualStep
  rw [if_neg hne, if_pos hcell]
  refine ⟨_, rfl, rfl, rfl, rfl, rfl, ?_, ?_⟩
  · intro g2
    simp only [dictGetIns_found _ _ _ _ hv]
    have hmid : (dictFind? (dictSet gmA.group_liberties gid (v.erase (y, x))) gid).isSome := by
      rw [dictFind?_set_self]
      rfl
    exact (dictFind?_set_isSome_iff _ _ _ _ hmid).trans
      (dictFind?_set_isSome_iff _ _ _ _ hlib)
  · simp only [dictGetIns_found _ _ _ _ hv]
    exact nodup_keys_set _ _ _ (nodup_keys_set _ _ _ hnd)

theorem ual_fold_frame2 {y x color : ℤ} {board : Grid}
    (hcell : cellAt board y x = color) (l : List ℕ) (gmA : GroupManager)
    (hall : ∀ gid ∈ l, (dictFind? gmA.group_liberties gid).isSome)
    (hnd : (dictKeys gmA.group_liberties).Nodup) :
    ∃ gmB, l.foldl
        (fun acc gid => acc.bind (fun gmP => ualStep y x color board gmP gid))
        (some gmA) = some gmB ∧
      gmB.groups = gmA.groups ∧ gmB.group_stones = gmA.group_stones ∧
      gmB.size = gmA.size ∧ gmB.next_group_id = gmA.next_group_id ∧
      (∀ g2, (dictFind? gmB.group_liberties g2).isSome ↔
        (dictFind? gmA.group_liberties g2).isSome) ∧
      (dictKeys gmB.group_liberties).Nodup := by
  induction l generalizing gmA with
  | nil => exact ⟨gmA, rfl, rfl, rfl, rfl, rfl, fun _ => Iff.rfl, hnd⟩
  | cons gid rest ih =>
    obtain ⟨gmB, hB, hg, hs, hsz, hn, hl, hndB⟩ :=
      ualStep_frame2 hcell gmA gid (hall gid (List.mem_cons_self gid rest)) hnd
    have hallB : ∀ g2 ∈ rest, (dictFind? gmB.group_liberties g2).isSome := by
      intro g2 hg2
      exact (hl g2).mpr (hall g2 (List.mem_cons_of_mem _ hg2))
    obtain ⟨gmC, hC, hg2, hs2, hsz2, hn2, hl2, hndC⟩ := ih gmB hallB hndB
    refine ⟨gmC, ?_, hg2.trans hg, hs2.trans hs, hsz2.trans hsz, hn2.trans hn,
      fun g2 => (hl2 g2).trans (hl g2), hndC⟩
    simpa [List.foldl, hB, Option.bind] using hC

theorem setCell_sets (g : Grid) (y x color : ℤ)
    (hcol : color = BLACK ∨ color = WHITE)
    (hb : (y, x) ∉ g.black) (hw : (y, x) ∉ g.white)
    (hd : Disjoint g.black g.white) :
    (setCell g y x color).black ∪ (setCell g y x color).white =
      insert (y, x) (g.black ∪ g.white) ∧
    Disjoint (setCell g y x color).black (setCell g y x color).white ∧
    g.black ⊆ (setCell g y x color).black ∧
    g.white ⊆ (setCell g y x color).white ∧
    (color = BLACK → (y, x) ∈ (setCell g y x color).black) ∧
    (color = WHITE → (y, x) ∈ (setCell g y x color).white) := by
  rcases hcol with h | h <;> subst h
  · have hsc : setCell g y x BLACK =
        { g with black := insert (y, x) g.black, white := g.white.erase (y, x) } := by
      unfold setCell
      rw [if_pos rfl]
    rw [hsc]
    have hwe : g.white.erase (y, x) = g.white := Finset.erase_eq_of_not_mem hw
    refine ⟨?_, ?_, ?_, ?_, fun _ => ?_, fun hww => ?_⟩
    · show insert (y, x) g.black ∪ g.white.erase (y, x) = _
      rw [hwe, Finset.insert_union]
    · show Disjoint (insert (y, x) g.black) (g.white.erase (y, x))
      rw [hwe]
      exact Finset.disjoint_insert_left.mpr ⟨hw, hd⟩
    · exact Finset.subset_insert _ _
    · show g.white ⊆ g.white.erase (y, x)
      rw [hwe]
    · exact Finset.mem_insert_self _ _
    · exact absurd hww (by simp [BLACK, WHITE])
  · have hsc : setCell g y x WHITE =
        { g with white := insert (y, x) g.white, black := g.black.erase (y, x) } := by
      unfold setCell
      rw [if_neg (by simp [BLACK, WHITE]), if_pos rfl]
    rw [hsc]
    have hbe : g.black.erase (y, x) = g.black := Finset.erase_eq_of_not_mem hb
    refine ⟨?_, ?_, ?_, ?_, fun hbb => ?_, fun _ => ?_⟩
    · show g.black.erase (y, x) ∪ insert (y, x) g.white = _
      rw [hbe, Finset.union_insert]
    · show Disjoint (g.black.erase (y, x)) (insert (y, x) g.white)
      rw [hbe]
      exact Finset.disjoint_insert_right.mpr ⟨hb, hd⟩
    · show g.black ⊆ g.black.erase (y, x)
      rw [hbe]
    · exact Finset.subset_insert _ _
    · exact absurd hbb (by simp [BLACK, WHITE])
    · exact Finset.mem_insert_self _ _

theorem grid_eta (g : Grid) (s : ℤ) (hs : g.size = s) :
    (⟨s, g.black, g.white⟩ : Grid) = g := by
  subst hs
  rfl

theorem mk0_wf (size : ℤ) (zob : ℤ → ℤ → ℤ → ℕ) : BoardWf (Board.mk0 size zob) := by
  refine ⟨?_, ?_, ?_, ?_, ?_, ?_, ?_, ?_, ?_, ?_, ?_, ?_, ?_⟩
  · exact List.nodup_nil
  · exact List.nodup_nil
  · exact List.nodup_nil
  · intro gid
    exact Iff.rfl
  · intro c gid hfind
    exact Option.noConfusion hfind
  · intro gid s hfind
    exact Option.noConfusion hfind
  · intro c
    simp [dictFind?, Board.mk0, update_position_hash]
  · intro gid s hfind
    exact Option.noConfusion hfind
  · exact Finset.disjoint_empty_left ∅
  · intro c hc
    exact absurd hc (by simp [Board.mk0, update_position_hash])
  · intro gid hsome
    exact absurd hsome (by simp [dictFind?])
  · rfl
  · rfl

theorem manager_update_wf (b2 : Board) (y x color : ℤ) (hwf2 : BoardWf b2)
    (hin : inB b2.size y x) (hempty : cellAt b2.grid y x = EMPTY)
    (hcol : color = BLACK ∨ color = WHITE)
    (gmN : GroupManager) (newId : ℕ) (D : List ℕ) (allS : Finset Coord)
    (hszN : gmN.size = b2.group_manager.size)
    (hndG : (dictKeys gmN.groups).Nodup)
    (hndS : (dictKeys gmN.group_stones).Nodup)
    (hndL : (dictKeys gmN.group_liberties).Nodup)
    (hfG : ∀ c : Coord, dictFind? gmN.groups c =
      if c ∈ allS then some newId else dictFind? b2.group_manager.groups c)
    (hfS : ∀ g2, dictFind? gmN.group_stones g2 =
      if g2 = newId then some allS
      else if g2 ∈ D then none
      else dictFind? b2.group_manager.group_stones g2)
    (hdomN : ∀ g2, (dictFind? gmN.group_stones g2).isSome ↔
      (dictFind? gmN.group_liberties g2).isSome)
    (hyxS : (y, x) ∈ allS)
    (hallS : ∀ c ∈ allS, c ≠ (y, x) → ∃ gid ∈ D, ∃ s,
      dictFind? b2.group_manager.group_stones gid = some s ∧ c ∈ s)
    (hcover : ∀ gid, gid ∈ D ∨ gid = newId → ∀ s,
      dictFind? b2.group_manager.group_stones gid = some s → s ⊆ allS)
    (hside : ∀ gid ∈ D, ∀ s, dictFind? b2.group_manager.group_stones gid = some s →
      (color = BLACK → s ⊆ b2.black) ∧ (color = WHITE → s ⊆ b2.white))
    (hfresh : ∀ g2, (dictFind? gmN.group_stones g2).isSome →
      g2 < gmN.next_group_id) :
    ∃ gm5, update_adjacent_liberties gmN y x color (setCell b2.grid y x color) =
        some gm5 ∧
      ∀ (bc wc : ℕ) (hist : Finset ℕ),
        BoardWf ⟨b2.size, (setCell b2.grid y x color).black,
          (setCell b2.grid y x color).white, bc, wc, hist, b2.zobrist,
          b2.current_hash ^^^ b2.zobrist y x (color - 1), gm5⟩ := by
  have hbm : (y, x) ∉ b2.black ∧ (y, x) ∉ b2.white :=
    (cellAt_empty_iff b2.grid y x hin).mp hempty
  obtain ⟨hunion, hdisj, hsubB, hsubW, hyB, hyW⟩ :=
    setCell_sets b2.grid y x color hcol hbm.1 hbm.2 hwf2.disj
  have hcell : cellAt (setCell b2.grid y x color) y x = color := by
    refine cellAt_setCell_self b2.grid y x color hin ?_
    rcases hcol with h | h
    · exact Or.inl h
    · exact Or.inr (Or.inl h)
  have hyxOcc : dictFind? b2.group_manager.groups (y, x) = none := by
    cases hf : dictFind? b2.group_manager.groups (y, x) with
    | none => rfl
    | some g0 =>
      have hmem := (hwf2.occIff (y, x)).mp (by rw [hf]; rfl)
      rcases Finset.mem_union.mp hmem with hmem | hmem
      · exact absurd hmem hbm.1
      · exact absurd hmem hbm.2
  have hnotAllS : ∀ c : Coord, c ∉ allS → ∀ gid,
      dictFind? b2.group_manager.groups c = some gid → gid ∉ D ∧ gid ≠ newId := by
    intro c hc gid hfind
    obtain ⟨s, hs, hcs⟩ := hwf2.mapToStones c gid hfind
    constructor
    · intro hD
      exact hc (hcover gid (Or.inl hD) s hs hcs)
    · intro hN
      exact hc (hcover gid (Or.inr hN) s hs hcs)
  have hall : ∀ gid ∈ affectedGroups gmN y x,
      (dictFind? gmN.group_liberties gid).isSome := by
    intro gid hg
    obtain ⟨c, hc⟩ := affectedGroups_mem gmN y x gid hg
    rw [hfG c] at hc
    by_cases hcS : c ∈ allS
    · rw [if_pos hcS] at hc
      have hgid : gid = newId := (Option.some.inj hc).symm
      subst hgid
      rw [← hdomN, hfS]
      simp
    · rw [if_neg hcS] at hc
      obtain ⟨hD, hN⟩ := hnotAllS c hcS gid hc
      rw [← hdomN, hfS, if_neg hN, if_neg hD]
      obtain ⟨s, hs, _⟩ := hwf2.mapToStones c gid hc
      rw [hs]
      rfl
  obtain ⟨gm5, hual, hg5, hs5, hsz5, hn5, hliff5, hndL5⟩ :=
    ual_fold_frame2 hcell (affectedGroups gmN y x) gmN hall hndL
  refine ⟨gm5, hual, ?_⟩
  intro bc wc hist
  refine ⟨?_, ?_, ?_, ?_, ?_, ?_, ?_, ?_, ?_, ?_, ?_, ?_, ?_⟩
  · show (dictKeys gm5.groups).Nodup
    rw [hg5]
    exact hndG
  · show (dictKeys gm5.group_stones).Nodup
    rw [hs5]
    exact hndS
  · exact hndL5
  · intro g2
    show (dictFind? gm5.group_stones g2).isSome ↔ _
    rw [hs5]
    exact (hdomN g2).trans (hliff5 g2).symm
  · intro c gid hfind
    show ∃ s, dictFind? gm5.group_stones gid = some s ∧ c ∈ s
    have hfind2 : dictFind? gmN.groups c = some gid := by
      rw [← hg5]
      exact hfind
    rw [hfG c] at hfind2
    by_cases hcS : c ∈ allS
    · rw [if_pos hcS] at hfind2
      have hgid : gid = newId := (Option.some.inj hfind2).symm
      subst hgid
      refine ⟨allS, ?_, hcS⟩
      rw [hs5, hfS]
      simp
    · rw [if_neg hcS] at hfind2
      obtain ⟨hD, hN⟩ := hnotAllS c hcS gid hfind2
      obtain ⟨s, hs, hcs⟩ := hwf2.mapToStones c gid hfind2
      refine ⟨s, ?_, hcs⟩
      rw [hs5, hfS, if_neg hN, if_neg hD]
      exact hs
  · intro gid s hfind c hcs
    show dictFind? gm5.groups c = some gid
    have hfind2 : dictFind? gmN.group_stones gid = some s := by
      rw [← hs5]
      exact hfind
    rw [hfS] at hfind2
    rw [hg5, hfG]
    by_cases hN : gid = newId
    · subst hN
      rw [if_pos rfl] at hfind2
      have hsall : s = allS := (Option.some.inj hfind2).symm
      subst hsall
      rw [if_pos hcs]
    · rw [if_neg hN] at hfind2
      by_cases hD : gid ∈ D
      · rw [if_pos hD] at hfind2
        exact Option.noConfusion hfind2
      · rw [if_neg hD] at hfind2
        have hmap := hwf2.stonesToMap gid s hfind2 c hcs
        have hcS : c ∉ allS := by
          intro hcS
          by_cases hcy : c = (y, x)
          · subst hcy
            rw [hyxOcc] at hmap
            exact Option.noConfusion hmap
          · obtain ⟨gid2, hgid2, s2, hs2, hcs2⟩ := hallS c hcS hcy
            have hmap2 := hwf2.stonesToMap gid2 s2 hs2 c hcs2
            have heq2 : gid = gid2 := Option.some.inj (hmap.symm.trans hmap2)
            exact hD (heq2 ▸ hgid2)
        rw [if_neg hcS]
        exact hmap
  · intro c
    show (dictFind? gm5.groups c).isSome ↔
      c ∈ (setCell b2.grid y x color).black ∪ (setCell b2.grid y x color).white
    rw [hg5, hfG, hunion]
    by_cases hcS : c ∈ allS
    · rw [if_pos hcS]
      refine iff_of_true (by rfl) ?_
      by_cases hcy : c = (y, x)
      · subst hcy
        exact Finset.mem_insert_self _ _
      · obtain ⟨gid2, _, s2, hs2, hcs2⟩ := hallS c hcS hcy
        rcases hwf2.mono gid2 s2 hs2 with hsub | hsub
        · exact Finset.mem_insert_of_mem (Finset.mem_union_left _ (hsub hcs2))
        · exact Finset.mem_insert_of_mem (Finset.mem_union_right _ (hsub hcs2))
    · rw [if_neg hcS]
      have hcy : c ≠ (y, x) := fun he => hcS (he ▸ hyxS)
      rw [Finset.mem_insert]
      constructor
      · intro hsome
        exact Or.inr ((hwf2.occIff c).mp hsome)
      · intro hmem
        rcases hmem with hmem | hmem
        · exact absurd hmem hcy
        · exact (hwf2.occIff c).mpr hmem
  · intro gid s hfind
    show s ⊆ (setCell b2.grid y x color).black ∨
      s ⊆ (setCell b2.grid y x color).white
    have hfind2 : dictFind? gmN.group_stones gid = some s := by
      rw [← hs5]
      exact hfind
    rw [hfS] at hfind2
    by_cases hN : gid = newId
    · subst hN
      rw [if_pos rfl] at hfind2
      have hsall : s = allS := (Option.some.inj hfind2).symm
      subst hsall
      rcases hcol with hc | hc
      · left
        intro c hcmem
        by_cases hcy : c = (y, x)
        · subst hcy
          exact hyB hc
        · obtain ⟨gid2, hgid2, s2, hs2, hcs2⟩ := hallS c hcmem hcy
          exact hsubB ((hside gid2 hgid2 s2 hs2).1 hc hcs2)
      · right
        intro c hcmem
        by_cases hcy : c = (y, x)
        · subst hcy
          exact hyW hc
        · obtain ⟨gid2, hgid2, s2, hs2, hcs2⟩ := hallS c hcmem hcy
          exact hsubW ((hside gid2 hgid2 s2 hs2).2 hc hcs2)
    · rw [if_neg hN] at hfind2
      by_cases hD : gid ∈ D
      · rw [if_pos hD] at hfind2
        exact Option.noConfusion hfind2
      · rw [if_neg hD] at hfind2
        rcases hwf2.mono gid s hfind2 with hsub | hsub
        · exact Or.inl (hsub.trans hsubB)
        · exact Or.inr (hsub.trans hsubW)
  · exact hdisj
  · intro c hc
    show inB b2.size c.1 c.2
    rw [hunion] at hc
    rcases Finset.mem_insert.mp hc with hc | hc
    · subst hc
      exact hin
    · exact hwf2.bounded c hc
  · intro g2 hsome
    show g2 < gm5.next_group_id
    rw [hn5]
    refine hfresh g2 ?_
    rw [← hs5]
    exact hsome
  · show gm5.size = b2.size
    rw [hsz5, hszN]
    exact hwf2.sizeEq
  · show b2.current_hash ^^^ b2.zobrist y x (color - 1) =
      gridHash b2.zobrist (⟨b2.size, (setCell b2.grid y x color).black,
        (setCell b2.grid y x color).white⟩ : Grid)
    have hscs : (setCell b2.grid y x color).size = b2.size := setCell_size b2.grid y x color
    rw [grid_eta (setCell b2.grid y x color) b2.size hscs,
      gridHash_place b2.zobrist b2.grid y x color hin hempty hcol, hwf2.hashOk]
    rfl

theorem place_stone_success_eq (b : Board) (y x color : ℤ)
    (hcol : color = BLACK ∨ color = WHITE)
    (captured : List ℕ) (libs : Finset Coord)
    (han : analyze_move b y x color = (.valid captured libs, b.group_manager))
    (n2 : ℕ) (b2 : Board)
    (hrem : removeCaptured b (opponentOf color) captured 0 = (none, n2, b2)) :
    place_stone b y x color =
      (match (if adjacentIds (placedBoard b2 y x color) y x color ≠ [] then
          merge_groups b2.group_manager
            (adjacentIds (placedBoard b2 y x color) y x color) (y, x)
            (placedBoard b2 y x color).grid
        else some (create_group b2.group_manager y x color
            (placedBoard b2 y x color).grid)) with
       | none => (some (.valueError "Cannot merge empty set of groups"),
           placedBoard b2 y x color)
       | some pr =>
         match update_adjacent_liberties pr.2 y x color
             (placedBoard b2 y x color).grid with
         | none => (some .keyError,
             { placedBoard b2 y x color with group_manager := pr.2 })
         | some gm5 => (none, finishedBoard b2 y x color gm5 n2)) := by
  unfold place_stone
  rw [if_neg (not_not_intro hcol), han]
  simp only [hrem]
  rfl

theorem finishedBoard_ok (b2 : Board) (y x color : ℤ) (gm5 : GroupManager) (n2 : ℕ)
    (hcol : color = BLACK ∨ color = WHITE)
    (hwfAll : ∀ (bc wc : ℕ) (hist : Finset ℕ),
      BoardWf ⟨b2.size, (setCell b2.grid y x color).black,
        (setCell b2.grid y x color).white, bc, wc, hist, b2.zobrist,
        b2.current_hash ^^^ b2.zobrist y x (color - 1), gm5⟩) :
    BoardWf (finishedBoard b2 y x color gm5 n2) ∧
    (finishedBoard b2 y x color gm5 n2).size = b2.size ∧
    (finishedBoard b2 y x color gm5 n2).zobrist = b2.zobrist ∧
    (finishedBoard b2 y x color gm5 n2).grid = setCell b2.grid y x color ∧
    (finishedBoard b2 y x color gm5 n2).current_hash =
      b2.current_hash ^^^ b2.zobrist y x (color - 1) ∧
    (finishedBoard b2 y x color gm5 n2).position_history =
      insert (b2.current_hash ^^^ b2.zobrist y x (color - 1)) b2.position_history := by
  have hfin : finishedBoard b2 y x color gm5 n2 =
      ⟨b2.size, (setCell b2.grid y x color).black,
       (setCell b2.grid y x color).white,
       (finishedBoard b2 y x color gm5 n2).black_captures,
       (finishedBoard b2 y x color gm5 n2).white_captures,
       insert (b2.current_hash ^^^ b2.zobrist y x (color - 1)) b2.position_history,
       b2.zobrist, b2.current_hash ^^^ b2.zobrist y x (color - 1), gm5⟩ := by
    rcases hcol with h | h <;> subst h <;> rfl
  refine ⟨?_, ?_, ?_, ?_, ?_, ?_⟩
  · rw [hfin]
    exact hwfAll _ _ _
  · rw [hfin]
  · rw [hfin]
  · rw [hfin]
    exact grid_eta (setCell b2.grid y x color) b2.size (setCell_size b2.grid y x color)
  · rw [hfin]
  · rw [hfin]

theorem place_stone_wf (b : Board) (y x color : ℤ) (hwf : BoardWf b)
    (hok : (place_stone b y x color).1 = none) :
    BoardWf (place_stone b y x color).2 ∧
    (place_stone b y x color).2.size = b.size ∧
    (place_stone b y x color).2.zobrist = b.zobrist ∧
    ∃ captSet : Finset Coord,
      (∀ c ∈ captSet, cellAt b.grid c.1 c.2 = opponentOf color ∧
        inB b.size c.1 c.2) ∧
      (place_stone b y x color).2.grid =
        setCell ⟨b.size, b.black \ captSet, b.white \ captSet⟩ y x color ∧
      (place_stone b y x color).2.current_hash =
        b.current_hash ^^^ b.zobrist y x (color - 1) ^^^
          xorSet captSet (fun c => b.zobrist c.1 c.2 (opponentOf color - 1)) ∧
      (place_stone b y x color).2.position_history =
        insert ((place_stone b y x color).2.current_hash) b.position_history ∧
      inB b.size y x ∧ cellAt b.grid y x = EMPTY ∧
      (color = BLACK ∨ color = WHITE) := by
  have htrk := hwf.track
  by_cases hcol : color = BLACK ∨ color = WHITE
  case neg =>
    exfalso
    unfold place_stone at hok
    rw [if_pos hcol] at hok
    simp at hok
  cases hres : (analyze_move b y x color).1 with
  | invalid reason =>
    exfalso
    rw [place_stone_invalid b y x color htrk hcol reason hres] at hok
    simp at hok
  | valid captured libs =>
  have han : analyze_move b y x color = (.valid captured libs, b.group_manager) :=
    Prod.ext hres (analyze_gm b y x color htrk)
  obtain ⟨hin, hempty, hcapt⟩ := analyze_valid_facts b y x color captured libs _ han
  obtain ⟨hscanNd, hscanW⟩ := scan_capt_full b y x color htrk
  have hnd : captured.Nodup := by
    rw [hcapt]
    exact hscanNd
  have hwit : ∀ gid ∈ captured, ∃ c : Coord,
      dictFind? b.group_manager.groups c = some gid ∧
      cellAt b.grid c.1 c.2 = opponentOf color := by
    rw [hcapt]
    exact hscanW
  obtain ⟨n2, b2, hrem, hwf2, hsz2, hzob2, hhist2, hbc2, hwc2, hnext2, hkeep2,
    captSet, hcsb, hcsw, hcsh, hcsp⟩ :=
    removeCaptured_wf captured b (opponentOf color) 0 hwf hnd hwit
  have hin2 : inB b2.size y x := by
    rw [hsz2]
    exact hin
  have hempty2 : cellAt b2.grid y x = EMPTY := hkeep2 (y, x) hempty
  have hbm2 : (y, x) ∉ b2.black ∧ (y, x) ∉ b2.white :=
    (cellAt_empty_iff b2.grid y x hin2).mp hempty2
  have hyxOcc2 : dictFind? b2.group_manager.groups (y, x) = none := by
    cases hf : dictFind? b2.group_manager.groups (y, x) with
    | none => rfl
    | some g0 =>
      have hmem := (hwf2.occIff (y, x)).mp (by rw [hf]; rfl)
      rcases Finset.mem_union.mp hmem with hmem | hmem
      · exact absurd hmem hbm2.1
      · exact absurd hmem hbm2.2
  have hps := place_stone_success_eq b y x color hcol captured libs han (0 + n2) b2 hrem
  have hgr : (placedBoard b2 y x color).grid = setCell b2.grid y x color :=
    grid_eta (setCell b2.grid y x color) b2.size (setCell_size b2.grid y x color)
  rw [hgr] at hps
  by_cases hadjnil : adjacentIds (placedBoard b2 y x color) y x color = []
  · -- create_group path
    rw [if_neg (not_not_intro hadjnil)] at hps
    have hfreshS : dictFind? b2.group_manager.group_stones
        b2.group_manager.next_group_id = none := by
      cases hf : dictFind? b2.group_manager.group_stones
          b2.group_manager.next_group_id with
      | none => rfl
      | some v =>
        have := hwf2.fresh b2.group_manager.next_group_id (by rw [hf]; rfl)
        exact absurd this (lt_irrefl _)
    have hfreshL : dictFind? b2.group_manager.group_liberties
        b2.group_manager.next_group_id = none := by
      cases hf : dictFind? b2.group_manager.group_liberties
          b2.group_manager.next_group_id with
      | none => rfl
      | some v =>
        have h1 := (hwf2.domSync b2.group_manager.next_group_id).mpr (by rw [hf]; rfl)
        rw [hfreshS] at h1
        exact absurd h1 (by simp)
    obtain ⟨gm4, hcg, hsz4, hnext4, hndG4, hndS4, hndL4, hfG4, hfS4, hfL4⟩ :=
      create_group_spec b2.group_manager y x color (setCell b2.grid y x color)
        hfreshS hfreshL hwf2.nodupG hwf2.nodupS hwf2.nodupL
    rw [hcg] at hps
    have hfG' : ∀ c : Coord, dictFind? gm4.groups c =
        if c ∈ ({(y, x)} : Finset Coord) then some b2.group_manager.next_group_id
        else dictFind? b2.group_manager.groups c := by
      intro c
      rw [hfG4 c]
      by_cases hc : c = (y, x)
      · rw [if_pos hc, if_pos (Finset.mem_singleton.mpr hc)]
      · rw [if_neg hc, if_neg (fun hh => hc (Finset.mem_singleton.mp hh))]
    have hfS' : ∀ g2, dictFind? gm4.group_stones g2 =
        if g2 = b2.group_manager.next_group_id then some ({(y, x)} : Finset Coord)
        else if g2 ∈ ([] : List ℕ) then none
        else dictFind? b2.group_manager.group_stones g2 := by
      intro g2
      rw [hfS4 g2]
      by_cases h2 : g2 = b2.group_manager.next_group_id
      · rw [if_pos h2, if_pos h2]
      · rw [if_neg h2, if_neg h2, if_neg (List.not_mem_nil g2)]
    have hdom4 : ∀ g2, (dictFind? gm4.group_stones g2).isSome ↔
        (dictFind? gm4.group_liberties g2).isSome := by
      intro g2
      rw [hfS4 g2, hfL4 g2]
      by_cases h2 : g2 = b2.group_manager.next_group_id
      · rw [if_pos h2, if_pos h2]
        simp
      · rw [if_neg h2, if_neg h2]
        exact hwf2.domSync g2
    have hfresh4 : ∀ g2, (dictFind? gm4.group_stones g2).isSome →
        g2 < gm4.next_group_id := by
      intro g2 hsome
      rw [hfS4 g2] at hsome
      rw [hnext4]
      by_cases h2 : g2 = b2.group_manager.next_group_id
      · rw [h2]
        omega
      · rw [if_neg h2] at hsome
        have := hwf2.fresh g2 hsome
        omega
    have hcover' : ∀ gid, gid ∈ ([] : List ℕ) ∨ gid = b2.group_manager.next_group_id →
        ∀ s, dictFind? b2.group_manager.group_stones gid = some s →
        s ⊆ ({(y, x)} : Finset Coord) := by
      intro gid hg s hs
      rcases hg with hg | hg
      · exact absurd hg (List.not_mem_nil gid)
      · rw [hg, hfreshS] at hs
        exact Option.noConfusion hs
    obtain ⟨gm5, hual, hwfAll⟩ := manager_update_wf b2 y x color hwf2 hin2 hempty2 hcol
      gm4 b2.group_manager.next_group_id [] {(y, x)} hsz4 hndG4 hndS4 hndL4 hfG' hfS'
      hdom4 (Finset.mem_singleton_self _)
      (fun c hc hne => absurd (Finset.mem_singleton.mp hc) hne)
      hcover' (fun gid hg => absurd hg (List.not_mem_nil gid)) hfresh4
    simp only [hual] at hps
    have h2fin : (place_stone b y x color).2 =
        finishedBoard b2 y x color gm5 (0 + n2) := by
      rw [hps]
    rw [h2fin]
    obtain ⟨hA, hB, hC, hD, hE, hF⟩ :=
      finishedBoard_ok b2 y x color gm5 (0 + n2) hcol hwfAll
    have hg2 : b2.grid =
        (⟨b.size, b.black \ captSet, b.white \ captSet⟩ : Grid) := by
      show (⟨b2.size, b2.black, b2.white⟩ : Grid) = _
      rw [hsz2, hcsb, hcsw]
    refine ⟨hA, hB.trans hsz2, hC.trans hzob2, captSet, hcsp, ?_, ?_, ?_,
      hin, hempty, hcol⟩
    · rw [hD, hg2]
    · rw [hE, hzob2, hcsh, Nat.xor_assoc, Nat.xor_comm (xorSet captSet _) _,
        ← Nat.xor_assoc]
    · rw [hF, hhist2, hE]
  · -- merge_groups path
    rw [if_pos hadjnil] at hps
    obtain ⟨hadjNd, hadjW⟩ := adjacentIds_spec (placedBoard b2 y x color) y x color
    rw [hgr] at hadjW
    cases hadjL : adjacentIds (placedBoard b2 y x color) y x color with
    | nil => exact absurd hadjL hadjnil
    | cons a0 arest =>
    rw [hadjL] at hps hadjNd hadjW
    have hpres : ∀ gid ∈ a0 :: arest,
        (dictFind? b2.group_manager.group_stones gid).isSome ∧
        (dictFind? b2.group_manager.group_liberties gid).isSome := by
      intro gid hg
      obtain ⟨c, hc, _⟩ := hadjW gid hg
      exact trackerKeysOk_find hwf2.track hc
    obtain ⟨allS, allL, gmM, hmg, hszM, hnextM, hndGM, hndSM, hndLM, hfGM, hfSM,
      hfLM, hmemS⟩ :=
      merge_groups_spec b2.group_manager a0 arest (y, x) (setCell b2.grid y x color)
        hadjNd hpres hwf2.nodupG hwf2.nodupS hwf2.nodupL
    rw [hmg] at hps
    have hminMem : arest.foldl min a0 ∈ a0 :: arest := foldl_min_mem a0 arest
    have hdomM : ∀ g2, (dictFind? gmM.group_stones g2).isSome ↔
        (dictFind? gmM.group_liberties g2).isSome := by
      intro g2
      rw [hfSM g2, hfLM g2]
      by_cases h2 : g2 = arest.foldl min a0
      · rw [if_pos h2, if_pos h2]
        simp
      · rw [if_neg h2, if_neg h2]
        by_cases h3 : g2 ∈ a0 :: arest
        · rw [if_pos h3, if_pos h3]
        · rw [if_neg h3, if_neg h3]
          exact hwf2.domSync g2
    have hyxS : (y, x) ∈ allS := (hmemS (y, x)).mpr (Or.inl rfl)
    have hallS' : ∀ c ∈ allS, c ≠ (y, x) → ∃ gid ∈ a0 :: arest, ∃ s,
        dictFind? b2.group_manager.group_stones gid = some s ∧ c ∈ s := by
      intro c hc hne
      rcases (hmemS c).mp hc with h | h
      · exact absurd h hne
      · exact h
    have hcover' : ∀ gid, gid ∈ a0 :: arest ∨ gid = arest.foldl min a0 → ∀ s,
        dictFind? b2.group_manager.group_stones gid = some s → s ⊆ allS := by
      intro gid hg s hs
      have hgmem : gid ∈ a0 :: arest := by
        rcases hg with hg | hg
        · exact hg
        · rw [hg]
          exact hminMem
      intro c hcs
      exact (hmemS c).mpr (Or.inr ⟨gid, hgmem, s, hs, hcs⟩)
    have hside' : ∀ gid ∈ a0 :: arest, ∀ s,
        dictFind? b2.group_manager.group_stones gid = some s →
        (color = BLACK → s ⊆ b2.black) ∧ (color = WHITE → s ⊆ b2.white) := by
      intro gid hg s hs
      obtain ⟨c0, hc0, hcell0⟩ := hadjW gid hg
      have hc0' : dictFind? b2.group_manager.groups c0 = some gid := hc0
      have hc0y : c0 ≠ (y, x) := by
        intro he
        rw [he, hyxOcc2] at hc0'
        exact Option.noConfusion hc0'
      have hcell0' : cellAt b2.grid c0.1 c0.2 = color := by
        rw [← cellAt_setCell_ne b2.grid y x color c0 hc0y]
        exact hcell0
      obtain ⟨s0, hs0, hc0s0⟩ := hwf2.mapToStones c0 gid hc0'
      have hss : s = s0 := Option.some.inj (hs.symm.trans hs0)
      have hc0s : c0 ∈ s := by
        rw [hss]
        exact hc0s0
      have hbc0 : inB b2.size c0.1 c0.2 := by
        refine hwf2.bounded c0 ?_
        rcases hwf2.mono gid s hs with h | h
        · exact Finset.mem_union_left _ (h hc0s)
        · exact Finset.mem_union_right _ (h hc0s)
      constructor
      · intro hB
        rw [hB] at hcell0'
        have hc0b : (c0.1, c0.2) ∈ b2.black :=
          (cellAt_black_iff b2.grid c0.1 c0.2 hbc0).mp hcell0'
        rcases hwf2.mono gid s hs with h | h
        · exact h
        · exact absurd hc0b (Finset.disjoint_right.mp hwf2.disj (h hc0s))
      · intro hW
        rw [hW] at hcell0'
        obtain ⟨hnb, hc0w⟩ := (cellAt_white_iff b2.grid c0.1 c0.2 hbc0).mp hcell0'
        rcases hwf2.mono gid s hs with h | h
        · exact absurd (h hc0s) hnb
        · exact h
    have hfresh' : ∀ g2, (dictFind? gmM.group_stones g2).isSome →
        g2 < gmM.next_group_id := by
      intro g2 hsome
      rw [hnextM]
      rw [hfSM g2] at hsome
      by_cases h2 : g2 = arest.foldl min a0
      · rw [h2]
        exact hwf2.fresh _ (hpres _ hminMem).1
      · rw [if_neg h2] at hsome
        by_cases h3 : g2 ∈ a0 :: arest
        · rw [if_pos h3] at hsome
          exact absurd hsome (by simp)
        · rw [if_neg h3] at hsome
          exact hwf2.fresh g2 hsome
    obtain ⟨gm5, hual, hwfAll⟩ := manager_update_wf b2 y x color hwf2 hin2 hempty2 hcol
      gmM (arest.foldl min a0) (a0 :: arest) allS hszM hndGM hndSM hndLM hfGM hfSM
      hdomM hyxS hallS' hcover' hside' hfresh'
    simp only [hual] at hps
    have h2fin : (place_stone b y x color).2 =
        finishedBoard b2 y x color gm5 (0 + n2) := by
      rw [hps]
    rw [h2fin]
    obtain ⟨hA, hB, hC, hD, hE, hF⟩ :=
      finishedBoard_ok b2 y x color gm5 (0 + n2) hcol hwfAll
    have hg2 : b2.grid =
        (⟨b.size, b.black \ captSet, b.white \ captSet⟩ : Grid) := by
      show (⟨b2.size, b2.black, b2.white⟩ : Grid) = _
      rw [hsz2, hcsb, hcsw]
    refine ⟨hA, hB.trans hsz2, hC.trans hzob2, captSet, hcsp, ?_, ?_, ?_,
      hin, hempty, hcol⟩
    · rw [hD, hg2]
    · rw [hE, hzob2, hcsh, Nat.xor_assoc, Nat.xor_comm (xorSet captSet _) _,
        ← Nat.xor_assoc]
    · rw [hF, hhist2, hE]

theorem reachable_wf (zob : ℤ → ℤ → ℤ → ℕ) (size : ℤ) (b : Board)
    (h : Reachable zob size b) :
    BoardWf b ∧ b.size = size ∧ b.zobrist = zob ∧ 5 ≤ size ∧ size ≤ 25 := by
  induction h with
  | base h5 h25 => exact ⟨mk0_wf size zob, rfl, rfl, h5, h25⟩
  | step y x color hr hok ih =>
    obtain ⟨hwf, hsz, hzob, h5, h25⟩ := ih
    obtain ⟨hwf2, hsz2, hzob2, _⟩ := place_stone_wf _ y x color hwf hok
    exact ⟨hwf2, hsz2.trans hsz, hzob2.trans hzob, h5, h25⟩

/-- C2: on every board reachable from a freshly constructed board of a valid
size by a sequence of successful `place_stone` calls, the incrementally
maintained `current_hash` equals the fingerprint recomputed from scratch by
XOR-ing the Zobrist entry of every occupied (coordinate, color) pair of the
live grid (`recomputedHash`, the scan of `_update_position_hash`). -/
theorem place_stone_hash_invariant (zob : ℤ → ℤ → ℤ → ℕ) (size : ℤ) (b : Board)
    (h : Reachable zob size b) : b.current_hash = recomputedHash b :=
  (reachable_wf zob size b h).1.hashOk

/-- Witness for the fingerprint invariant at a concrete reachable board: the
5×5 board after black 2-2 and white 2-3. -/
theorem place_stone_hash_invariant_witness :
    bLib.current_hash = recomputedHash bLib :=
  place_stone_hash_invariant (zobP2 5) 5 bLib
    (Reachable.step 2 3 WHITE
      (Reachable.step 2 2 BLACK
        (Reachable.base (by norm_num) (by norm_num)) (by decide))
      (by decide))

/-- C10: for every reachable board (the construction validates the size to
`[5, 25]`), `reset` yields a state equal, field by field, to a freshly
constructed `Board` of the same size with the same Zobrist table: empty
interior, zero capture counts, `current_hash` the empty-position
fingerprint, `position_history` containing exactly that fingerprint, and a
fresh empty group tracker. -/
theorem reset_equals_fresh_board (zob : ℤ → ℤ → ℤ → ℕ) (size : ℤ) (b : Board)
    (h : Reachable zob size b) :
    Board.construct size zob = .ok (Board.mk0 size zob) ∧
    Board.reset b = Board.mk0 size zob := by
  obtain ⟨hwf, hsz, hzob, h5, h25⟩ := reachable_wf zob size b h
  constructor
  · unfold Board.construct
    rw [if_pos ⟨h5, h25⟩]
  · have hfb : b.black.filter (fun c => ¬ inB b.size c.1 c.2) = ∅ := by
      rw [Finset.filter_eq_empty_iff]
      intro c hc
      exact not_not_intro (hwf.bounded c (Finset.mem_union_left _ hc))
    have hfw : b.white.filter (fun c => ¬ inB b.size c.1 c.2) = ∅ := by
      rw [Finset.filter_eq_empty_iff]
      intro c hc
      exact not_not_intro (hwf.bounded c (Finset.mem_union_right _ hc))
    unfold Board.reset Board.mk0
    rw [hfb, hfw, hsz, hzob]

/-- Witness for the reset/fresh-construction equivalence at a concrete
reachable board: the 5×5 board after black 2-2 and white 2-3. -/
theorem reset_equals_fresh_board_witness :
    Board.construct 5 (zobP2 5) = .ok (Board.mk0 5 (zobP2 5)) ∧
    Board.reset bLib = Board.mk0 5 (zobP2 5) :=
  reset_equals_fresh_board (zobP2 5) 5 bLib
    (Reachable.step 2 3 WHITE
      (Reachable.step 2 2 BLACK
        (Reachable.base (by norm_num) (by norm_num)) (by decide))
      (by decide))

theorem sameColorNbrs_mem (g : Grid) (color : ℤ) (c0 : Coord) :
    ∀ c ∈ sameColorNbrs g color c0, cellAt g c.1 c.2 = color := by
  unfold sameColorNbrs
  have main : ∀ (l : List (ℤ × ℤ)) (acc : Finset Coord),
      (∀ c ∈ acc, cellAt g c.1 c.2 = color) →
      ∀ c ∈ l.foldl (fun s d =>
        let ny := c0.1 + d.1
        let nx := c0.2 + d.2
        if inB g.size ny nx ∧ cellAt g ny nx = color then insert (ny, nx) s else s) acc,
      cellAt g c.1 c.2 = color := by
    intro l
    induction l with
    | nil => exact fun acc h => h
    | cons d rest ih =>
      intro acc hacc
      rw [List.foldl_cons]
      apply ih
      intro c hc
      by_cases hb : inB g.size (c0.1 + d.1) (c0.2 + d.2) ∧
          cellAt g (c0.1 + d.1) (c0.2 + d.2) = color
      · simp only [if_pos hb] at hc
        rcases Finset.mem_insert.mp hc with hc | hc
        · rw [hc]
          exact hb.2
        · exact hacc c hc
      · simp only [if_neg hb] at hc
        exact hacc c hc
  exact main DIRECTIONS ∅ (fun c hc => absurd hc (Finset.not_mem_empty c))

theorem floodStep_mem (g : Grid) (color : ℤ) (acc : Finset Coord) :
    ∀ c ∈ floodStep g color acc, c ∈ acc ∨ cellAt g c.1 c.2 = color := by
  intro c hc
  unfold floodStep at hc
  rcases Finset.mem_union.mp hc with h | h
  · exact Or.inl h
  · obtain ⟨c0, _, hcn⟩ := Finset.mem_biUnion.mp h
    exact Or.inr (sameColorNbrs_mem g color c0 c hcn)

theorem floodGroup_color (g : Grid) (y x : ℤ) :
    ∀ c ∈ floodGroup g y x, cellAt g c.1 c.2 = cellAt g y x := by
  unfold floodGroup
  have main : ∀ n : ℕ, ∀ c ∈ (Nat.rec ({(y, x)} : Finset Coord)
      (fun _ ih => floodStep g (cellAt g y x) ih) n : Finset Coord),
      cellAt g c.1 c.2 = cellAt g y x := by
    intro n
    induction n with
    | zero =>
      intro c hc
      have hcy := Finset.mem_singleton.mp hc
      subst hcy
      rfl
    | succ n ih =>
      intro c hc
      rcases floodStep_mem g (cellAt g y x) _ c hc with h | h
      · exact ih c h
      · exact h
  exact fun c hc => main ((g.size * g.size).toNat + 1) c hc

theorem cellAt_setCell_self_ne_opp (g : Grid) (y x color : ℤ) (hin : inB g.size y x) :
    cellAt (setCell g y x color) y x ≠ opponentOf color := by
  by_cases hb : color = BLACK
  · subst hb
    rw [cellAt_setCell_self g y x BLACK hin (Or.inl rfl)]
    simp [opponentOf, BLACK, WHITE]
  · by_cases hw : color = WHITE
    · subst hw
      rw [cellAt_setCell_self g y x WHITE hin (Or.inr (Or.inl rfl))]
      simp [opponentOf, BLACK, WHITE]
    · have hsc : setCell g y x color =
          { g with black := g.black.erase (y, x), white := g.white.erase (y, x) } := by
        unfold setCell
        rw [if_neg hb, if_neg hw]
      have hE : cellAt (setCell g y x color) y x = EMPTY := by
        rw [hsc]
        refine (cellAt_empty_iff ⟨g.size, g.black.erase (y, x),
          g.white.erase (y, x)⟩ y x hin).mpr ?_
        exact ⟨Finset.not_mem_erase _ _, Finset.not_mem_erase _ _⟩
      rw [hE]
      unfold opponentOf
      rw [if_neg hb]
      simp [BLACK, EMPTY]

theorem potential_fold_mem (size : ℤ) (g temp : Grid) (y x opponent : ℤ)
    (hopp : ∀ ny nx : ℤ, inB size ny nx → cellAt temp ny nx = opponent →
      cellAt g ny nx = opponent) :
    ∀ c ∈ DIRECTIONS.foldl (fun acc d =>
      let ny := y + d.1
      let nx := x + d.2
      if inB size ny nx then
        if cellAt temp ny nx = opponent then
          let group := floodGroup g ny nx
          let libs := groupLibsScan g group
          if libs.card = 1 ∧ (y, x) ∈ libs then acc ++ sortCoords group else acc
        else acc
      else acc) ([] : List Coord),
    cellAt g c.1 c.2 = opponent := by
  have main : ∀ (l : List (ℤ × ℤ)) (acc : List Coord),
      (∀ c ∈ acc, cellAt g c.1 c.2 = opponent) →
      ∀ c ∈ l.foldl (fun acc d =>
        let ny := y + d.1
        let nx := x + d.2
        if inB size ny nx then
          if cellAt temp ny nx = opponent then
            let group := floodGroup g ny nx
            let libs := groupLibsScan g group
            if libs.card = 1 ∧ (y, x) ∈ libs then acc ++ sortCoords group else acc
          else acc
        else acc) acc,
      cellAt g c.1 c.2 = opponent := by
    intro l
    induction l with
    | nil => exact fun acc h => h
    | cons d rest ih =>
      intro acc hacc
      rw [List.foldl_cons]
      apply ih
      intro c hc
      by_cases h1 : inB size (y + d.1) (x + d.2)
      · by_cases h2 : cellAt temp (y + d.1) (x + d.2) = opponent
        · by_cases h3 : (groupLibsScan g (floodGroup g (y + d.1) (x + d.2))).card = 1 ∧
              (y, x) ∈ groupLibsScan g (floodGroup g (y + d.1) (x + d.2))
          · simp only [if_pos h1, if_pos h2, if_pos h3] at hc
            rcases List.mem_append.mp hc with hm | hm
            · exact hacc c hm
            · have hcf := (mem_sortCoords _ _).mp hm
              rw [floodGroup_color g (y + d.1) (x + d.2) c hcf]
              exact hopp _ _ h1 h2
          · simp only [if_pos h1, if_pos h2, if_neg h3] at hc
            exact hacc c hc
        · simp only [if_pos h1, if_neg h2] at hc
          exact hacc c hc
      · simp only [if_neg h1] at hc
        exact hacc c hc
  exact main DIRECTIONS [] (by simp)

/-- C4 (amended): for every stone move, when `place_stone` succeeds, `push`
succeeds, snapshots the pre-move fingerprint and a value copy of the
repetition-history set into the record before applying, applies the move to
the board, truncates the records after the cursor, appends the new record
and advances the cursor; every coordinate the record lists as captured
really was an opponent stone emptied by this move — but the record is only a
(possibly strict) subset of the captured coordinates, because the brute-force
pre-scan that fills it can disagree with the tracked liberty counts the
application itself uses.  When `place_stone` raises, the failure is
re-raised as a move error, no record is stored and the cursor stays. -/
theorem push_applies_and_records (s : MoveStack) (y x color : ℤ) :
    ((place_stone s.board y x color).1 = none →
      (push s (.stone y x color)).1 = none ∧
      (push s (.stone y x color)).2.board = (place_stone s.board y x color).2 ∧
      (push s (.stone y x color)).2.current_index = s.current_index + 1 ∧
      ∃ r : MoveRec,
        (push s (.stone y x color)).2.moves =
          s.moves.take (s.current_index + 1).toNat ++ [r] ∧
        r.mv = .stone y x color ∧
        r.previous_zobrist_hash = s.board.current_hash ∧
        r.previous_position_history = s.board.position_history ∧
        ∀ c ∈ r.captured_stones,
          cellAt s.board.grid c.1 c.2 = opponentOf color ∧
          cellAt (place_stone s.board y x color).2.grid c.1 c.2 = EMPTY) ∧
    (∀ e, (place_stone s.board y x color).1 = some e →
      (push s (.stone y x color)).1 = some (toMoveErr e) ∧
      (push s (.stone y x color)).2.board = (place_stone s.board y x color).2 ∧
      (push s (.stone y x color)).2.moves = s.moves ∧
      (push s (.stone y x color)).2.current_index = s.current_index) := by
  unfold push
  constructor
  · intro h
    simp only [h]
    refine ⟨by trivial, by trivial, by trivial, _, by trivial, by trivial,
      by trivial, by trivial, ?_⟩
    intro c hc
    rw [List.mem_filter] at hc
    refine ⟨?_, ?_⟩
    · refine potential_fold_mem s.board.size s.board.grid
        (setCell s.board.grid y x color) y x (opponentOf color) ?_ c hc.1
      intro ny nx hinn htempn
      by_cases he : ((ny, nx) : Coord) = (y, x)
      · exfalso
        have h1 : ny = y := congrArg Prod.fst he
        have h2 : nx = x := congrArg Prod.snd he
        rw [h1, h2] at hinn htempn
        exact cellAt_setCell_self_ne_opp s.board.grid y x color hinn htempn
      · rw [← cellAt_setCell_ne s.board.grid y x color (ny, nx) he]
        exact htempn
    · simpa using hc.2
  · intro e he
    simp only [he]
    exact ⟨by trivial, by trivial, by trivial, by trivial⟩

/-- Witness for the amended push theorem: pushing the capturing move black
1-2 on the two-stone stack succeeds and advances the cursor. -/
theorem push_applies_and_records_witness :
    (push SP2 (.stone 1 2 BLACK)).1 = none ∧
    (push SP2 (.stone 1 2 BLACK)).2.current_index = SP2.current_index + 1 :=
  ⟨((push_applies_and_records SP2 1 2 BLACK).1 (by decide)).1,
   ((push_applies_and_records SP2 1 2 BLACK).1 (by decide)).2.2.1⟩

/-- Counterexample to the original push claim: on the handcrafted stack the
analysis deems black 3-4 legal, the push succeeds and the white stone at
3-3 is captured (white before, empty after), yet the stored record lists no
captured coordinate at all — the record does not hold the set of coordinates
captured by the move. -/
theorem push_misses_captured_stone :
    (place_stone S4.board 3 4 BLACK).1 = none ∧
    cellAt S4.board.grid 3 3 = WHITE ∧
    (push S4 (.stone 3 4 BLACK)).1 = none ∧
    cellAt (push S4 (.stone 3 4 BLACK)).2.board.grid 3 3 = EMPTY ∧
    (push S4 (.stone 3 4 BLACK)).2.moves = [⟨.stone 3 4 BLACK, [], 0, ∅⟩] :=
  ⟨by decide, by decide, by decide, by decide, by decide⟩

theorem push_success_eq (s : MoveStack) (y x color : ℤ)
    (h : (place_stone s.board y x color).1 = none) :
    push s (.stone y x color) =
      (none, { s with
               board := (place_stone s.board y x color).2,
               moves := s.moves.take (s.current_index + 1).toNat ++
                 [⟨.stone y x color, pushCaptList s y x color,
                   s.board.current_hash, s.board.position_history⟩],
               current_index := s.current_index + 1 }) := by
  unfold push pushCaptList
  simp only [h]
  rfl

theorem push_pass_eq (s : MoveStack) (color : ℤ) :
    push s (.pass color) =
      (none, { s with
        moves := s.moves.take (s.current_index + 1).toNat ++
          [mkRec (.pass color) s.board],
        current_index := s.current_index + 1 }) := rfl

theorem push_resign_eq (s : MoveStack) (color : ℤ) :
    push s (.resign color) =
      (none, { s with
        moves := s.moves.take (s.current_index + 1).toNat ++
          [mkRec (.resign color) s.board],
        current_index := s.current_index + 1 }) := rfl

theorem pushCaptList_sound (s : MoveStack) (y x color : ℤ) :
    ∀ c ∈ pushCaptList s y x color,
      cellAt s.board.grid c.1 c.2 = opponentOf color ∧
      cellAt (place_stone s.board y x color).2.grid c.1 c.2 = EMPTY := by
  intro c hc
  unfold pushCaptList at hc
  simp only [] at hc
  rw [List.mem_filter] at hc
  refine ⟨?_, by simpa using hc.2⟩
  refine potential_fold_mem s.board.size s.board.grid
    (setCell s.board.grid y x color) y x (opponentOf color) ?_ c hc.1
  intro ny nx hinn htempn
  by_cases he : ((ny, nx) : Coord) = (y, x)
  · exfalso
    have h1 : ny = y := congrArg Prod.fst he
    have h2 : nx = x := congrArg Prod.snd he
    rw [h1, h2] at hinn htempn
    exact cellAt_setCell_self_ne_opp s.board.grid y x color hinn htempn
  · rw [← cellAt_setCell_ne s.board.grid y x color (ny, nx) he]
    exact htempn

theorem setCell_foldl_size (rl : List Coord) (g : Grid) (v : ℤ) :
    (rl.foldl (fun g c => setCell g c.1 c.2 v) g).size = g.size := by
  induction rl generalizing g with
  | nil => rfl
  | cons a t ih =>
    rw [List.foldl_cons, ih (setCell g a.1 a.2 v), setCell_size]

theorem cellAt_foldl_setCell (rl : List Coord) (g : Grid) (v : ℤ)
    (hv : v = BLACK ∨ v = WHITE ∨ v = EMPTY) (cy cx : ℤ) :
    cellAt (rl.foldl (fun g c => setCell g c.1 c.2 v) g) cy cx =
      if ((cy, cx) : Coord) ∈ rl ∧ inB g.size cy cx then v
      else cellAt g cy cx := by
  induction rl generalizing g with
  | nil =>
    rw [List.foldl_nil, if_neg]
    intro hcon
    exact absurd hcon.1 (List.not_mem_nil _)
  | cons a t ih =>
    rw [List.foldl_cons, ih (setCell g a.1 a.2 v), setCell_size]
    by_cases h1 : ((cy, cx) : Coord) ∈ t ∧ inB g.size cy cx
    · rw [if_pos h1, if_pos ⟨List.mem_cons_of_mem _ h1.1, h1.2⟩]
    · rw [if_neg h1]
      by_cases ha : ((cy, cx) : Coord) = a
      · by_cases hin : inB g.size cy cx
        · rw [if_pos ⟨ha ▸ List.mem_cons_self a t, hin⟩]
          have hsa : setCell g a.1 a.2 v = setCell g cy cx v := by
            rw [← ha]
          rw [hsa]
          exact cellAt_setCell_self g cy cx v hin hv
        · rw [if_neg (fun hcon => hin hcon.2)]
          have h2 := cellAt_oob g cy cx hin
          have h3 : cellAt (setCell g a.1 a.2 v) cy cx = OFFBOARD := by
            refine cellAt_oob _ cy cx ?_
            rw [setCell_size]
            exact hin
          rw [h2, h3]
      · rw [if_neg (by
          intro hcon
          rcases List.mem_cons.mp hcon.1 with hm | hm
          · exact ha hm
          · exact h1 ⟨hm, hcon.2⟩)]
        exact cellAt_setCell_ne g a.1 a.2 v (cy, cx) ha

theorem foldl_xor_nodup (rl : List Coord) (f : Coord → ℕ) (h0 : ℕ)
    (hnd : rl.Nodup) :
    rl.foldl (fun h c => h ^^^ f c) h0 = h0 ^^^ xorSet rl.toFinset f := by
  induction rl generalizing h0 with
  | nil =>
    have h1 : xorSet ([] : List Coord).toFinset f = 0 := rfl
    rw [List.foldl_nil, h1, Nat.xor_zero]
  | cons a t ih =>
    rw [List.nodup_cons] at hnd
    rw [List.foldl_cons, ih (h0 ^^^ f a) hnd.2]
    have hins : (a :: t).toFinset = insert a t.toFinset := by
      simp
    rw [hins]
    have hna : a ∉ t.toFinset := by
      simpa using hnd.1
    unfold xorSet
    rw [Finset.fold_insert hna]
    show (h0 ^^^ f a) ^^^ _ = h0 ^^^ (f a ^^^ _)
    rw [Nat.xor_assoc]

theorem get?_take_append {α : Type} (l : List α) (r : α) (k n : ℕ)
    (hk : k ≤ l.length) (hn : n < k) :
    (l.take k ++ [r]).get? n = l.get? n := by
  rw [List.get?_append (by rw [List.length_take]; omega)]
  exact List.get?_take hn

theorem get?_take_append_self {α : Type} (l : List α) (r : α) (k : ℕ)
    (hk : k ≤ l.length) :
    (l.take k ++ [r]).get? k = some r := by
  have hlen : (l.take k).length = k := by
    rw [List.length_take]
    omega
  have h2 := List.get?_concat_length (l.take k) r
  rw [hlen] at h2
  exact h2

theorem popS_frame (s : MoveStack) :
    (popS s).moves = s.moves ∧
    (popS s).board.black_captures = s.board.black_captures ∧
    (popS s).board.white_captures = s.board.white_captures ∧
    (popS s).board.size = s.board.size ∧
    (popS s).board.zobrist = s.board.zobrist := by
  unfold popS
  by_cases h1 : s.current_index < 0
  · rw [if_pos h1]
    exact ⟨rfl, rfl, rfl, rfl, rfl⟩
  · rw [if_neg h1]
    cases hg : s.moves.get? s.current_index.toNat with
    | none => exact ⟨rfl, rfl, rfl, rfl, rfl⟩
    | some r =>
      cases hmv : r.mv with
      | pass c =>
        simp only [hmv]
        exact ⟨by trivial, by trivial, by trivial, by trivial, by trivial⟩
      | resign c =>
        simp only [hmv]
        exact ⟨by trivial, by trivial, by trivial, by trivial, by trivial⟩
      | stone y x color =>
        simp only [hmv]
        exact ⟨by trivial, by trivial, by trivial, by trivial, by trivial⟩

theorem popN_frame (s : MoveStack) (n : ℕ) :
    (popN s n).moves = s.moves ∧
    (popN s n).board.black_captures = s.board.black_captures ∧
    (popN s n).board.white_captures = s.board.white_captures ∧
    (popN s n).board.size = s.board.size ∧
    (popN s n).board.zobrist = s.board.zobrist := by
  induction n generalizing s with
  | zero => exact ⟨rfl, rfl, rfl, rfl, rfl⟩
  | succ n ih =>
    show (popN (popS s) n).moves = s.moves ∧ _
    obtain ⟨h1, h2, h3, h4, h5⟩ := ih (popS s)
    obtain ⟨g1, g2, g3, g4, g5⟩ := popS_frame s
    exact ⟨h1.trans g1, h2.trans g2, h3.trans g3, h4.trans g4, h5.trans g5⟩

theorem push_fail_eq (s : MoveStack) (y x color : ℤ) (e : GoErr)
    (h : (place_stone s.board y x color).1 = some e) :
    push s (.stone y x color) =
      (some (toMoveErr e), { s with board := (place_stone s.board y x color).2 }) := by
  unfold push
  simp only [h]

theorem popS_undoes_stone (s T : MoveStack) (y x color : ℤ)
    (hwf : BoardWf s.board)
    (hok : (place_stone s.board y x color).1 = none)
    (hcompl : ∀ c ∈ interior s.board.size,
      cellAt s.board.grid c.1 c.2 = opponentOf color ∧
      cellAt (place_stone s.board y x color).2.grid c.1 c.2 = EMPTY →
      c ∈ pushCaptList s y x color)
    (hidx : -1 ≤ s.current_index)
    (hlen : (s.current_index + 1).toNat ≤ s.moves.length)
    (hTc : T.current_index = s.current_index + 1)
    (hTm : ∀ n : ℕ, (n : ℤ) ≤ s.current_index + 1 →
      T.moves.get? n = (push s (.stone y x color)).2.moves.get? n)
    (hTg : ∀ cy cx : ℤ, cellAt T.board.grid cy cx =
      cellAt (place_stone s.board y x color).2.grid cy cx)
    (hTs : T.board.size = s.board.size) :
    (popS T).current_index = s.current_index ∧
    (∀ n : ℕ, (n : ℤ) ≤ s.current_index →
      (popS T).moves.get? n = s.moves.get? n) ∧
    (∀ cy cx : ℤ, cellAt (popS T).board.grid cy cx = cellAt s.board.grid cy cx) ∧
    (popS T).board.current_hash = s.board.current_hash ∧
    (popS T).board.position_history = s.board.position_history ∧
    (popS T).board.size = s.board.size := by
  obtain ⟨hwfP, hszP, hzobP, captSet, hpc, hgridP, hhashP, hhistP, hinP,
    hemptyP, hcolP⟩ := place_stone_wf s.board y x color hwf hok
  have hmoves : (push s (.stone y x color)).2.moves =
      s.moves.take (s.current_index + 1).toNat ++
        [⟨.stone y x color, pushCaptList s y x color, s.board.current_hash,
          s.board.position_history⟩] := by
    rw [push_success_eq s y x color hok]
  have hk : (((s.current_index + 1).toNat : ℤ)) = s.current_index + 1 :=
    Int.toNat_of_nonneg (by omega)
  have hget : T.moves.get? T.current_index.toNat =
      some ⟨.stone y x color, pushCaptList s y x color, s.board.current_hash,
        s.board.position_history⟩ := by
    rw [hTc]
    rw [hTm (s.current_index + 1).toNat (le_of_eq hk), hmoves]
    exact get?_take_append_self _ _ _ hlen
  have hTc0 : ¬ (T.current_index < 0) := by
    rw [hTc]
    omega
  have hvE : opponentOf color = BLACK ∨ opponentOf color = WHITE ∨
      opponentOf color = EMPTY := by
    rcases opponentOf_valid color with h | h
    · exact Or.inl h
    · exact Or.inr (Or.inl h)
  unfold popS
  rw [if_neg hTc0]
  simp only [hget]
  refine ⟨?_, ?_, ?_, ?_, ?_, ?_⟩
  · show T.current_index - 1 = s.current_index
    rw [hTc]
    omega
  · intro n hn
    show T.moves.get? n = s.moves.get? n
    rw [hTm n (by omega), hmoves]
    refine get?_take_append _ _ _ n hlen ?_
    omega
  · intro cy cx
    have hG2size : ((pushCaptList s y x color).foldl
        (fun g c => setCell g c.1 c.2 (opponentOf color))
        (setCell T.board.grid y x EMPTY)).size = T.board.size := by
      rw [setCell_foldl_size, setCell_size]
      rfl
    show cellAt (⟨T.board.size,
      ((pushCaptList s y x color).foldl
        (fun g c => setCell g c.1 c.2 (opponentOf color))
        (setCell T.board.grid y x EMPTY)).black,
      ((pushCaptList s y x color).foldl
        (fun g c => setCell g c.1 c.2 (opponentOf color))
        (setCell T.board.grid y x EMPTY)).white⟩ : Grid) cy cx =
      cellAt s.board.grid cy cx
    rw [grid_eta _ _ hG2size,
      cellAt_foldl_setCell _ _ _ hvE cy cx]
    have hsz' : (setCell T.board.grid y x EMPTY).size = s.board.size := by
      rw [setCell_size]
      show T.board.size = s.board.size
      exact hTs
    rw [hsz']
    by_cases hcrl : ((cy, cx) : Coord) ∈ pushCaptList s y x color
    · have hsound := pushCaptList_sound s y x color (cy, cx) hcrl
      have hinb : inB s.board.size cy cx :=
        cellAt_inB_of_stone s.board.grid cy cx (opponentOf color)
          (opponentOf_valid color) hsound.1
      rw [if_pos ⟨hcrl, hinb⟩]
      exact hsound.1.symm
    · rw [if_neg (fun hcon => hcrl hcon.1)]
      by_cases hcy : ((cy, cx) : Coord) = (y, x)
      · have h1 : cy = y := congrArg Prod.fst hcy
        have h2 : cx = x := congrArg Prod.snd hcy
        subst h1
        subst h2
        rw [cellAt_setCell_self T.board.grid cy cx EMPTY
          (by show inB T.board.size cy cx; rw [hTs]; exact hinP)
          (Or.inr (Or.inr rfl))]
        exact hemptyP.symm
      · rw [cellAt_setCell_ne T.board.grid y x EMPTY (cy, cx) hcy]
        rw [hTg cy cx, hgridP, cellAt_setCell_ne _ y x color (cy, cx) hcy]
        have hnotin : ((cy, cx) : Coord) ∉ captSet := by
          intro hmem
          refine hcrl (hcompl (cy, cx)
            ((interior_mem _ _).mpr (hpc (cy, cx) hmem).2) ⟨(hpc (cy, cx) hmem).1, ?_⟩)
          rw [hgridP, cellAt_setCell_ne _ y x color (cy, cx) hcy]
          exact cellAt_sdiff_mem s.board.grid captSet cy cx (hpc (cy, cx) hmem).2 hmem
        exact cellAt_sdiff_notmem s.board.grid captSet cy cx hnotin
  · trivial
  · trivial
  · show T.board.size = s.board.size
    exact hTs

theorem popS_undoes_passresign (s T : MoveStack) (m : MoveIn)
    (hpr : (∃ c, m = MoveIn.pass c) ∨ (∃ c, m = MoveIn.resign c))
    (hidx : -1 ≤ s.current_index)
    (hlen : (s.current_index + 1).toNat ≤ s.moves.length)
    (hTc : T.current_index = s.current_index + 1)
    (hTm : ∀ n : ℕ, (n : ℤ) ≤ s.current_index + 1 →
      T.moves.get? n = (push s m).2.moves.get? n)
    (hTg : ∀ cy cx : ℤ, cellAt T.board.grid cy cx = cellAt s.board.grid cy cx)
    (hTh : T.board.current_hash = s.board.current_hash)
    (hTp : T.board.position_history = s.board.position_history)
    (hTs : T.board.size = s.board.size) :
    (popS T).current_index = s.current_index ∧
    (∀ n : ℕ, (n : ℤ) ≤ s.current_index →
      (popS T).moves.get? n = s.moves.get? n) ∧
    (∀ cy cx : ℤ, cellAt (popS T).board.grid cy cx = cellAt s.board.grid cy cx) ∧
    (popS T).board.current_hash = s.board.current_hash ∧
    (popS T).board.position_history = s.board.position_history ∧
    (popS T).board.size = s.board.size := by
  have hk : (((s.current_index + 1).toNat : ℤ)) = s.current_index + 1 :=
    Int.toNat_of_nonneg (by omega)
  have hTc0 : ¬ (T.current_index < 0) := by
    rw [hTc]
    omega
  have hmoves : (push s m).2.moves =
      s.moves.take (s.current_index + 1).toNat ++ [mkRec m s.board] := by
    rcases hpr with ⟨c, hm⟩ | ⟨c, hm⟩ <;> subst hm
    · rw [push_pass_eq]
    · rw [push_resign_eq]
  have hget : T.moves.get? T.current_index.toNat = some (mkRec m s.board) := by
    rw [hTc]
    rw [hTm (s.current_index + 1).toNat (le_of_eq hk), hmoves]
    exact get?_take_append_self _ _ _ hlen
  have hmv : ∀ n : ℕ, (n : ℤ) ≤ s.current_index →
      T.moves.get? n = s.moves.get? n := by
    intro n hn
    rw [hTm n (by omega), hmoves]
    refine get?_take_append _ _ _ n hlen ?_
    omega
  rcases hpr with ⟨c, hm⟩ | ⟨c, hm⟩ <;> subst hm <;>
    (unfold popS
     rw [if_neg hTc0]
     simp only [hget, mkRec]
     exact ⟨by show T.current_index - 1 = s.current_index; rw [hTc]; omega,
       hmv, hTg, hTh, hTp, hTs⟩)

theorem pushMany_inv (l : List MoveIn) :
    ∀ s : MoveStack, BoardWf s.board → -1 ≤ s.current_index →
      (s.current_index + 1).toNat ≤ s.moves.length →
      (∀ (k : ℕ) (m0 : MoveIn), l.get? k = some m0 →
        (push (pushMany s (l.take k)) m0).1 = none) →
      BoardWf (pushMany s l).board ∧ -1 ≤ (pushMany s l).current_index ∧
      ((pushMany s l).current_index + 1).toNat ≤ (pushMany s l).moves.length := by
  induction l with
  | nil =>
    intro s hwf hidx hlen _
    exact ⟨hwf, hidx, hlen⟩
  | cons m0 l' ih =>
    intro s hwf hidx hlen hok
    have hok0 : (push s m0).1 = none := hok 0 m0 rfl
    have hstep : BoardWf (push s m0).2.board ∧
        (push s m0).2.current_index = s.current_index + 1 ∧
        (push s m0).2.moves.length = (s.current_index + 1).toNat + 1 := by
      cases m0 with
      | stone y x color =>
        have hplace : (place_stone s.board y x color).1 = none := by
          cases hp : (place_stone s.board y x color).1 with
          | none => rfl
          | some e =>
            rw [push_fail_eq s y x color e hp] at hok0
            exact absurd hok0 (by simp)
        rw [push_success_eq s y x color hplace]
        refine ⟨(place_stone_wf s.board y x color hwf hplace).1, rfl, ?_⟩
        show (s.moves.take (s.current_index + 1).toNat ++ [_]).length = _
        rw [List.length_append, List.length_take, List.length_singleton]
        omega
      | pass c =>
        rw [push_pass_eq]
        refine ⟨hwf, rfl, ?_⟩
        show (s.moves.take (s.current_index + 1).toNat ++ [_]).length = _
        rw [List.length_append, List.length_take, List.length_singleton]
        omega
      | resign c =>
        rw [push_resign_eq]
        refine ⟨hwf, rfl, ?_⟩
        show (s.moves.take (s.current_index + 1).toNat ++ [_]).length = _
        rw [List.length_append, List.length_take, List.length_singleton]
        omega
    refine ih (push s m0).2 hstep.1 (by rw [hstep.2.1]; omega) ?_ ?_
    · rw [hstep.2.1, hstep.2.2]
      omega
    · intro k m1 hkm
      exact hok (k + 1) m1 hkm

theorem popN_chain (ms : List MoveIn) :
    ∀ (s T : MoveStack), BoardWf s.board → -1 ≤ s.current_index →
      (s.current_index + 1).toNat ≤ s.moves.length →
      (∀ (k : ℕ) (m0 : MoveIn), ms.get? k = some m0 →
        (push (pushMany s (ms.take k)) m0).1 = none) →
      (∀ (k : ℕ) (y x color : ℤ), ms.get? k = some (.stone y x color) →
        ∀ c ∈ interior (pushMany s (ms.take k)).board.size,
          cellAt (pushMany s (ms.take k)).board.grid c.1 c.2 = opponentOf color ∧
          cellAt (place_stone (pushMany s (ms.take k)).board y x color).2.grid
              c.1 c.2 = EMPTY →
          c ∈ pushCaptList (pushMany s (ms.take k)) y x color) →
      T.current_index = (pushMany s ms).current_index →
      (∀ n : ℕ, (n : ℤ) ≤ (pushMany s ms).current_index →
        T.moves.get? n = (pushMany s ms).moves.get? n) →
      (∀ cy cx : ℤ, cellAt T.board.grid cy cx =
        cellAt (pushMany s ms).board.grid cy cx) →
      T.board.current_hash = (pushMany s ms).board.current_hash →
      T.board.position_history = (pushMany s ms).board.position_history →
      T.board.size = (pushMany s ms).board.size →
      (popN T ms.length).current_index = s.current_index ∧
      (∀ n : ℕ, (n : ℤ) ≤ s.current_index →
        (popN T ms.length).moves.get? n = s.moves.get? n) ∧
      (∀ cy cx : ℤ, cellAt (popN T ms.length).board.grid cy cx =
        cellAt s.board.grid cy cx) ∧
      (popN T ms.length).board.current_hash = s.board.current_hash ∧
      (popN T ms.length).board.position_history = s.board.position_history ∧
      (popN T ms.length).board.size = s.board.size := by
  induction ms using List.reverseRecOn with
  | nil =>
    intro s T _ _ _ _ _ h1 h2 h3 h4 h5 h6
    exact ⟨h1, h2, h3, h4, h5, h6⟩
  | append_singleton l m ih =>
    intro s T hwf hidx hlen hok hacc hTc hTm hTg hTh hTp hTs
    have hsplit : pushMany s (l ++ [m]) = (push (pushMany s l) m).2 := by
      unfold pushMany
      rw [List.foldl_append]
      rfl
    have hok' : ∀ (k : ℕ) (m0 : MoveIn), l.get? k = some m0 →
        (push (pushMany s (l.take k)) m0).1 = none := by
      intro k m0 hkm
      have hk : k < l.length := by
        rcases List.get?_eq_some.mp hkm with ⟨h, _⟩
        exact h
      have h2 := hok k m0 (by rw [List.get?_append hk]; exact hkm)
      rwa [List.take_append_of_le_length (le_of_lt hk)] at h2
    have hacc' : ∀ (k : ℕ) (y x color : ℤ), l.get? k = some (.stone y x color) →
        ∀ c ∈ interior (pushMany s (l.take k)).board.size,
          cellAt (pushMany s (l.take k)).board.grid c.1 c.2 = opponentOf color ∧
          cellAt (place_stone (pushMany s (l.take k)).board y x color).2.grid
              c.1 c.2 = EMPTY →
          c ∈ pushCaptList (pushMany s (l.take k)) y x color := by
      intro k y x color hkm
      have hk : k < l.length := by
        rcases List.get?_eq_some.mp hkm with ⟨h, _⟩
        exact h
      have h2 := hacc k y x color (by rw [List.get?_append hk]; exact hkm)
      rwa [List.take_append_of_le_length (le_of_lt hk)] at h2
    have hokL : (push (pushMany s l) m).1 = none := by
      have h2 := hok l.length m (List.get?_concat_length l m)
      rwa [List.take_left] at h2
    obtain ⟨hwfY, hidxY, hlenY⟩ := pushMany_inv l s hwf hidx hlen hok'
    rw [List.length_append, List.length_singleton]
    have hpn : ∀ X : MoveStack, popN X (l.length + 1) = popN (popS X) l.length :=
      fun X => rfl
    rw [hpn T]
    rw [hsplit] at hTc hTm hTg hTh hTp hTs
    cases m with
    | stone y x color =>
      have hplace : (place_stone (pushMany s l).board y x color).1 = none := by
        cases hp : (place_stone (pushMany s l).board y x color).1 with
        | none => rfl
        | some e =>
          rw [push_fail_eq _ y x color e hp] at hokL
          exact absurd hokL (by simp)
      have haccL := hacc l.length y x color (List.get?_concat_length l _)
      rw [List.take_left] at haccL
      have hZ := push_success_eq (pushMany s l) y x color hplace
      have hZc : (push (pushMany s l) (.stone y x color)).2.current_index =
          (pushMany s l).current_index + 1 := by rw [hZ]
      have hZb : (push (pushMany s l) (.stone y x color)).2.board =
          (place_stone (pushMany s l).board y x color).2 := by rw [hZ]
      obtain ⟨c1, c2, c3, c4, c5, c6⟩ :=
        popS_undoes_stone (pushMany s l) T y x color hwfY hplace haccL hidxY hlenY
          (hTc.trans hZc)
          (fun n hn => hTm n (by rw [hZc]; exact hn))
          (fun cy cx => by rw [hTg cy cx, hZb])
          (by rw [hTs, hZb]
              exact (place_stone_wf (pushMany s l).board y x color hwfY hplace).2.1)
      exact ih s (popS T) hwf hidx hlen hok' hacc' c1 c2 c3 c4 c5 c6
    | pass c0 =>
      have hZ := push_pass_eq (pushMany s l) c0
      have hZc : (push (pushMany s l) (.pass c0)).2.current_index =
          (pushMany s l).current_index + 1 := by rw [hZ]
      have hZb : (push (pushMany s l) (.pass c0)).2.board =
          (pushMany s l).board := by rw [hZ]
      obtain ⟨c1, c2, c3, c4, c5, c6⟩ :=
        popS_undoes_passresign (pushMany s l) T (.pass c0) (Or.inl ⟨c0, rfl⟩)
          hidxY hlenY
          (hTc.trans hZc)
          (fun n hn => hTm n (by rw [hZc]; exact hn))
          (fun cy cx => by rw [hTg cy cx, hZb])
          (by rw [hTh, hZb])
          (by rw [hTp, hZb])
          (by rw [hTs, hZb])
      exact ih s (popS T) hwf hidx hlen hok' hacc' c1 c2 c3 c4 c5 c6
    | resign c0 =>
      have hZ := push_resign_eq (pushMany s l) c0
      have hZc : (push (pushMany s l) (.resign c0)).2.current_index =
          (pushMany s l).current_index + 1 := by rw [hZ]
      have hZb : (push (pushMany s l) (.resign c0)).2.board =
          (pushMany s l).board := by rw [hZ]
      obtain ⟨c1, c2, c3, c4, c5, c6⟩ :=
        popS_undoes_passresign (pushMany s l) T (.resign c0) (Or.inr ⟨c0, rfl⟩)
          hidxY hlenY
          (hTc.trans hZc)
          (fun n hn => hTm n (by rw [hZc]; exact hn))
          (fun cy cx => by rw [hTg cy cx, hZb])
          (by rw [hTh, hZb])
          (by rw [hTp, hZb])
          (by rw [hTs, hZb])
      exact ih s (popS T) hwf hidx hlen hok' hacc' c1 c2 c3 c4 c5 c6

theorem fwdS_redoes_stone (s : MoveStack) (y x color : ℤ)
    (hwf : BoardWf s.board)
    (hok : (place_stone s.board y x color).1 = none)
    (hnd : (pushCaptList s y x color).Nodup)
    (hcompl : ∀ c ∈ interior s.board.size,
      cellAt s.board.grid c.1 c.2 = opponentOf color ∧
      cellAt (place_stone s.board y x color).2.grid c.1 c.2 = EMPTY →
      c ∈ pushCaptList s y x color)
    (hidx : -1 ≤ s.current_index)
    (hlen : (s.current_index + 1).toNat ≤ s.moves.length) :
    (fwdS (popS (push s (.stone y x color)).2)).current_index =
      (push s (.stone y x color)).2.current_index ∧
    (∀ cy cx : ℤ,
      cellAt (fwdS (popS (push s (.stone y x color)).2)).board.grid cy cx =
      cellAt (push s (.stone y x color)).2.board.grid cy cx) ∧
    (fwdS (popS (push s (.stone y x color)).2)).board.current_hash =
      (push s (.stone y x color)).2.board.current_hash ∧
    (fwdS (popS (push s (.stone y x color)).2)).board.position_history =
      (push s (.stone y x color)).2.board.position_history := by
  obtain ⟨hwfP, hszP, hzobP, captSet, hpc, hgridP, hhashP, hhistP, hinP,
    hemptyP, hcolP⟩ := place_stone_wf s.board y x color hwf hok
  have hP := push_success_eq s y x color hok
  have hPb : (push s (.stone y x color)).2.board =
      (place_stone s.board y x color).2 := by rw [hP]
  have hPc : (push s (.stone y x color)).2.current_index =
      s.current_index + 1 := by rw [hP]
  have hPm : (push s (.stone y x color)).2.moves =
      s.moves.take (s.current_index + 1).toNat ++
        [⟨.stone y x color, pushCaptList s y x color, s.board.current_hash,
          s.board.position_history⟩] := by rw [hP]
  obtain ⟨c1, c2, c3, c4, c5, c6⟩ :=
    popS_undoes_stone s (push s (.stone y x color)).2 y x color hwf hok hcompl
      hidx hlen hPc (fun n _ => rfl) (fun cy cx => by rw [hPb])
      (by rw [hPb, hszP])
  have hQz : (popS (push s (.stone y x color)).2).board.zobrist =
      s.board.zobrist := by
    have h5 := (popS_frame (push s (.stone y x color)).2).2.2.2.2
    rw [h5, hPb, hzobP]
  have hQm : (popS (push s (.stone y x color)).2).moves =
      (push s (.stone y x color)).2.moves := (popS_frame _).1
  have hoppne : opponentOf color ≠ EMPTY := by
    rcases opponentOf_valid color with h | h <;> rw [h] <;> decide
  have hset : (pushCaptList s y x color).toFinset = captSet := by
    ext c
    rw [List.mem_toFinset]
    constructor
    · intro hc
      have hsound := pushCaptList_sound s y x color c hc
      by_contra hnc
      have hne : c ≠ ((y, x) : Coord) := by
        intro he
        rw [he] at hsound
        exact hoppne (hsound.1.symm.trans hemptyP)
      have h2 := hsound.2
      rw [hgridP, cellAt_setCell_ne _ y x color c hne] at h2
      have h3 : cellAt (⟨s.board.size, s.board.black \ captSet,
          s.board.white \ captSet⟩ : Grid) c.1 c.2 =
          cellAt s.board.grid c.1 c.2 :=
        cellAt_sdiff_notmem s.board.grid captSet c.1 c.2 hnc
      rw [h3] at h2
      exact hoppne (hsound.1.symm.trans h2)
    · intro hc
      have hpcc := hpc c hc
      have hne : c ≠ ((y, x) : Coord) := by
        intro he
        rw [he] at hpcc
        exact hoppne (hpcc.1.symm.trans hemptyP)
      refine hcompl c ((interior_mem _ _).mpr hpcc.2) ⟨hpcc.1, ?_⟩
      rw [hgridP, cellAt_setCell_ne _ y x color c hne]
      exact cellAt_sdiff_mem s.board.grid captSet c.1 c.2 hpcc.2 hc
  have hh2 : (pushCaptList s y x color).foldl
      (fun h c => h ^^^ s.board.zobrist c.1 c.2 (opponentOf color - 1))
      (s.board.current_hash ^^^ s.board.zobrist y x (color - 1)) =
      (place_stone s.board y x color).2.current_hash := by
    rw [foldl_xor_nodup _ _ _ hnd, hset, hhashP]
  have hcond : ¬ ((popS (push s (.stone y x color)).2).current_index + 1 ≥
      (((popS (push s (.stone y x color)).2).moves.length : ℕ) : ℤ)) := by
    rw [c1, hQm, hPm, List.length_append, List.length_take,
      List.length_singleton]
    omega
  have hget : (popS (push s (.stone y x color)).2).moves.get?
      ((popS (push s (.stone y x color)).2).current_index + 1).toNat =
      some ⟨.stone y x color, pushCaptList s y x color, s.board.current_hash,
        s.board.position_history⟩ := by
    rw [c1, hQm, hPm]
    exact get?_take_append_self _ _ _ hlen
  unfold fwdS
  rw [if_neg hcond]
  simp only [hget]
  refine ⟨?_, ?_, ?_, ?_⟩
  · show (popS (push s (.stone y x color)).2).current_index + 1 =
      (push s (.stone y x color)).2.current_index
    rw [c1, hPc]
  · intro cy cx
    have hg2size : ((pushCaptList s y x color).foldl
        (fun g c => setCell g c.1 c.2 EMPTY)
        (setCell (popS (push s (.stone y x color)).2).board.grid y x color)).size =
        (popS (push s (.stone y x color)).2).board.size := by
      rw [setCell_foldl_size, setCell_size]
      rfl
    show cellAt (⟨(popS (push s (.stone y x color)).2).board.size,
      ((pushCaptList s y x color).foldl
        (fun g c => setCell g c.1 c.2 EMPTY)
        (setCell (popS (push s (.stone y x color)).2).board.grid y x color)).black,
      ((pushCaptList s y x color).foldl
        (fun g c => setCell g c.1 c.2 EMPTY)
        (setCell (popS (push s (.stone y x color)).2).board.grid y x color)).white⟩
        : Grid) cy cx =
      cellAt (push s (.stone y x color)).2.board.grid cy cx
    rw [grid_eta _ _ hg2size,
      cellAt_foldl_setCell _ _ _ (Or.inr (Or.inr rfl)) cy cx]
    have hsz1 : (setCell (popS (push s (.stone y x color)).2).board.grid
        y x color).size = s.board.size := by
      rw [setCell_size]
      show (popS (push s (.stone y x color)).2).board.size = s.board.size
      exact c6
    rw [hsz1, hPb, hgridP]
    by_cases hcrl : ((cy, cx) : Coord) ∈ pushCaptList s y x color
    · have hsound := pushCaptList_sound s y x color (cy, cx) hcrl
      have hinb : inB s.board.size cy cx :=
        cellAt_inB_of_stone s.board.grid cy cx (opponentOf color)
          (opponentOf_valid color) hsound.1
      rw [if_pos ⟨hcrl, hinb⟩]
      have hne : ((cy, cx) : Coord) ≠ (y, x) := by
        intro he
        rw [he] at hsound
        exact hoppne (hsound.1.symm.trans hemptyP)
      rw [cellAt_setCell_ne _ y x color (cy, cx) hne]
      have hmem : ((cy, cx) : Coord) ∈ captSet := by
        rw [← hset]
        exact List.mem_toFinset.mpr hcrl
      exact (cellAt_sdiff_mem s.board.grid captSet cy cx hinb hmem).symm
    · rw [if_neg (fun hcon => hcrl hcon.1)]
      by_cases hcy : ((cy, cx) : Coord) = (y, x)
      · have h1 : cy = y := congrArg Prod.fst hcy
        have h2 : cx = x := congrArg Prod.snd hcy
        subst h1
        subst h2
        have hvc : color = BLACK ∨ color = WHITE ∨ color = EMPTY := by
          rcases hcolP with h | h
          · exact Or.inl h
          · exact Or.inr (Or.inl h)
        rw [cellAt_setCell_self (popS (push s (.stone cy cx color)).2).board.grid
          cy cx color
          (by show inB (popS (push s (.stone cy cx color)).2).board.size cy cx
              rw [c6]
              exact hinP) hvc]
        exact (cellAt_setCell_self
          ⟨s.board.size, s.board.black \ captSet, s.board.white \ captSet⟩
          cy cx color hinP hvc).symm
      · rw [cellAt_setCell_ne (popS (push s (.stone y x color)).2).board.grid
          y x color (cy, cx) hcy, c3 cy cx,
          cellAt_setCell_ne _ y x color (cy, cx) hcy]
        have hnotin : ((cy, cx) : Coord) ∉ captSet := by
          rw [← hset]
          intro hm
          exact hcrl (List.mem_toFinset.mp hm)
        exact (cellAt_sdiff_notmem s.board.grid captSet cy cx hnotin).symm
  · show (pushCaptList s y x color).foldl
      (fun h c => h ^^^
        (popS (push s (.stone y x color)).2).board.zobrist c.1 c.2
          (opponentOf color - 1))
      (s.board.current_hash ^^^
        (popS (push s (.stone y x color)).2).board.zobrist y x (color - 1)) =
      (push s (.stone y x color)).2.board.current_hash
    rw [hQz, hPb]
    exact hh2
  · show insert ((pushCaptList s y x color).foldl
      (fun h c => h ^^^
        (popS (push s (.stone y x color)).2).board.zobrist c.1 c.2
          (opponentOf color - 1))
      (s.board.current_hash ^^^
        (popS (push s (.stone y x color)).2).board.zobrist y x (color - 1)))
      s.board.position_history =
      (push s (.stone y x color)).2.board.position_history
    rw [hQz, hh2, hPb, hhistP]

/-- Claim C5 (amended).  Undo/redo as implemented by `MoveStack.pop` and
`MoveStack.forward`.  Part 1: after any chain of `N` successful pushes whose
stone records are accurate (the brute-force capture pre-scan is complete for
the position), popping `N` times restores the cursor, every grid cell, the
fingerprint and the repetition history to their values before those pushes.
Part 2: redoing immediately after undoing a successful, accurately recorded
stone push restores the cursor, every grid cell, the fingerprint and the
repetition history of the pushed state.  The original claim additionally
promised that the capture counts are restored; `pop` never touches
`black_captures`/`white_captures`, so that part is refuted by the
counterexample `pop_does_not_restore_captures`. -/
theorem undo_redo_restore :
    (∀ (s : MoveStack) (ms : List MoveIn),
      BoardWf s.board → -1 ≤ s.current_index →
      (s.current_index + 1).toNat ≤ s.moves.length →
      (∀ (k : ℕ) (m0 : MoveIn), ms.get? k = some m0 →
        (push (pushMany s (ms.take k)) m0).1 = none) →
      (∀ (k : ℕ) (y x color : ℤ), ms.get? k = some (.stone y x color) →
        ∀ c ∈ interior (pushMany s (ms.take k)).board.size,
          cellAt (pushMany s (ms.take k)).board.grid c.1 c.2 = opponentOf color ∧
          cellAt (place_stone (pushMany s (ms.take k)).board y x color).2.grid
              c.1 c.2 = EMPTY →
          c ∈ pushCaptList (pushMany s (ms.take k)) y x color) →
      (popN (pushMany s ms) ms.length).current_index = s.current_index ∧
      (∀ cy cx : ℤ,
        cellAt (popN (pushMany s ms) ms.length).board.grid cy cx =
        cellAt s.board.grid cy cx) ∧
      (popN (pushMany s ms) ms.length).board.current_hash =
        s.board.current_hash ∧
      (popN (pushMany s ms) ms.length).board.position_history =
        s.board.position_history) ∧
    (∀ (s : MoveStack) (y x color : ℤ),
      BoardWf s.board → (place_stone s.board y x color).1 = none →
      (pushCaptList s y x color).Nodup →
      (∀ c ∈ interior s.board.size,
        cellAt s.board.grid c.1 c.2 = opponentOf color ∧
        cellAt (place_stone s.board y x color).2.grid c.1 c.2 = EMPTY →
        c ∈ pushCaptList s y x color) →
      -1 ≤ s.current_index →
      (s.current_index + 1).toNat ≤ s.moves.length →
      (fwdS (popS (push s (.stone y x color)).2)).current_index =
        (push s (.stone y x color)).2.current_index ∧
      (∀ cy cx : ℤ,
        cellAt (fwdS (popS (push s (.stone y x color)).2)).board.grid cy cx =
        cellAt (push s (.stone y x color)).2.board.grid cy cx) ∧
      (fwdS (popS (push s (.stone y x color)).2)).board.current_hash =
        (push s (.stone y x color)).2.board.current_hash ∧
      (fwdS (popS (push s (.stone y x color)).2)).board.position_history =
        (push s (.stone y x color)).2.board.position_history) := by
  constructor
  · intro s ms hwf hidx hlen hok hacc
    obtain ⟨d1, _, d3, d4, d5, _⟩ := popN_chain ms s (pushMany s ms) hwf hidx
      hlen hok hacc rfl (fun n _ => rfl) (fun cy cx => rfl) rfl rfl rfl
    exact ⟨d1, d3, d4, d5⟩
  · intro s y x color hwf hok hnd hcompl hidx hlen
    exact fwdS_redoes_stone s y x color hwf hok hnd hcompl hidx hlen

/-- Counterexample to the original C5: along the concrete push chain
`SP0 → SP1 → SP2 → SP3` the third push (black 1-2) captures the white stone
at 1-1 and sets `black_captures` to 1; popping that move leaves
`black_captures` at 1, not the pre-push value 0, because `pop` restores the
grid, fingerprint and history from the record but never touches the capture
counters. -/
theorem pop_does_not_restore_captures :
    (push SP2 (.stone 1 2 BLACK)).1 = none ∧
    SP2.board.black_captures = 0 ∧
    SP3.board.black_captures = 1 ∧
    (popS SP3).current_index = SP2.current_index ∧
    (popS SP3).board.black_captures = 1 := by
  refine ⟨by decide, by decide, by decide, by decide, by decide⟩

/-- The undo theorem instantiated on a concrete one-move chain: pushing
black 2-1 onto a fresh 5×5 stack and popping once restores the cursor,
fingerprint and repetition history. -/
theorem undo_redo_restore_witness :
    (popN (pushMany SP0 [MoveIn.stone 2 1 BLACK]) 1).current_index =
      SP0.current_index ∧
    (popN (pushMany SP0 [MoveIn.stone 2 1 BLACK]) 1).board.current_hash =
      SP0.board.current_hash ∧
    (popN (pushMany SP0 [MoveIn.stone 2 1 BLACK]) 1).board.position_history =
      SP0.board.position_history := by
  have hwf : BoardWf SP0.board := mk0_wf 5 (zobP2 5)
  have hidx : -1 ≤ SP0.current_index := by decide
  have hlen : (SP0.current_index + 1).toNat ≤ SP0.moves.length := by decide
  have hok : ∀ (k : ℕ) (m0 : MoveIn),
      [MoveIn.stone 2 1 BLACK].get? k = some m0 →
      (push (pushMany SP0 ([MoveIn.stone 2 1 BLACK].take k)) m0).1 = none := by
    intro k m0 hk
    cases k with
    | zero =>
      injection hk with h1
      subst h1
      decide
    | succ n => exact Option.noConfusion hk
  have hacc : ∀ (k : ℕ) (y x color : ℤ),
      [MoveIn.stone 2 1 BLACK].get? k = some (.stone y x color) →
      ∀ c ∈ interior
          (pushMany SP0 ([MoveIn.stone 2 1 BLACK].take k)).board.size,
        cellAt (pushMany SP0 ([MoveIn.stone 2 1 BLACK].take k)).board.grid
            c.1 c.2 = opponentOf color ∧
        cellAt (place_stone
            (pushMany SP0 ([MoveIn.stone 2 1 BLACK].take k)).board
            y x color).2.grid c.1 c.2 = EMPTY →
        c ∈ pushCaptList (pushMany SP0 ([MoveIn.stone 2 1 BLACK].take k))
          y x color := by
    intro k y x color hk
    cases k with
    | zero =>
      injection hk with h1
      injection h1 with hy hx hc
      subst hy
      subst hx
      subst hc
      decide
    | succ n => exact Option.noConfusion hk
  have h := undo_redo_restore.1 SP0 [MoveIn.stone 2 1 BLACK] hwf hidx hlen
    hok hacc
  exact ⟨h.1, h.2.2.1, h.2.2.2⟩

end Weiqi

